import Mathlib

/-!
# smbx-38a-starter: the self-extracting launcher (`sources/main.cpp`)

A shallow embedding of `tryCreateParentDir` and `WinMain` over an explicit
model of the three collaborators the program talks to:

* the file system (`std::filesystem` and `std::ofstream`), a finite table of
  directories and regular files addressed by absolute locations;
* the archive reader (minizip's `unz*` calls), a script of the results the
  reader hands back;
* the process launcher (`createTask`), recorded in a trace of external calls.

What the model takes for granted:

* Path strings are `List Char`; both `/` and `\` separate components, `.` and
  `..` are resolved lexically, and the root is its own parent (the program
  is a Windows program).
* The path iteration of `std::filesystem::path` is modelled for paths
  without a root name or root directory, which is all the program ever
  builds (every path starts with `./`).
* The file system accepts every file name, never runs out of space and
  grants every access; a call fails only for the shape of the tree (a
  missing or wrong-kind parent, a name that is taken, a directory that is
  not empty).
* The file name the reader stores is taken as the C string in the buffer;
  a name of `MAX_FILENAME` characters or more leaves the buffer without
  terminator.
* The launched payload is not part of the model: `createTask` is an event.
* Undefined behaviour ends a run without a result: the index outside the
  name of an entry, and the message of an exception that is printed after
  the string it points into is gone.
-/

namespace Starter

/-! ## File system model -/

abbrev Byte := Nat
abbrev Name := List Char
abbrev Loc := List Name

/-- A file system object: a directory or a regular file with its bytes. -/
inductive Node where
  | dir
  | file (content : List Byte)
  deriving DecidableEq, Repr

/-- The disk: the working directory of the process and the table of objects. -/
structure Disk where
  cwd : Loc
  nodes : List (Loc × Node)
  deriving DecidableEq, Repr

def lookupNode : List (Loc × Node) → Loc → Option Node
  | [], _ => none
  | (k, n) :: rest, l => if k = l then some n else lookupNode rest l

def Disk.lookup (d : Disk) (l : Loc) : Option Node := lookupNode d.nodes l

def Disk.erase (d : Disk) (l : Loc) : Disk :=
  { d with nodes := d.nodes.filter (fun b => decide (b.1 ≠ l)) }

def Disk.insert (d : Disk) (l : Loc) (n : Node) : Disk :=
  { d with nodes := (l, n) :: (d.erase l).nodes }

/-- Removes `l` and everything below it. -/
def Disk.eraseTree (d : Disk) (l : Loc) : Disk :=
  { d with nodes := d.nodes.filter (fun b => !(l.isPrefixOf b.1)) }

/-- No object has `l` as its parent. -/
def Disk.hasNoChild (d : Disk) (l : Loc) : Bool :=
  d.nodes.all (fun b => decide (b.1 = []) || decide (b.1.dropLast ≠ l))

/-! ## Paths -/

def isSeparator (c : Char) : Bool := c == '/' || c == '\\'

def endsWithSeparator (p : List Char) : Bool :=
  match p.getLast? with
  | some c => isSeparator c
  | none => false

/-- The pieces of a path string between separators, empty pieces included. -/
def splitPath : List Char → List Name
  | [] => [[]]
  | c :: cs =>
    if isSeparator c then [] :: splitPath cs
    else
      match splitPath cs with
      | [] => [[c]]
      | n :: ns => (c :: n) :: ns

/-- The elements `p.begin() .. p.end()` of a path without root name and root
directory: the file names in order, and an empty element at the end when a
separator follows the last file name. -/
def pathElements (p : List Char) : List Name :=
  let names := (splitPath p).filter (fun c => decide (c ≠ []))
  if endsWithSeparator p = true ∧ names ≠ [] then names ++ [[]] else names

/-- One step of lexical resolution. Empty pieces and `.` stay in place,
`..` moves to the parent (the root is its own parent), a name descends. -/
def normStep (l : Loc) (c : Name) : Loc :=
  if c = [] ∨ c = ['.'] then l
  else if c = ['.', '.'] then l.dropLast
  else l ++ [c]

/-- The location a path string names, relative paths starting at `cwd`. -/
def resolve (cwd : Loc) (p : List Char) : Loc :=
  (splitPath p).foldl normStep cwd

/-! ## `std::filesystem` and `std::ofstream` -/

/-- The exceptions that reach the `catch` of `WinMain`: the `exce` thrown by
the program itself, one constructor per message, and the
`filesystem_error` of the `std::filesystem` calls. -/
inductive Exn where
  | filesystem_error
  | globalInfo        -- "could not read file global info"
  | fileInfo          -- "could not read file info"
  | openFile          -- "could not open file"
  | openDestination   -- "could not open destination file"
  | readError (error : Int)   -- "error %d" + std::to_string(error)
  | nextFile          -- "could not read next file"
  deriving DecidableEq, Repr

/-- Whether `what()` still points to the message when the handler of
`WinMain` prints it (line 196). `exce(const char*)` keeps the pointer to a
string literal and `filesystem_error` owns its message; `exce(const
std::string&)` keeps `c_str()` of its argument (line 23), which at line 166
is a temporary that is destroyed when the `throw` expression ends. -/
def Exn.whatIsValid : Exn → Bool
  | .readError _ => false
  | _ => true

namespace fs

/-- `fs::exists(p)`. The empty path names nothing; a path ending in a
separator names only a directory. -/
def «exists» (d : Disk) (p : List Char) : Bool :=
  if p = [] then false
  else
    match d.lookup (resolve d.cwd p) with
    | none => false
    | some Node.dir => true
    | some (Node.file _) => !endsWithSeparator p

/-- `fs::create_directory(p)`: nothing happens when the directory is there
already; otherwise the parent has to be a directory and the name free. -/
def create_directory (d : Disk) (p : List Char) : Except Exn Disk :=
  let l := resolve d.cwd p
  match d.lookup l with
  | some Node.dir => .ok d
  | some (Node.file _) => .error .filesystem_error
  | none =>
    if l ≠ [] ∧ d.lookup l.dropLast = some Node.dir then .ok (d.insert l .dir)
    else .error .filesystem_error

/-- `fs::remove(p)`: deletes a file or an empty directory, does nothing when
`p` names nothing, fails on a directory that is not empty. -/
def remove (d : Disk) (p : List Char) : Except Exn Disk :=
  let l := resolve d.cwd p
  match d.lookup l with
  | none => .ok d
  | some (Node.file _) => .ok (d.erase l)
  | some Node.dir =>
    if d.hasNoChild l then .ok (d.erase l) else .error .filesystem_error

/-- `fs::remove_all(p)`: deletes `p` and everything below it. -/
def remove_all (d : Disk) (p : List Char) : Disk :=
  d.eraseTree (resolve d.cwd p)

end fs

namespace ofstream

/-- `f.open(p, binary | out | trunc)`: `none` when the stream does not open
(`is_open()` is false), otherwise the disk with the empty file in place. -/
def «open» (d : Disk) (p : List Char) : Option Disk :=
  let l := resolve d.cwd p
  if p = [] ∨ endsWithSeparator p = true then none
  else
    match d.lookup l with
    | some Node.dir => none
    | some (Node.file _) => some (d.insert l (.file []))
    | none =>
      if l ≠ [] ∧ d.lookup l.dropLast = some Node.dir then some (d.insert l (.file []))
      else none

/-- `f.write(buf, n)` on the stream opened on `l`: appends to the file. -/
def write (d : Disk) (l : Loc) (bytes : List Byte) : Disk :=
  match d.lookup l with
  | some (Node.file c) => d.insert l (.file (c ++ bytes))
  | _ => d

end ofstream

/-! ## The archive reader (minizip) -/

/-- One result of `unzReadCurrentFile(zipfile, read_buffer, READ_SIZE)`: the
returned number and what the call left in `read_buffer`. -/
structure ReadResult where
  error : Int
  buffer : List Byte
  deriving DecidableEq, Repr

/-- What the reader answers while one entry is the current file. -/
structure Entry where
  /-- `unzGetCurrentFileInfo`: the file name on `UNZ_OK`, `none` otherwise. -/
  info : Option (List Char)
  /-- `unzOpenCurrentFile(zipfile) == UNZ_OK`. -/
  openOk : Bool
  /-- The successive results of `unzReadCurrentFile`; once they are used up
  the reader answers 0. -/
  reads : List ReadResult
  /-- `unzGoToNextFile(zipfile) == UNZ_OK` when leaving this entry. -/
  nextOk : Bool
  deriving DecidableEq, Repr

/-- The embedded archive `RC::SRC_ZIP` as the reader presents it;
`global_info.number_entry` is the number of entries. -/
structure Archive where
  bytes : List Byte
  /-- `unzGetGlobalInfo(zipfile, &global_info) == UNZ_OK` on the opened file. -/
  globalInfoOk : Bool
  entries : List Entry

/-- The calls that leave the program, in the order they are made. The index
is the loop counter `i` of the entry being processed. -/
inductive Event where
  | unzOpen64
  | unzGetGlobalInfo
  | unzGetCurrentFileInfo (i : Nat)
  | unzOpenCurrentFile (i : Nat)
  | unzReadCurrentFile (i : Nat)
  | unzCloseCurrentFile (i : Nat)
  | unzGoToNextFile (i : Nat)
  | unzClose
  | createTask (content : List Char)
  | cerr (e : Exn)
  deriving DecidableEq, Repr

structure State where
  disk : Disk
  trace : List Event
  deriving DecidableEq, Repr

def State.log (s : State) (e : Event) : State := { s with trace := s.trace ++ [e] }

/-- How a piece of the program ends: normally, with an exception on its way
to the `catch`, or in undefined behaviour. -/
inductive Result where
  | ok (s : State)
  | threw (e : Exn) (s : State)
  | undefined
  deriving DecidableEq, Repr

/-! ## Constants of `main.cpp` -/

def gameName : List Char := "shadow2d".toList

def MAX_FILENAME : Nat := 512
def READ_SIZE : Nat := 8192
def DIR_IDENTIFY : Char := '/'

def gameSrcPath : List Char := "./!".toList ++ gameName ++ "_data/".toList
def gameRunnerPath : List Char := "./!".toList ++ gameName ++ "_data/smbx.exe".toList
def gameFilePath : List Char := "\"./!".toList ++ gameName ++ "_data/worlds/main.elvl\"".toList
def packTempPath : List Char := "./~".toList ++ gameName ++ "_temp".toList

deriving instance DecidableEq for Except

/-! ## `tryCreateParentDir` -/

/-- The `for` loop of `tryCreateParentDir`; `temp` is the path built so far
and the list holds the elements from `i` on. An exception leaves with the
disk as it is at the throw. -/
def tryCreateParentDirLoop (d : Disk) (temp : List Char) : List Name → Except (Exn × Disk) Disk
  | [] => .ok d
  | c :: rest =>
    let temp1 := temp ++ c ++ ['/']
    if rest = [] then .ok d
    else if fs.exists d temp1 then tryCreateParentDirLoop d temp1 rest
    else
      match fs.create_directory d temp1 with
      | .error x => .error (x, d)
      | .ok d1 => tryCreateParentDirLoop d1 temp1 rest

def tryCreateParentDir (d : Disk) (p : List Char) : Except (Exn × Disk) Disk :=
  if fs.exists d p then .ok d
  else tryCreateParentDirLoop d [] (pathElements p)

/-! ## `WinMain` -/

/-- The index `filename_length - 1` in `size_t` arithmetic. -/
def lastIndex (filename_length : Nat) : Nat := (filename_length + (2 ^ 64 - 1)) % 2 ^ 64

/-- The test `filename[filename_length-1] == DIR_IDENTIFY` on the name the
reader stored in `char filename[MAX_FILENAME]`. The reader writes the
terminator only behind a name shorter than the buffer, so `strlen` is
defined for those names only; `none` also when the index is outside the
name. -/
def isDirectoryEntry (filename : List Char) : Option Bool :=
  if MAX_FILENAME ≤ filename.length then none
  else
    match filename.get? (lastIndex filename.length) with
    | some c => some (c == DIR_IDENTIFY)
    | none => none

/-- The `do ... while (error > 0)` loop that copies the current file to the
stream opened on `dest`. -/
def copyLoop (i : Nat) (dest : Loc) : List ReadResult → State → Result
  | [], s => .ok (s.log (.unzReadCurrentFile i))
  | r :: rest, s =>
    let s1 := s.log (.unzReadCurrentFile i)
    if r.error < 0 then
      .threw (.readError r.error) ((s1.log (.unzCloseCurrentFile i)).log .unzClose)
    else if r.error > 0 then
      copyLoop i dest rest
        { s1 with disk := ofstream.write s1.disk dest (r.buffer.take r.error.toNat) }
    else .ok s1

/-- The part of the loop body that depends on the kind of the entry
(lines 129-174). -/
def extractEntry (i : Nat) (e : Entry) (filename : List Char) (s : State) : Result :=
  match isDirectoryEntry filename with
  | none => .undefined
  | some true =>
    if fs.exists s.disk (gameSrcPath ++ filename) then .ok s
    else
      match tryCreateParentDir s.disk (gameSrcPath ++ filename) with
      | .error (x, d1) => .threw x { s with disk := d1 }
      | .ok d1 =>
        match fs.create_directory d1 (gameSrcPath ++ filename) with
        | .error x => .threw x { s with disk := d1 }
        | .ok d2 => .ok { s with disk := d2 }
  | some false =>
    let s1 := s.log (.unzOpenCurrentFile i)
    if e.openOk = false then .threw .openFile (s1.log .unzClose)
    else
      match tryCreateParentDir s1.disk (gameSrcPath ++ filename) with
      | .error (x, d1) => .threw x { s1 with disk := d1 }
      | .ok d1 =>
        match ofstream.open d1 (gameSrcPath ++ filename) with
        | none =>
          .threw .openDestination
            (({ s1 with disk := d1 }.log (.unzCloseCurrentFile i)).log .unzClose)
        | some d2 =>
          copyLoop i (resolve d2.cwd (gameSrcPath ++ filename)) e.reads { s1 with disk := d2 }

/-- The extraction loop `for (i = 0; i < global_info.number_entry; ++i)`,
from counter `i` on, the list holding the entries not yet visited. -/
def extractLoop (number_entry : Nat) : Nat → List Entry → State → Result
  | _, [], s => .ok s
  | i, e :: rest, s =>
    let s1 := s.log (.unzGetCurrentFileInfo i)
    match e.info with
    | none => .threw .fileInfo (s1.log .unzClose)
    | some filename =>
      match extractEntry i e filename s1 with
      | .undefined => .undefined
      | .threw x s2 => .threw x s2
      | .ok s2 =>
        let s3 := s2.log (.unzCloseCurrentFile i)
        if i + 1 < number_entry then
          let s4 := s3.log (.unzGoToNextFile i)
          if e.nextOk = false then .threw .nextFile (s4.log .unzClose)
          else extractLoop number_entry (i + 1) rest s4
        else extractLoop number_entry (i + 1) rest s3

/-- The command line handed to `createTask`. -/
def launchCommand (exePath : List Char) : List Char :=
  exePath ++ ['/'] ++ gameRunnerPath ++ [' '] ++ gameFilePath

/-- The `try` block from the stale-data check to the global info of the
archive (lines 87-106): the state in which the extraction loop starts. -/
def prepare (z : Archive) (d : Disk) : Result :=
  let d1 := if fs.exists d gameSrcPath then fs.remove_all d gameSrcPath else d
  match (if fs.exists d1 packTempPath then fs.remove d1 packTempPath else .ok d1) with
  | .error x => .threw x ⟨d1, []⟩
  | .ok d2 =>
    let opened := ofstream.open d2 packTempPath
    let d3 :=
      match opened with
      | some d0 => ofstream.write d0 (resolve d0.cwd packTempPath) z.bytes
      | none => d2
    match fs.create_directory d3 gameSrcPath with
    | .error x => .threw x ⟨d3, []⟩
    | .ok d4 =>
      let s := (State.mk d4 [Event.unzOpen64]).log .unzGetGlobalInfo
      if opened.isSome = false ∨ z.globalInfoOk = false then
        .threw .globalInfo (s.log .unzClose)
      else .ok s

/-- The body of the `try` block after the fast path (lines 87-191). -/
def install (exePath : List Char) (z : Archive) (d : Disk) : Result :=
  match prepare z d with
  | .undefined => .undefined
  | .threw x s => .threw x s
  | .ok s =>
    match extractLoop z.entries.length 0 z.entries s with
    | .undefined => .undefined
    | .threw x s1 => .threw x s1
    | .ok s1 =>
      let s2 := s1.log .unzClose
      match fs.remove s2.disk packTempPath with
      | .error x => .threw x s2
      | .ok d5 => .ok ({ s2 with disk := d5 }.log (.createTask (launchCommand exePath)))

/-- `WinMain`: the state the process leaves behind, `none` when the run went
through undefined behaviour, in the loop or in the handler, which prints
`e.what()`. The return value is 0 on every path. -/
def WinMain (exePath : List Char) (z : Archive) (d : Disk) : Option State :=
  if fs.exists d gameRunnerPath then
    some ⟨d, [.createTask (launchCommand exePath)]⟩
  else
    match install exePath z d with
    | .ok s => some s
    | .threw x s => if x.whatIsValid then some (s.log (.cerr x)) else none
    | .undefined => none

/-! ## Names used in the statements -/

/-- The name of the data directory, `!shadow2d_data`. -/
def dataName : Name := "!".toList ++ gameName ++ "_data".toList

/-- The name of the temporary archive file, `~shadow2d_temp`. -/
def tempName : Name := "~".toList ++ gameName ++ "_temp".toList

/-- The location of the data directory `./!shadow2d_data/`. -/
def dataLoc (d : Disk) : Loc := d.cwd ++ [dataName]

/-- The location of the temporary archive file `./~shadow2d_temp`. -/
def tempLoc (d : Disk) : Loc := d.cwd ++ [tempName]

/-- The disk is shaped like a tree: whatever exists below the root lies in a
directory. -/
def Disk.WellFormed (d : Disk) : Prop :=
  ∀ l, l ≠ [] → d.lookup l ≠ none → d.lookup l.dropLast = some Node.dir

/-- A path string built so far by `tryCreateParentDir`: empty, or ending in
the separator the loop appends. -/
def Closed (temp : List Char) : Prop := temp = [] ∨ ∃ t, temp = t ++ ['/']

/-- No separator occurs in the name. -/
def SepFree (c : Name) : Prop := ∀ x ∈ c, isSeparator x = false

/-- What one round of the loop of `tryCreateParentDir` does at the location
the path built so far names. -/
def ensureDir (d : Disk) (l : Loc) : Except (Exn × Disk) Disk :=
  match d.lookup l with
  | some Node.dir => .ok d
  | some (Node.file _) => .error (.filesystem_error, d)
  | none =>
    if l ≠ [] ∧ d.lookup l.dropLast = some Node.dir then .ok (d.insert l .dir)
    else .error (.filesystem_error, d)

/-- The loop of `tryCreateParentDir` seen on locations. -/
def ensureChain (d : Disk) (l : Loc) : List Name → Except (Exn × Disk) Disk
  | [] => .ok d
  | c :: rest =>
    if rest = [] then .ok d
    else
      match ensureDir d (normStep l c) with
      | .error x => .error x
      | .ok d1 => ensureChain d1 (normStep l c) rest

/-- The locations the loop of `tryCreateParentDir` visits: the one after each
element but the last. -/
def chainLocs (l : Loc) : List Name → List Loc
  | [] => []
  | c :: rest => if rest = [] then [] else normStep l c :: chainLocs (normStep l c) rest

/-- The check behind `Disk.WellFormed`, on the table itself. -/
def Disk.wellFormedCheck (d : Disk) : Bool :=
  d.nodes.all (fun b => decide (b.1 = []) || decide (d.lookup b.1.dropLast = some Node.dir))

/-- A location that is free or holds a directory. -/
def Disk.freeOrDir (d : Disk) (l : Loc) : Prop :=
  d.lookup l = none ∨ d.lookup l = some Node.dir

instance (d : Disk) (l : Loc) : Decidable (d.freeOrDir l) := by
  unfold Disk.freeOrDir; infer_instance

/-- What a run of the loop may have done to the disk: new directories at
visited locations that were free, and nothing else. -/
def OnlyNewDirs (d d1 : Disk) (visited : List Loc) : Prop :=
  d1.cwd = d.cwd ∧
    ∀ l, d1.lookup l = d.lookup l ∨
      (d.lookup l = none ∧ d1.lookup l = some Node.dir ∧ l ∈ visited)

/-- A file name proper: not empty, not `.` and not `..`. -/
def IsName (c : Name) : Prop := c ≠ [] ∧ c ≠ ['.'] ∧ c ≠ ['.', '.']

instance (c : Name) : Decidable (IsName c) := by unfold IsName; infer_instance

/-- How the extraction walk may change the disk: directories appear at free
locations in `D`, files appear or are rewritten at locations in `F`, and
nothing else changes. -/
def Evolves (d d1 : Disk) (D F : Loc → Prop) : Prop :=
  d1.cwd = d.cwd ∧
    ∀ l, d1.lookup l = d.lookup l ∨
      (d.lookup l = none ∧ d1.lookup l = some Node.dir ∧ D l) ∨
      (F l ∧ d.lookup l ≠ some Node.dir ∧ ∃ c1, d1.lookup l = some (Node.file c1))

/-- The disk a piece of the program ends with, if it ends defined. -/
def Result.disk? : Result → Option Disk
  | .ok s => some s.disk
  | .threw _ s => some s.disk
  | .undefined => none

/-- The path the walk builds for an entry name. -/
def entryPath (filename : List Char) : List Char := gameSrcPath ++ filename

/-- The location an entry is extracted to. -/
def destLoc (cwd : Loc) (filename : List Char) : Loc := resolve cwd (entryPath filename)

/-- The elements of an entry path behind `.` and the data directory. -/
def entryElements (filename : List Char) : List Name :=
  let names := (splitPath filename).filter (fun c => decide (c ≠ []))
  if endsWithSeparator (gameSrcPath ++ filename) = true then names ++ [[]] else names

/-- The locations at which the walk may create a directory for an entry. -/
def dirPlaces (cwd : Loc) (filename : List Char) (l : Loc) : Prop :=
  l ∈ chainLocs cwd (pathElements (entryPath filename)) ∨ l = destLoc cwd filename

/-- The locations at which the walk may write a file for an entry. -/
def filePlaces (cwd : Loc) (filename : List Char) (l : Loc) : Prop :=
  isDirectoryEntry filename = some false ∧ l = destLoc cwd filename

/-- The state after the reads `good`, all of which delivered data. -/
def feed (i : Nat) (dest : Loc) (s : State) (r : ReadResult) : State :=
  { s.log (.unzReadCurrentFile i) with
    disk := ofstream.write (s.log (.unzReadCurrentFile i)).disk dest (r.buffer.take r.error.toNat) }

/-- The bytes a list of reads delivers, in order. -/
def delivered (reads : List ReadResult) : List Byte :=
  (reads.map (fun r => r.buffer.take r.error.toNat)).flatten

/-- The locations at which the walk may create a directory for some entry
of the list. -/
def dirPlacesOf (cwd : Loc) (es : List Entry) (l : Loc) : Prop :=
  ∃ e ∈ es, ∃ fn, e.info = some fn ∧ dirPlaces cwd fn l

/-- The locations at which the walk may write a file for some entry of the
list. -/
def filePlacesOf (cwd : Loc) (es : List Entry) (l : Loc) : Prop :=
  ∃ e ∈ es, ∃ fn, e.info = some fn ∧ filePlaces cwd fn l

/-- The loop counter an event of the reader belongs to. -/
def Event.index? : Event → Option Nat
  | .unzGetCurrentFileInfo i => some i
  | .unzOpenCurrentFile i => some i
  | .unzReadCurrentFile i => some i
  | .unzCloseCurrentFile i => some i
  | .unzGoToNextFile i => some i
  | _ => none

/-- An event the extraction loop can produce while its counter runs from
`lo` up to, but not including, `hi`. -/
def Event.inWalk (lo hi : Nat) (ev : Event) : Prop :=
  ev = .unzClose ∨ ∃ j, ev.index? = some j ∧ lo ≤ j ∧ j < hi

/-- The state a piece of the program ends with, if it ends defined. -/
def Result.state? : Result → Option State
  | .ok s => some s
  | .threw _ s => some s
  | .undefined => none

/-- The exception with which a piece of the program ends, if it ends so. -/
def Result.thrown? : Result → Option Exn
  | .threw x _ => some x
  | _ => none

/-- The piece of the program ends defined. -/
def Result.isDefined (r : Result) : Bool := r.state?.isSome

/-- The second trace continues the first with events of the extraction loop
whose counters lie in the given range. -/
def Continues (t t1 : List Event) (lo hi : Nat) : Prop :=
  ∃ evs, t1 = t ++ evs ∧ ∀ ev ∈ evs, ev.inWalk lo hi

/-! ## The tree an archive describes -/

/-- The locations `tryCreateParentDir` visits for an entry name. -/
def needDirs (cwd : Loc) (fn : List Char) : List Loc :=
  chainLocs cwd (pathElements (entryPath fn))

/-- The walk treats the entry as a file. -/
def Entry.isFile (e : Entry) : Bool :=
  match e.info with
  | some fn => decide (isDirectoryEntry fn = some false)
  | none => false

/-- The location the entry is extracted to. -/
def Entry.dest (cwd : Loc) (e : Entry) : Loc :=
  match e.info with
  | some fn => destLoc cwd fn
  | none => cwd

/-- The locations that have to be directories for the entry. -/
def Entry.dirs (cwd : Loc) (e : Entry) : List Loc :=
  match e.info with
  | some fn => needDirs cwd fn
  | none => []

/-- The bytes the reader delivers for the entry. -/
def Entry.content (e : Entry) : List Byte := delivered e.reads

/-- An entry the reader delivers whole and whose name the walk can extract:
the info and the advance succeed, the path has no `..`, and the entry is
either a directory entry or a file entry that opens, whose reads all
deliver data and whose path ends in a file name proper. -/
def Entry.Sound (e : Entry) : Prop :=
  e.nextOk = true ∧
    ∃ fn ∈ e.info, ['.', '.'] ∉ pathElements (entryPath fn) ∧
      (isDirectoryEntry fn = some true ∨
        (isDirectoryEntry fn = some false ∧ e.openOk = true ∧ (∀ r ∈ e.reads, 0 < r.error) ∧
          ∃ c ∈ (pathElements (entryPath fn)).getLast?, IsName c))

instance (e : Entry) : Decidable e.Sound := by unfold Entry.Sound; infer_instance

/-- All the locations that have to be directories for the entries. -/
def allDirs (cwd : Loc) (es : List Entry) : List Loc := es.flatMap (Entry.dirs cwd)

/-- No file entry is extracted to a location that has to be a directory. -/
def NoClash (cwd : Loc) (es : List Entry) : Prop :=
  ∀ f ∈ es, f.isFile = true → f.dest cwd ∉ allDirs cwd es

instance (cwd : Loc) (es : List Entry) : Decidable (NoClash cwd es) := by
  unfold NoClash; infer_instance

/-- The last file entry of the list that is extracted to `l`. -/
def lastFile (cwd : Loc) (es : List Entry) (l : Loc) : Option Entry :=
  (es.filter (fun e => e.isFile && decide (e.dest cwd = l))).getLast?

/-- The tree the entries describe, on top of the table `base`. -/
def expectedTree (cwd : Loc) (es : List Entry) (base : Loc → Option Node) (l : Loc) :
    Option Node :=
  match lastFile cwd es l with
  | some f => some (.file f.content)
  | none => if l ∈ allDirs cwd es then some .dir else base l

/-- What the extraction of one entry does to the table. -/
def entryEffect (cwd : Loc) (e : Entry) (base : Loc → Option Node) (l : Loc) : Option Node :=
  if e.isFile = true ∧ l = e.dest cwd then some (.file e.content)
  else if l ∈ e.dirs cwd then some .dir else base l

/-- The check that nothing lies below the data directory, on the table. -/
def Disk.dataDirEmptyCheck (d : Disk) : Bool :=
  d.nodes.all (fun b => !(dataLoc d).isPrefixOf b.1 || decide (b.1 = dataLoc d))

/-! ## Sample inputs -/

/-- A disk on which the working directory is the root and holds nothing. -/
def bareDisk : Disk := ⟨[], [([], .dir)]⟩

/-- A disk on which the working directory holds the empty data directory. -/
def freshDisk : Disk := ⟨[], [([dataName], .dir), ([], .dir)]⟩

/-- A file entry that the reader delivers whole, in the given chunks. -/
def fileEntry (name : String) (chunks : List (List Byte)) : Entry :=
  ⟨some name.toList, true, chunks.map (fun c => ⟨c.length, c⟩), true⟩

/-- A directory entry. -/
def dirEntry (name : String) : Entry := ⟨some name.toList, true, [], true⟩

/-- Two entries with the same name and different contents. -/
def twiceArchive : Archive :=
  ⟨[80, 75], true, [fileEntry "a.txt" [[1, 2, 3]], fileEntry "a.txt" [[9]]]⟩

/-- The archive of the example in the specification, with the payload. -/
def starterArchive : Archive :=
  ⟨[80, 75, 3, 4], true,
    [dirEntry "assets/", fileEntry "assets/sprite.png" [[1, 2, 3]],
      fileEntry "config.ini" [[7, 8], [9]], fileEntry "smbx.exe" [[77, 90]]]⟩

/-- An archive whose second entry fails with -1 on its second read. -/
def corruptArchive : Archive :=
  ⟨[80, 75, 3, 4], true,
    [fileEntry "a.txt" [[1, 2, 3]],
      ⟨some "b.txt".toList, true, [⟨2, [4, 5]⟩, ⟨-1, []⟩], true⟩,
      fileEntry "c.txt" [[6]]]⟩

/-- An archive of which the reader cannot deliver the info of the second
entry. -/
def unreadableArchive : Archive :=
  ⟨[80, 75, 3, 4], true, [fileEntry "a.txt" [[1, 2, 3]], ⟨none, true, [], true⟩]⟩

/-- An archive whose only entry has the empty name. -/
def namelessArchive : Archive := ⟨[80, 75, 3, 4], true, [⟨some [], true, [], true⟩]⟩

/-- An archive whose entry names a file above the data directory. -/
def escapingArchive : Archive :=
  ⟨[80, 75, 3, 4], true, [fileEntry "../evil.txt" [[66]]]⟩

/-- The state in which the walk over `corruptArchive` starts on a bare disk. -/
def corruptStart : State := (prepare corruptArchive bareDisk).state?.getD ⟨bareDisk, []⟩

/-- The state after the first entry of `corruptArchive`. -/
def corruptMid : State :=
  (extractLoop 3 0 [fileEntry "a.txt" [[1, 2, 3]]] corruptStart).state?.getD ⟨bareDisk, []⟩

/-- The entries of the specification's example with the file stored before
the entry of its parent directory. -/
def fileFirst : List Entry :=
  [fileEntry "assets/sprite.png" [[1, 2, 3]], dirEntry "assets/",
    fileEntry "config.ini" [[7, 8], [9]]]

/-- The same entries with the directory entry in front. -/
def dirFirst : List Entry :=
  [dirEntry "assets/", fileEntry "assets/sprite.png" [[1, 2, 3]],
    fileEntry "config.ini" [[7, 8], [9]]]

/-- A file entry whose parent directory has no entry, and a later file entry
with the name of that directory. -/
def clashEntries : List Entry :=
  [fileEntry "assets/sprite.png" [[1, 2, 3]], fileEntry "assets" [[5]]]

/-- An archive with a single file entry whose parent directory has no entry. -/
def loneFileArchive : Archive :=
  ⟨[80, 75, 3, 4], true, [fileEntry "assets/sprite.png" [[1, 2, 3]]]⟩

/-- The locations strictly below the data directory that hold an object. -/
def Disk.belowData (d : Disk) : List Loc :=
  (d.nodes.map Prod.fst).filter
    (fun l => (dataLoc d).isPrefixOf l && decide (l ≠ dataLoc d))

/-! ## The table of objects -/

@[simp] theorem Disk.cwd_erase (d : Disk) (l : Loc) : (d.erase l).cwd = d.cwd := rfl

@[simp] theorem Disk.cwd_insert (d : Disk) (l : Loc) (n : Node) : (d.insert l n).cwd = d.cwd := rfl

@[simp] theorem Disk.cwd_eraseTree (d : Disk) (l : Loc) : (d.eraseTree l).cwd = d.cwd := rfl

theorem lookupNode_filter (f : Loc → Bool) (ns : List (Loc × Node)) (l : Loc) :
    lookupNode (ns.filter (fun b => f b.1)) l = if f l = true then lookupNode ns l else none := by
  induction ns with
  | nil => simp [lookupNode]
  | cons b rest ih =>
    obtain ⟨k, n⟩ := b
    by_cases hk : f k = true
    · simp only [List.filter_cons, hk, if_true, lookupNode, ih]
      by_cases hkl : k = l
      · subst hkl; simp [hk]
      · simp [hkl]
    · have hf : (List.filter (fun b => f b.1) ((k, n) :: rest)) = List.filter (fun b => f b.1) rest := by
        simp [List.filter_cons, hk]
      rw [hf, ih]
      by_cases hkl : k = l
      · subst hkl; simp [hk]
      · simp [lookupNode, hkl]

theorem Disk.lookup_erase (d : Disk) (l l1 : Loc) :
    (d.erase l).lookup l1 = if l1 = l then none else d.lookup l1 := by
  unfold Disk.erase Disk.lookup
  have h := lookupNode_filter (fun k => decide (k ≠ l)) d.nodes l1
  simp only [] at h
  rw [h]
  by_cases hl : l1 = l <;> simp [hl]

theorem Disk.lookup_insert (d : Disk) (l : Loc) (n : Node) (l1 : Loc) :
    (d.insert l n).lookup l1 = if l1 = l then some n else d.lookup l1 := by
  have h := Disk.lookup_erase d l l1
  unfold Disk.lookup at h ⊢
  unfold Disk.insert
  simp only [lookupNode]
  by_cases hl : l1 = l
  · subst hl; simp
  · have hl2 : ¬ l = l1 := fun e => hl e.symm
    simp only [hl2, if_false, hl] at h ⊢
    exact h

theorem Disk.lookup_eraseTree (d : Disk) (l l1 : Loc) :
    (d.eraseTree l).lookup l1 = if l <+: l1 then none else d.lookup l1 := by
  unfold Disk.eraseTree Disk.lookup
  have h := lookupNode_filter (fun k => !(l.isPrefixOf k)) d.nodes l1
  simp only [] at h
  rw [h]
  by_cases hl : l <+: l1
  · simp [hl]
  · simp [hl]

theorem lookupNode_eq_none_of_not_mem (ns : List (Loc × Node)) (l : Loc)
    (h : ∀ b ∈ ns, b.1 ≠ l) : lookupNode ns l = none := by
  induction ns with
  | nil => rfl
  | cons b rest ih =>
    obtain ⟨k, n⟩ := b
    have hk : k ≠ l := h (k, n) (List.mem_cons_self _ _)
    simp only [lookupNode, hk, if_false]
    exact ih (fun b hb => h b (List.mem_cons_of_mem _ hb))

theorem lookupNode_ne_none_of_mem (ns : List (Loc × Node)) (b : Loc × Node) (h : b ∈ ns) :
    lookupNode ns b.1 ≠ none := by
  induction ns with
  | nil => simp at h
  | cons c rest ih =>
    obtain ⟨k, n⟩ := c
    by_cases hk : k = b.1
    · simp [lookupNode, hk]
    · simp only [lookupNode, hk, if_false]
      rcases List.mem_cons.1 h with h1 | h1
      · subst h1; exact absurd rfl hk
      · exact ih h1

theorem Disk.hasNoChild_iff (d : Disk) (l : Loc) :
    d.hasNoChild l = true ↔ ∀ l1, l1 ≠ [] → l1.dropLast = l → d.lookup l1 = none := by
  unfold Disk.hasNoChild Disk.lookup
  constructor
  · intro h l1 hne hdl
    apply lookupNode_eq_none_of_not_mem
    intro b hb hb1
    have := List.all_eq_true.1 h b hb
    simp [hb1, hne, hdl] at this
  · intro h
    apply List.all_eq_true.2
    intro b hb
    by_cases hb0 : b.1 = []
    · simp [hb0]
    · by_cases hb1 : b.1.dropLast = l
      · exact absurd (h b.1 hb0 hb1) (lookupNode_ne_none_of_mem _ b hb)
      · simp [hb1]

/-! ## Path strings -/

theorem splitPath_ne_nil (p : List Char) : splitPath p ≠ [] := by
  cases p with
  | nil => simp [splitPath]
  | cons c cs =>
    unfold splitPath
    by_cases hc : isSeparator c = true
    · simp [hc]
    · simp only [hc]
      cases splitPath cs <;> simp

theorem splitPath_append_sep (a b : List Char) (c : Char) (hc : isSeparator c = true) :
    splitPath (a ++ c :: b) = splitPath a ++ splitPath b := by
  induction a with
  | nil => simp [splitPath, hc]
  | cons x a ih =>
    by_cases hx : isSeparator x = true
    · simp [splitPath, hx, ih]
    · have h1 : splitPath (x :: a ++ c :: b) =
          match splitPath (a ++ c :: b) with
          | [] => [[x]]
          | n :: ns => (x :: n) :: ns := by
        simp [splitPath, hx]
      have h2 : splitPath (x :: a) =
          match splitPath a with
          | [] => [[x]]
          | n :: ns => (x :: n) :: ns := by
        simp [splitPath, hx]
      rw [h1, h2, ih]
      have hne := splitPath_ne_nil a
      cases hs : splitPath a with
      | nil => exact absurd hs hne
      | cons n ns => simp

theorem splitPath_sepFree (c : Name) (h : SepFree c) : splitPath c = [c] := by
  induction c with
  | nil => rfl
  | cons x c ih =>
    have hx : isSeparator x = false := h x (List.mem_cons_self _ _)
    have hc : SepFree c := fun y hy => h y (List.mem_cons_of_mem _ hy)
    simp [splitPath, hx, ih hc]

theorem sepFree_of_mem_splitPath (p : List Char) : ∀ c ∈ splitPath p, SepFree c := by
  induction p with
  | nil =>
    intro c hc
    simp [splitPath] at hc
    subst hc
    intro x hx
    simp at hx
  | cons x p ih =>
    intro c hc
    by_cases hx : isSeparator x = true
    · simp only [splitPath, hx, if_true, List.mem_cons] at hc
      rcases hc with hc | hc
      · subst hc; intro y hy; simp at hy
      · exact ih c hc
    · have hx1 : isSeparator x = false := by simpa using hx
      have hne := splitPath_ne_nil p
      cases hs : splitPath p with
      | nil => exact absurd hs hne
      | cons n ns =>
        have hc2 : c = x :: n ∨ c ∈ ns := by
          have h0 : splitPath (x :: p) = (x :: n) :: ns := by simp [splitPath, hx1, hs]
          rw [h0] at hc
          exact List.mem_cons.1 hc
        rcases hc2 with hc2 | hc2
        · subst hc2
          intro y hy
          rcases List.mem_cons.1 hy with hy | hy
          · subst hy; exact hx1
          · exact ih n (by simp [hs]) y hy
        · exact ih c (by rw [hs]; exact List.mem_cons_of_mem _ hc2)

theorem normStep_nil (l : Loc) : normStep l [] = l := by simp [normStep]

theorem foldl_normStep_filter (cs : List Name) (l : Loc) :
    (cs.filter (fun c => decide (c ≠ []))).foldl normStep l = cs.foldl normStep l := by
  induction cs generalizing l with
  | nil => rfl
  | cons c cs ih =>
    by_cases hc : c = []
    · have h0 : (c :: cs).filter (fun c => decide (c ≠ [])) = cs.filter (fun c => decide (c ≠ [])) := by
        simp [List.filter_cons, hc]
      rw [h0, ih, hc]
      simp [normStep_nil]
    · have h0 : (c :: cs).filter (fun c => decide (c ≠ [])) =
          c :: cs.filter (fun c => decide (c ≠ [])) := by
        simp [List.filter_cons, hc]
      rw [h0, List.foldl_cons, ih, List.foldl_cons]

theorem resolve_eq_foldl_pathElements (cwd : Loc) (p : List Char) :
    resolve cwd p = (pathElements p).foldl normStep cwd := by
  unfold resolve pathElements
  simp only []
  split
  · rw [List.foldl_append, foldl_normStep_filter]
    simp [normStep_nil]
  · rw [foldl_normStep_filter]

theorem sepFree_of_mem_pathElements (p : List Char) : ∀ c ∈ pathElements p, SepFree c := by
  intro c hc
  unfold pathElements at hc
  simp only [] at hc
  split at hc
  · rcases List.mem_append.1 hc with h | h
    · exact sepFree_of_mem_splitPath p c (List.mem_of_mem_filter h)
    · simp at h; subst h; intro x hx; simp at hx
  · exact sepFree_of_mem_splitPath p c (List.mem_of_mem_filter hc)

theorem resolve_nil (cwd : Loc) : resolve cwd [] = cwd := by
  simp [resolve, splitPath, normStep_nil]

theorem resolve_append_sep (cwd : Loc) (a b : List Char) (c : Char) (hc : isSeparator c = true) :
    resolve cwd (a ++ c :: b) = (splitPath b).foldl normStep (resolve cwd a) := by
  unfold resolve
  rw [splitPath_append_sep a b c hc, List.foldl_append]

theorem isSeparator_slash : isSeparator '/' = true := by decide

theorem resolve_step (cwd : Loc) (temp : List Char) (c : Name) (ht : Closed temp) (hc : SepFree c) :
    resolve cwd (temp ++ c ++ ['/']) = normStep (resolve cwd temp) c := by
  have h1 : resolve cwd (temp ++ c ++ ['/']) = resolve cwd (temp ++ c) := by
    rw [resolve_append_sep cwd (temp ++ c) [] '/' isSeparator_slash]
    simp [splitPath, normStep_nil]
  rw [h1]
  rcases ht with ht | ⟨t, ht⟩
  · subst ht
    simp [resolve, splitPath_sepFree c hc, splitPath, normStep_nil]
  · subst ht
    have h2 : t ++ ['/'] ++ c = t ++ '/' :: c := by simp
    have h3 : resolve cwd (t ++ ['/']) = resolve cwd t := by
      rw [resolve_append_sep cwd t [] '/' isSeparator_slash]
      simp [splitPath, normStep_nil]
    rw [h2, resolve_append_sep cwd t c '/' isSeparator_slash, splitPath_sepFree c hc, h3]
    rfl

theorem closed_step (temp : List Char) (c : Name) : Closed (temp ++ c ++ ['/']) :=
  Or.inr ⟨temp ++ c, rfl⟩

theorem endsWithSeparator_append_slash (t : List Char) : endsWithSeparator (t ++ ['/']) = true := by
  simp [endsWithSeparator, isSeparator_slash]

/-! ## `tryCreateParentDir` on locations -/

theorem exists_closed (d : Disk) (t : List Char) :
    fs.exists d (t ++ ['/']) = decide (d.lookup (resolve d.cwd (t ++ ['/'])) = some Node.dir) := by
  unfold fs.exists
  have hne : t ++ ['/'] ≠ [] := by simp
  simp only [hne, if_false, endsWithSeparator_append_slash]
  cases h : d.lookup (resolve d.cwd (t ++ ['/'])) with
  | none => simp
  | some n => cases n <;> simp

theorem tryCreateParentDirLoop_eq (cs : List Name) :
    ∀ (d : Disk) (temp : List Char), Closed temp → (∀ c ∈ cs, SepFree c) →
      tryCreateParentDirLoop d temp cs = ensureChain d (resolve d.cwd temp) cs := by
  induction cs with
  | nil => intro d temp _ _; rfl
  | cons c rest ih =>
    intro d temp ht hcs
    have hres := resolve_step d.cwd temp c ht (hcs c (List.mem_cons_self _ _))
    have hrest : ∀ c ∈ rest, SepFree c := fun x hx => hcs x (List.mem_cons_of_mem _ hx)
    have hcl := closed_step temp c
    unfold tryCreateParentDirLoop ensureChain
    by_cases hr : rest = []
    · simp [hr]
    · simp only [hr, if_false]
      rw [exists_closed, hres]
      unfold fs.create_directory ensureDir
      simp only [hres]
      cases hl : d.lookup (normStep (resolve d.cwd temp) c) with
      | none =>
        simp only []
        by_cases hp : normStep (resolve d.cwd temp) c ≠ [] ∧
            d.lookup (normStep (resolve d.cwd temp) c).dropLast = some Node.dir
        · rw [if_pos hp, if_pos hp]
          have := ih (d.insert (normStep (resolve d.cwd temp) c) .dir) (temp ++ c ++ ['/']) hcl hrest
          rw [Disk.cwd_insert, hres] at this
          simpa using this
        · rw [if_neg hp, if_neg hp]
          simp
      | some n =>
        cases n with
        | dir =>
          have := ih d (temp ++ c ++ ['/']) hcl hrest
          rw [hres] at this
          simpa using this
        | file c => simp

theorem tryCreateParentDir_eq (d : Disk) (p : List Char) :
    tryCreateParentDir d p =
      if fs.exists d p then .ok d else ensureChain d d.cwd (pathElements p) := by
  unfold tryCreateParentDir
  rw [tryCreateParentDirLoop_eq (pathElements p) d [] (Or.inl rfl) (sepFree_of_mem_pathElements p),
    resolve_nil]

theorem OnlyNewDirs.untouched (d : Disk) (v : List Loc) : OnlyNewDirs d d v :=
  ⟨rfl, fun _ => Or.inl rfl⟩

theorem ensureDir_frame (d : Disk) (l : Loc) :
    match ensureDir d l with
    | .ok d1 => OnlyNewDirs d d1 [l] ∧ d1.lookup l = some Node.dir
    | .error (_, d1) => d1 = d ∧ d.lookup l ≠ some Node.dir := by
  unfold ensureDir
  cases hl : d.lookup l with
  | none =>
    simp only []
    by_cases hp : l ≠ [] ∧ d.lookup l.dropLast = some Node.dir
    · rw [if_pos hp]
      refine ⟨⟨rfl, fun l1 => ?_⟩, ?_⟩
      · rw [Disk.lookup_insert]
        by_cases h1 : l1 = l
        · subst h1; right; simp [hl]
        · left; simp [h1]
      · simp [Disk.lookup_insert]
    · rw [if_neg hp]
      simp
  | some n =>
    cases n with
    | dir => exact ⟨OnlyNewDirs.untouched d _, hl⟩
    | file c => simp

theorem ensureChain_frame (cs : List Name) :
    ∀ (d : Disk) (l : Loc),
      match ensureChain d l cs with
      | .ok d1 => OnlyNewDirs d d1 (chainLocs l cs) ∧ ∀ l1 ∈ chainLocs l cs, d1.lookup l1 = some Node.dir
      | .error (_, d1) => OnlyNewDirs d d1 (chainLocs l cs) := by
  induction cs with
  | nil =>
    intro d l
    simp only [ensureChain, chainLocs]
    exact ⟨OnlyNewDirs.untouched d _, by simp⟩
  | cons c rest ih =>
    intro d l
    unfold ensureChain chainLocs
    by_cases hr : rest = []
    · simp only [hr, if_true]
      exact ⟨OnlyNewDirs.untouched d _, by simp⟩
    · simp only [hr, if_false]
      have h1 := ensureDir_frame d (normStep l c)
      cases he : ensureDir d (normStep l c) with
      | error x =>
        rw [he] at h1
        obtain ⟨x1, d1⟩ := x
        simp only [] at h1 ⊢
        rw [h1.1]
        exact OnlyNewDirs.untouched d _
      | ok d1 =>
        rw [he] at h1
        simp only [] at h1 ⊢
        obtain ⟨⟨hcwd, hfr⟩, hdir⟩ := h1
        have h2 := ih d1 (normStep l c)
        have key : ∀ d2, OnlyNewDirs d1 d2 (chainLocs (normStep l c) rest) →
            OnlyNewDirs d d2 (normStep l c :: chainLocs (normStep l c) rest) := by
          intro d2 ⟨hc2, hf2⟩
          refine ⟨hc2.trans hcwd, fun l1 => ?_⟩
          rcases hf2 l1 with e2 | ⟨n2, dd2, m2⟩
          · rcases hfr l1 with e1 | ⟨n1, dd1, m1⟩
            · left; rw [e2, e1]
            · right
              refine ⟨n1, by rw [e2, dd1], ?_⟩
              simp at m1
              simp [m1]
          · rcases hfr l1 with e1 | ⟨n1, dd1, m1⟩
            · right
              exact ⟨by rw [← e1, n2], dd2, List.mem_cons_of_mem _ m2⟩
            · rw [dd1] at n2; simp at n2
        cases he2 : ensureChain d1 (normStep l c) rest with
        | error x =>
          rw [he2] at h2
          obtain ⟨x1, d2⟩ := x
          simp only [] at h2 ⊢
          exact key d2 h2
        | ok d2 =>
          rw [he2] at h2
          simp only [] at h2 ⊢
          refine ⟨key d2 h2.1, fun l1 hl1 => ?_⟩
          rcases List.mem_cons.1 hl1 with h | h
          · subst h
            rcases h2.1.2 (normStep l c) with e | ⟨n, _, _⟩
            · rw [e, hdir]
            · rw [hdir] at n; simp at n
          · exact h2.2 l1 h

theorem dropLast_ne_self (l : Loc) (h : l ≠ []) : l.dropLast ≠ l := by
  intro e
  have := congrArg List.length e
  rw [List.length_dropLast] at this
  have : 0 < l.length := List.length_pos.2 h
  omega

theorem Disk.WellFormed.insert_dir {d : Disk} (hw : d.WellFormed) (l : Loc) (hl : l ≠ [])
    (hp : d.lookup l.dropLast = some Node.dir) : (d.insert l .dir).WellFormed := by
  intro l1 h1 hne
  rw [Disk.lookup_insert] at hne ⊢
  by_cases e : l1.dropLast = l
  · simp [e]
  · simp only [e, if_false]
    by_cases e1 : l1 = l
    · subst e1; exact hp
    · simp only [e1, if_false] at hne
      exact hw l1 h1 hne

theorem Disk.WellFormed.insert_file {d : Disk} (hw : d.WellFormed) (l : Loc) (c : List Byte)
    (hl : l ≠ []) (hp : d.lookup l.dropLast = some Node.dir) (hn : d.lookup l ≠ some Node.dir) :
    (d.insert l (.file c)).WellFormed := by
  intro l1 h1 hne
  rw [Disk.lookup_insert] at hne ⊢
  by_cases e1 : l1 = l
  · subst e1
    simp [dropLast_ne_self l1 h1, hp]
  · simp only [e1, if_false] at hne
    have := hw l1 h1 hne
    by_cases e : l1.dropLast = l
    · rw [e] at this; exact absurd this hn
    · simp [e, this]

theorem normStep_cases (l : Loc) (c : Name) :
    normStep l c = l ∨ normStep l c = l.dropLast ∨ normStep l c = l ++ [c] := by
  unfold normStep
  by_cases h1 : c = [] ∨ c = ['.']
  · simp [h1]
  · by_cases h2 : c = ['.', '.']
    · simp [h1, h2]
    · simp [h1, h2]

theorem ensureDir_ok (d : Disk) (l : Loc) (c : Name) (hw : d.WellFormed)
    (hl : d.lookup l = some Node.dir) (hf : ∀ b, d.lookup (normStep l c) ≠ some (Node.file b)) :
    ∃ d1, ensureDir d (normStep l c) = .ok d1 ∧ d1.WellFormed := by
  unfold ensureDir
  cases hL : d.lookup (normStep l c) with
  | some n =>
    cases n with
    | dir => exact ⟨d, rfl, hw⟩
    | file b => exact absurd hL (hf b)
  | none =>
    rcases normStep_cases l c with h | h | h
    · rw [h, hl] at hL; simp at hL
    · by_cases h0 : l = []
      · rw [h, h0] at hL; rw [h0] at hl; simp at hL; rw [hl] at hL; simp at hL
      · have := hw l h0 (by rw [hl]; simp)
        rw [h, this] at hL; simp at hL
    · have hp : normStep l c ≠ [] ∧ d.lookup (normStep l c).dropLast = some Node.dir := by
        rw [h]; simp [hl]
      simp only []
      rw [if_pos hp]
      exact ⟨_, rfl, hw.insert_dir _ hp.1 hp.2⟩

theorem ensureChain_ok (cs : List Name) :
    ∀ (d : Disk) (l : Loc), d.WellFormed → d.lookup l = some Node.dir →
      (∀ l1 ∈ chainLocs l cs, ∀ b, d.lookup l1 ≠ some (Node.file b)) →
      ∃ d1, ensureChain d l cs = .ok d1 ∧ d1.WellFormed := by
  induction cs with
  | nil => intro d l hw _ _; exact ⟨d, rfl, hw⟩
  | cons c rest ih =>
    intro d l hw hl hf
    unfold ensureChain
    by_cases hr : rest = []
    · simp only [hr, if_true]; exact ⟨d, rfl, hw⟩
    · simp only [hr, if_false]
      have hmem : ∀ l1, l1 = normStep l c ∨ l1 ∈ chainLocs (normStep l c) rest →
          l1 ∈ chainLocs l (c :: rest) := by
        intro l1 h
        unfold chainLocs
        simp only [hr, if_false]
        exact List.mem_cons.2 h
      obtain ⟨d1, h1, hw1⟩ := ensureDir_ok d l c hw hl (hf _ (hmem _ (Or.inl rfl)))
      have hfr := ensureDir_frame d (normStep l c)
      rw [h1] at hfr ⊢
      simp only [] at hfr ⊢
      apply ih d1 (normStep l c) hw1 hfr.2
      intro l1 hl1 b
      rcases hfr.1.2 l1 with e | ⟨_, e, _⟩
      · rw [e]; exact hf l1 (hmem _ (Or.inr hl1)) b
      · rw [e]; simp

theorem Disk.wellFormed_of_check (d : Disk) (h : d.wellFormedCheck = true) : d.WellFormed := by
  intro l hl hne
  unfold Disk.wellFormedCheck at h
  have hall := List.all_eq_true.1 h
  by_contra hcon
  apply hne
  unfold Disk.lookup
  apply lookupNode_eq_none_of_not_mem
  intro b hb hbl
  have := hall b hb
  rw [hbl] at this
  simp [hl, hcon] at this

theorem Disk.freeOrDir_iff (d : Disk) (l : Loc) :
    d.freeOrDir l ↔ ∀ b, d.lookup l ≠ some (Node.file b) := by
  unfold Disk.freeOrDir
  cases h : d.lookup l with
  | none => simp
  | some n => cases n <;> simp

theorem wf_prefix_dir (d : Disk) (hw : d.WellFormed) (l : Loc) (t : List Name) :
    t ≠ [] → d.lookup (l ++ t) ≠ none → d.lookup l = some Node.dir := by
  induction t using List.reverseRecOn with
  | nil => intro h; exact absurd rfl h
  | append_singleton t x ih =>
    intro _ hne
    have h1 : l ++ (t ++ [x]) ≠ [] := by simp
    have h2 := hw _ h1 hne
    have h3 : (l ++ (t ++ [x])).dropLast = l ++ t := by
      rw [← List.append_assoc, List.dropLast_concat]
    rw [h3] at h2
    by_cases ht : t = []
    · subst ht; simpa using h2
    · exact ih ht (by rw [h2]; simp)

theorem normStep_noDotDot (l : Loc) (c : Name) (hc : c ≠ ['.', '.']) :
    normStep l c = l ∨ normStep l c = l ++ [c] := by
  unfold normStep
  by_cases h1 : c = [] ∨ c = ['.']
  · simp [h1]
  · simp [h1, hc]

theorem foldl_normStep_extends (cs : List Name) :
    ∀ l : Loc, ['.', '.'] ∉ cs → l <+: cs.foldl normStep l := by
  induction cs with
  | nil => intro l _; exact List.prefix_refl l
  | cons c rest ih =>
    intro l h
    have hc : c ≠ ['.', '.'] := fun e => h (by simp [e])
    have hrest : ['.', '.'] ∉ rest := fun e => h (List.mem_cons_of_mem _ e)
    rw [List.foldl_cons]
    rcases normStep_noDotDot l c hc with e | e
    · rw [e]; exact ih l hrest
    · rw [e]; exact (List.prefix_append l [c]).trans (ih _ hrest)

theorem chainLocs_between (cs : List Name) :
    ∀ l : Loc, ['.', '.'] ∉ cs → ∀ l1 ∈ chainLocs l cs, l <+: l1 ∧ l1 <+: cs.foldl normStep l := by
  induction cs with
  | nil => intro l _ l1 h; simp [chainLocs] at h
  | cons c rest ih =>
    intro l h l1 hl1
    have hc : c ≠ ['.', '.'] := fun e => h (by simp [e])
    have hrest : ['.', '.'] ∉ rest := fun e => h (List.mem_cons_of_mem _ e)
    unfold chainLocs at hl1
    by_cases hr : rest = []
    · simp [hr] at hl1
    · simp only [hr, if_false] at hl1
      have hL : l <+: normStep l c := by
        rcases normStep_noDotDot l c hc with e | e
        · rw [e]
        · rw [e]; exact List.prefix_append l [c]
      rw [List.foldl_cons]
      rcases List.mem_cons.1 hl1 with e | e
      · subst e; exact ⟨hL, foldl_normStep_extends rest _ hrest⟩
      · have := ih (normStep l c) hrest l1 e
        exact ⟨hL.trans this.1, this.2⟩

theorem ensureChain_noop (cs : List Name) :
    ∀ (d : Disk) (l : Loc), (∀ l1 ∈ chainLocs l cs, d.lookup l1 = some Node.dir) →
      ensureChain d l cs = .ok d := by
  induction cs with
  | nil => intro d l _; rfl
  | cons c rest ih =>
    intro d l h
    unfold ensureChain
    by_cases hr : rest = []
    · simp [hr]
    · simp only [hr, if_false]
      have hmem : ∀ l1, l1 = normStep l c ∨ l1 ∈ chainLocs (normStep l c) rest →
          l1 ∈ chainLocs l (c :: rest) := by
        intro l1 h
        unfold chainLocs
        simp only [hr, if_false]
        exact List.mem_cons.2 h
      have h1 : ensureDir d (normStep l c) = .ok d := by
        unfold ensureDir
        rw [h _ (hmem _ (Or.inl rfl))]
      rw [h1]
      exact ih d (normStep l c) (fun l1 hl1 => h l1 (hmem _ (Or.inr hl1)))

theorem normStep_name (l : Loc) (c : Name) (hc : IsName c) : normStep l c = l ++ [c] := by
  unfold normStep
  simp [hc.1, hc.2.1, hc.2.2]

theorem chainLocs_concat (cs : List Name) (x : Name) :
    ∀ l : Loc, cs ≠ [] → cs.foldl normStep l ∈ chainLocs l (cs ++ [x]) := by
  induction cs with
  | nil => intro l h; exact absurd rfl h
  | cons c rest ih =>
    intro l _
    have hne : rest ++ [x] ≠ [] := by simp
    rw [List.cons_append, List.foldl_cons]
    unfold chainLocs
    simp only [hne, if_false]
    by_cases hr : rest = []
    · subst hr; simp
    · exact List.mem_cons_of_mem _ (ih _ hr)

theorem chainLocs_concat_below (init : List Name) (x : Name) :
    ∀ l : Loc, ['.', '.'] ∉ init →
      ∀ l1 ∈ chainLocs l (init ++ [x]), l1 <+: init.foldl normStep l := by
  induction init with
  | nil => intro l _ l1 h; simp [chainLocs] at h
  | cons c rest ih =>
    intro l h l1 hl1
    have hrest : ['.', '.'] ∉ rest := fun e => h (List.mem_cons_of_mem _ e)
    have hne : rest ++ [x] ≠ [] := by simp
    rw [List.cons_append] at hl1
    unfold chainLocs at hl1
    simp only [hne, if_false] at hl1
    rw [List.foldl_cons]
    rcases List.mem_cons.1 hl1 with e | e
    · rw [e]; exact foldl_normStep_extends rest _ hrest
    · exact ih _ hrest l1 e

theorem pathElements_trailing (p : List Char) (h : [] ∈ pathElements p) :
    ∃ names, names ≠ [] ∧ pathElements p = names ++ [[]] := by
  unfold pathElements at h ⊢
  simp only [] at h ⊢
  split at h
  · rename_i hc
    rw [if_pos hc]
    exact ⟨_, hc.2, rfl⟩
  · have := List.of_mem_filter h
    simp at this

theorem exists_true_lookup (d : Disk) (p : List Char) (h : fs.exists d p = true) :
    d.lookup (resolve d.cwd p) ≠ none := by
  unfold fs.exists at h
  by_cases hp : p = []
  · simp [hp] at h
  · simp only [hp, if_false] at h
    intro e
    rw [e] at h
    simp at h

/-- C10 (as amended): on a tree-shaped disk whose working directory exists,
for a path `p` whose ancestors are free or directories,
`tryCreateParentDir p` returns normally; when `p` did not exist, or `p` has
no `..` element, the location after each element but the last is a
directory afterwards; the only change is the creation of such directories
where nothing was, so every object that existed is unchanged; the location
`p` itself names is not created when it is not among those locations, as
for a path without `..` that ends in a file name proper, but it is created
when `p` ends in a
separator behind a name; a second call changes nothing; and when `p`
exists the call changes nothing at all. -/
theorem tryCreateParentDir_postcondition (d : Disk) (p : List Char)
    (hw : d.WellFormed) (hcwd : d.lookup d.cwd = some Node.dir)
    (hanc : ∀ l ∈ chainLocs d.cwd (pathElements p), d.freeOrDir l) :
    ∃ d1, tryCreateParentDir d p = .ok d1 ∧
      ((fs.exists d p = false ∨ ['.', '.'] ∉ pathElements p) →
        ∀ l ∈ chainLocs d.cwd (pathElements p), d1.lookup l = some Node.dir) ∧
      (∀ l, d1.lookup l = d.lookup l ∨
        (d.lookup l = none ∧ d1.lookup l = some Node.dir ∧
          l ∈ chainLocs d.cwd (pathElements p))) ∧
      (∀ l n, d.lookup l = some n → d1.lookup l = some n) ∧
      (resolve d.cwd p ∉ chainLocs d.cwd (pathElements p) →
        d1.lookup (resolve d.cwd p) = d.lookup (resolve d.cwd p)) ∧
      ((['.', '.'] ∉ pathElements p ∧ ∃ c ∈ (pathElements p).getLast?, IsName c) →
        d1.lookup (resolve d.cwd p) = d.lookup (resolve d.cwd p)) ∧
      (fs.exists d p = false → [] ∈ pathElements p →
        d1.lookup (resolve d.cwd p) = some Node.dir) ∧
      tryCreateParentDir d1 p = .ok d1 ∧
      (fs.exists d p = true → d1 = d) := by
  have hframe := ensureChain_frame (pathElements p) d d.cwd
  have hanc2 : ∀ l1 ∈ chainLocs d.cwd (pathElements p), ∀ b, d.lookup l1 ≠ some (Node.file b) :=
    fun l1 h1 => (Disk.freeOrDir_iff d l1).1 (hanc l1 h1)
  obtain ⟨d2, hd2, _⟩ := ensureChain_ok (pathElements p) d d.cwd hw hcwd hanc2
  rw [hd2] at hframe
  simp only [] at hframe
  obtain ⟨⟨hcwd2, hfr⟩, hdirs⟩ := hframe
  have hnames : (['.', '.'] ∉ pathElements p ∧ ∃ c ∈ (pathElements p).getLast?, IsName c) →
      resolve d.cwd p ∉ chainLocs d.cwd (pathElements p) := by
    rintro ⟨hdd, c, hc, hn⟩ hmem
    have hsplit := List.dropLast_append_getLast? c hc
    have hdd2 : ['.', '.'] ∉ (pathElements p).dropLast := fun e => hdd (List.dropLast_subset _ e)
    rw [← hsplit] at hmem
    have hpre := chainLocs_concat_below _ c d.cwd hdd2 _ hmem
    rw [resolve_eq_foldl_pathElements] at hpre
    conv at hpre => lhs; rw [← hsplit]
    rw [List.foldl_append] at hpre
    simp only [List.foldl_cons, List.foldl_nil, normStep_name _ c hn] at hpre
    have := hpre.length_le
    simp at this
  by_cases hex : fs.exists d p = true
  · refine ⟨d, by rw [tryCreateParentDir_eq, if_pos hex], ?_, fun l => Or.inl rfl,
      fun l n h => h, fun _ => rfl, fun _ => rfl, ?_, by rw [tryCreateParentDir_eq, if_pos hex],
      fun _ => rfl⟩
    · intro hor l hl
      rcases hor with h | h
      · rw [hex] at h; simp at h
      · have hpre := chainLocs_between (pathElements p) d.cwd h l hl
        rw [← resolve_eq_foldl_pathElements] at hpre
        have hne := exists_true_lookup d p hex
        by_cases e : l = resolve d.cwd p
        · rcases hanc l hl with h0 | h0
          · rw [e] at h0; exact absurd h0 hne
          · exact h0
        · obtain ⟨t, ht⟩ := hpre.2
          have ht0 : t ≠ [] := by
            intro h0; subst h0; simp at ht; exact e ht
          rw [← ht] at hne
          exact wf_prefix_dir d hw l t ht0 hne
    · intro h; rw [hex] at h; simp at h
  · have hex2 : fs.exists d p = false := by simpa using hex
    have hrun : tryCreateParentDir d p = .ok d2 := by
      rw [tryCreateParentDir_eq, if_neg hex, hd2]
    have hkeep : ∀ l n, d.lookup l = some n → d2.lookup l = some n := by
      intro l n h
      rcases hfr l with e | ⟨e, _, _⟩
      · rw [e, h]
      · rw [h] at e; simp at e
    have hself : resolve d.cwd p ∉ chainLocs d.cwd (pathElements p) →
        d2.lookup (resolve d.cwd p) = d.lookup (resolve d.cwd p) := by
      intro hn
      rcases hfr (resolve d.cwd p) with e | ⟨_, _, e⟩
      · exact e
      · exact absurd e hn
    refine ⟨d2, hrun, fun _ => hdirs, hfr, hkeep, hself, fun hn => hself (hnames hn), ?_, ?_,
      fun h => by rw [hex2] at h; simp at h⟩
    · intro _ hmem
      obtain ⟨names, hne, hel⟩ := pathElements_trailing p hmem
      apply hdirs
      rw [resolve_eq_foldl_pathElements, hel, List.foldl_append]
      simp only [List.foldl_cons, List.foldl_nil, normStep_nil]
      exact chainLocs_concat names [] d.cwd hne
    · rw [tryCreateParentDir_eq]
      by_cases hex3 : fs.exists d2 p = true
      · rw [if_pos hex3]
      · rw [if_neg hex3, hcwd2]
        exact ensureChain_noop _ _ _ hdirs

/-! ## What the walk can change -/

theorem Evolves.unchanged (d : Disk) (D F : Loc → Prop) : Evolves d d D F :=
  ⟨rfl, fun _ => Or.inl rfl⟩

theorem Evolves.trans {d d1 d2 : Disk} {D F : Loc → Prop} (h1 : Evolves d d1 D F)
    (h2 : Evolves d1 d2 D F) : Evolves d d2 D F := by
  refine ⟨h2.1.trans h1.1, fun l => ?_⟩
  rcases h1.2 l with a1 | ⟨b1, b2, b3⟩ | ⟨c1, c2, c3, c4⟩
  · rcases h2.2 l with a2 | ⟨e1, e2, e3⟩ | ⟨f1, f2, f3⟩
    · left; rw [a2, a1]
    · right; left; exact ⟨by rw [← a1]; exact e1, e2, e3⟩
    · right; right; exact ⟨f1, by rw [← a1]; exact f2, f3⟩
  · rcases h2.2 l with a2 | ⟨e1, e2, e3⟩ | ⟨f1, f2, f3⟩
    · right; left; exact ⟨b1, by rw [a2]; exact b2, b3⟩
    · rw [b2] at e1; simp at e1
    · exact absurd b2 f2
  · rcases h2.2 l with a2 | ⟨e1, e2, e3⟩ | ⟨f1, f2, f3⟩
    · right; right; exact ⟨c1, c2, c3, by rw [a2]; exact c4⟩
    · rw [c4] at e1; simp at e1
    · right; right; exact ⟨c1, c2, f3⟩

theorem Evolves.mono {d d1 : Disk} {D F D1 F1 : Loc → Prop} (h : Evolves d d1 D F)
    (hD : ∀ l, D l → D1 l) (hF : ∀ l, F l → F1 l) : Evolves d d1 D1 F1 := by
  refine ⟨h.1, fun l => ?_⟩
  rcases h.2 l with a | ⟨b1, b2, b3⟩ | ⟨c1, c2, c3⟩
  · exact Or.inl a
  · exact Or.inr (Or.inl ⟨b1, b2, hD l b3⟩)
  · exact Or.inr (Or.inr ⟨hF l c1, c2, c3⟩)

/-- Whatever existed stays, a directory as it was and a file as a file. -/
theorem Evolves.keeps {d d1 : Disk} {D F : Loc → Prop} (h : Evolves d d1 D F) (l : Loc)
    (hl : d.lookup l ≠ none) : d1.lookup l ≠ none := by
  rcases h.2 l with a | ⟨b1, _, _⟩ | ⟨_, _, c, hc⟩
  · rw [a]; exact hl
  · exact absurd b1 hl
  · rw [hc]; simp

theorem Evolves.keeps_outside {d d1 : Disk} {D F : Loc → Prop} (h : Evolves d d1 D F) (l : Loc)
    (n : Node) (hl : d.lookup l = some n) (hF : ¬ F l) : d1.lookup l = some n := by
  rcases h.2 l with a | ⟨b1, _, _⟩ | ⟨c, _, _⟩
  · rw [a]; exact hl
  · rw [hl] at b1; simp at b1
  · exact absurd c hF

theorem OnlyNewDirs.evolves {d d1 : Disk} {v : List Loc} (h : OnlyNewDirs d d1 v)
    (F : Loc → Prop) : Evolves d d1 (fun l => l ∈ v) F := by
  refine ⟨h.1, fun l => ?_⟩
  rcases h.2 l with a | b
  · exact Or.inl a
  · exact Or.inr (Or.inl b)

theorem write_cwd (d : Disk) (l : Loc) (b : List Byte) : (ofstream.write d l b).cwd = d.cwd := by
  unfold ofstream.write
  cases d.lookup l with
  | none => rfl
  | some n => cases n <;> rfl

theorem write_lookup (d : Disk) (dest : Loc) (b c0 : List Byte)
    (h : d.lookup dest = some (Node.file c0)) (l : Loc) :
    (ofstream.write d dest b).lookup l =
      if l = dest then some (Node.file (c0 ++ b)) else d.lookup l := by
  unfold ofstream.write
  rw [h]
  simp only []
  rw [Disk.lookup_insert]

theorem open_some (d d2 : Disk) (p : List Char) (h : ofstream.open d p = some d2) :
    d2 = d.insert (resolve d.cwd p) (.file []) ∧ d.lookup (resolve d.cwd p) ≠ some Node.dir ∧
      p ≠ [] ∧ endsWithSeparator p = false ∧
      ((∃ c, d.lookup (resolve d.cwd p) = some (Node.file c)) ∨
        (d.lookup (resolve d.cwd p) = none ∧ resolve d.cwd p ≠ [] ∧
          d.lookup (resolve d.cwd p).dropLast = some Node.dir)) := by
  unfold ofstream.open at h
  simp only [] at h
  by_cases hp : p = [] ∨ endsWithSeparator p = true
  · rw [if_pos hp] at h; simp at h
  · rw [if_neg hp] at h
    have hp1 : p ≠ [] := fun e => hp (Or.inl e)
    have hp2 : endsWithSeparator p = false := by
      cases he : endsWithSeparator p with
      | true => exact absurd (Or.inr he) hp
      | false => rfl
    cases hl : d.lookup (resolve d.cwd p) with
    | none =>
      rw [hl] at h
      simp only [] at h
      by_cases hc : resolve d.cwd p ≠ [] ∧ d.lookup (resolve d.cwd p).dropLast = some Node.dir
      · rw [if_pos hc] at h
        simp only [Option.some.injEq] at h
        exact ⟨h.symm, by simp, hp1, hp2, Or.inr ⟨rfl, hc.1, hc.2⟩⟩
      · rw [if_neg hc] at h; simp at h
    | some n =>
      rw [hl] at h
      cases n with
      | dir => simp at h
      | file c =>
        simp only [Option.some.injEq] at h
        exact ⟨h.symm, by simp, hp1, hp2, Or.inl ⟨c, rfl⟩⟩

theorem copyLoop_frame (i : Nat) (dest : Loc) (reads : List ReadResult) :
    ∀ (s : State) (c0 : List Byte), s.disk.lookup dest = some (Node.file c0) →
      ∃ d1, (copyLoop i dest reads s).disk? = some d1 ∧ d1.cwd = s.disk.cwd ∧
        (∀ l, l ≠ dest → d1.lookup l = s.disk.lookup l) ∧
        ∃ c1, d1.lookup dest = some (Node.file c1) := by
  induction reads with
  | nil =>
    intro s c0 h
    exact ⟨s.disk, rfl, rfl, fun _ _ => rfl, c0, h⟩
  | cons r rest ih =>
    intro s c0 h
    unfold copyLoop
    simp only []
    by_cases h1 : r.error < 0
    · rw [if_pos h1]
      exact ⟨s.disk, rfl, rfl, fun _ _ => rfl, c0, h⟩
    · rw [if_neg h1]
      by_cases h2 : r.error > 0
      · rw [if_pos h2]
        have hw := write_lookup s.disk dest (r.buffer.take r.error.toNat) c0 h
        have h3 : (ofstream.write s.disk dest (r.buffer.take r.error.toNat)).lookup dest =
            some (Node.file (c0 ++ r.buffer.take r.error.toNat)) := by
          rw [hw]; simp
        obtain ⟨d1, e1, e2, e3, e4⟩ := ih
          { s.log (.unzReadCurrentFile i) with
            disk := ofstream.write (s.log (.unzReadCurrentFile i)).disk dest
              (r.buffer.take r.error.toNat) } _ h3
        refine ⟨d1, e1, ?_, ?_, e4⟩
        · rw [e2]; exact write_cwd _ _ _
        · intro l hl
          rw [e3 l hl]
          have := hw l
          simp only [hl, if_false] at this
          exact this
      · rw [if_neg h2]
        exact ⟨s.disk, rfl, rfl, fun _ _ => rfl, c0, h⟩

theorem create_directory_frame (d : Disk) (p : List Char) :
    match fs.create_directory d p with
    | .ok d1 => OnlyNewDirs d d1 [resolve d.cwd p] ∧ d1.lookup (resolve d.cwd p) = some Node.dir
    | .error _ => d.lookup (resolve d.cwd p) ≠ some Node.dir := by
  unfold fs.create_directory
  simp only []
  cases hl : d.lookup (resolve d.cwd p) with
  | none =>
    simp only []
    by_cases hp : resolve d.cwd p ≠ [] ∧ d.lookup (resolve d.cwd p).dropLast = some Node.dir
    · rw [if_pos hp]
      refine ⟨⟨rfl, fun l1 => ?_⟩, ?_⟩
      · rw [Disk.lookup_insert]
        by_cases h1 : l1 = resolve d.cwd p
        · rw [h1]; right; simp [hl]
        · left; simp [h1]
      · simp [Disk.lookup_insert]
    · rw [if_neg hp]
      simp
  | some n =>
    cases n with
    | dir => exact ⟨OnlyNewDirs.untouched d _, hl⟩
    | file c => simp

theorem tryCreateParentDir_frame (d : Disk) (p : List Char) :
    match tryCreateParentDir d p with
    | .ok d1 => OnlyNewDirs d d1 (chainLocs d.cwd (pathElements p))
    | .error (_, d1) => OnlyNewDirs d d1 (chainLocs d.cwd (pathElements p)) := by
  rw [tryCreateParentDir_eq]
  by_cases hex : fs.exists d p = true
  · rw [if_pos hex]; exact OnlyNewDirs.untouched d _
  · rw [if_neg hex]
    have := ensureChain_frame (pathElements p) d d.cwd
    cases h : ensureChain d d.cwd (pathElements p) with
    | ok d1 => rw [h] at this; exact this.1
    | error x => rw [h] at this; exact this

theorem extractEntry_frame (i : Nat) (e : Entry) (fn : List Char) (s : State) (d1 : Disk)
    (h : (extractEntry i e fn s).disk? = some d1) :
    Evolves s.disk d1 (dirPlaces s.disk.cwd fn) (filePlaces s.disk.cwd fn) := by
  unfold extractEntry at h
  cases hdir : isDirectoryEntry fn with
  | none => rw [hdir] at h; simp [Result.disk?] at h
  | some b =>
    rw [hdir] at h
    have hchain : ∀ l, l ∈ chainLocs s.disk.cwd (pathElements (gameSrcPath ++ fn)) →
        dirPlaces s.disk.cwd fn l := fun l hl => Or.inl hl
    cases b with
    | true =>
      simp only [] at h
      by_cases hex : fs.exists s.disk (gameSrcPath ++ fn) = true
      · rw [if_pos hex] at h
        simp only [Result.disk?, Option.some.injEq] at h
        rw [← h]; exact Evolves.unchanged _ _ _
      · rw [if_neg hex] at h
        have hf := tryCreateParentDir_frame s.disk (gameSrcPath ++ fn)
        cases ht : tryCreateParentDir s.disk (gameSrcPath ++ fn) with
        | error x =>
          obtain ⟨x1, d2⟩ := x
          rw [ht] at h hf
          simp only [Result.disk?, Option.some.injEq] at h hf
          rw [← h]
          exact (hf.evolves _).mono hchain (fun _ hl => hl)
        | ok d2 =>
          rw [ht] at h hf
          simp only [] at h hf
          have h2 := (hf.evolves (filePlaces s.disk.cwd fn)).mono hchain (fun _ hl => hl)
          have hc := create_directory_frame d2 (gameSrcPath ++ fn)
          cases hcd : fs.create_directory d2 (gameSrcPath ++ fn) with
          | error x =>
            rw [hcd] at h
            simp only [Result.disk?, Option.some.injEq] at h
            rw [← h]; exact h2
          | ok d3 =>
            rw [hcd] at h hc
            simp only [Result.disk?, Option.some.injEq] at h hc
            rw [← h]
            refine h2.trans ((hc.1.evolves _).mono ?_ (fun _ hl => hl))
            intro l hl
            simp only [List.mem_singleton] at hl
            right
            rw [hl, hf.1]; rfl
    | false =>
      simp only [] at h
      by_cases hop : e.openOk = false
      · rw [if_pos hop] at h
        simp only [Result.disk?, Option.some.injEq, State.log] at h
        rw [← h]; exact Evolves.unchanged _ _ _
      · rw [if_neg hop] at h
        have hf := tryCreateParentDir_frame s.disk (gameSrcPath ++ fn)
        simp only [State.log] at h
        cases ht : tryCreateParentDir s.disk (gameSrcPath ++ fn) with
        | error x =>
          obtain ⟨x1, d2⟩ := x
          rw [ht] at h hf
          simp only [Result.disk?, Option.some.injEq] at h hf
          rw [← h]
          exact (hf.evolves _).mono hchain (fun _ hl => hl)
        | ok d2 =>
          rw [ht] at h hf
          simp only [] at h hf
          have h2 := (hf.evolves (filePlaces s.disk.cwd fn)).mono hchain (fun _ hl => hl)
          cases hod : ofstream.open d2 (gameSrcPath ++ fn) with
          | none =>
            rw [hod] at h
            simp only [Result.disk?, Option.some.injEq] at h
            rw [← h]; exact h2
          | some d3 =>
            rw [hod] at h
            simp only [] at h
            obtain ⟨e3, hnd, _, _, _⟩ := open_some d2 d3 _ hod
            have hd3 : d3.lookup (resolve d3.cwd (gameSrcPath ++ fn)) = some (Node.file []) := by
              rw [e3, Disk.cwd_insert, Disk.lookup_insert]; simp
            obtain ⟨d4, e4, c4, f4, c1, g4⟩ := copyLoop_frame i
              (resolve d3.cwd (gameSrcPath ++ fn)) e.reads
              { disk := d3, trace := s.trace ++ [Event.unzOpenCurrentFile i] } [] hd3
            rw [e4] at h
            simp only [Option.some.injEq] at h
            subst h
            have hcw : d3.cwd = d2.cwd := by rw [e3]; rfl
            simp only [hcw] at f4 g4 c4
            refine h2.trans ⟨c4, fun l => ?_⟩
            by_cases hl : l = resolve d2.cwd (gameSrcPath ++ fn)
            · right; right
              rw [hl]
              refine ⟨⟨hdir, ?_⟩, hnd, c1, g4⟩
              rw [hf.1]; rfl
            · left
              rw [f4 l hl, e3, Disk.lookup_insert]
              simp [hl]

/-! ## The extraction loop -/

theorem extractLoop_append (n : Nat) (pre post : List Entry) :
    ∀ (i : Nat) (s : State),
      extractLoop n i (pre ++ post) s =
        match extractLoop n i pre s with
        | .ok s1 => extractLoop n (i + pre.length) post s1
        | .threw x s1 => .threw x s1
        | .undefined => .undefined := by
  induction pre with
  | nil => intro i s; simp [extractLoop]
  | cons e pre ih =>
    intro i s
    simp only [List.cons_append, extractLoop]
    cases e.info with
    | none => rfl
    | some fn =>
      simp only []
      cases extractEntry i e fn (s.log (.unzGetCurrentFileInfo i)) with
      | undefined => rfl
      | threw x s2 => rfl
      | ok s2 =>
        simp only []
        have hlen : i + (pre.length + 1) = i + 1 + pre.length := by omega
        by_cases h1 : i + 1 < n
        · simp only [h1, if_true]
          by_cases h2 : e.nextOk = false
          · simp only [h2, if_true]
          · simp only [h2, if_false, List.length_cons, hlen]
            exact ih _ _
        · simp only [h1, if_false, List.length_cons, hlen]
          exact ih _ _

theorem disk?_eq_map_state? (r : Result) : r.disk? = r.state?.map State.disk := by
  cases r <;> rfl

theorem extractLoop_frame (n : Nat) (es : List Entry) :
    ∀ (i : Nat) (s : State) (d1 : Disk), (extractLoop n i es s).disk? = some d1 →
      Evolves s.disk d1 (dirPlacesOf s.disk.cwd es) (filePlacesOf s.disk.cwd es) := by
  induction es with
  | nil =>
    intro i s d1 h
    simp only [extractLoop, Result.disk?, Option.some.injEq] at h
    rw [← h]; exact Evolves.unchanged _ _ _
  | cons e es ih =>
    intro i s d1 h
    unfold extractLoop at h
    simp only [] at h
    cases hinfo : e.info with
    | none =>
      rw [hinfo] at h
      simp only [Result.disk?, Option.some.injEq, State.log] at h
      rw [← h]; exact Evolves.unchanged _ _ _
    | some fn =>
      rw [hinfo] at h
      simp only [] at h
      have hD : ∀ l, dirPlaces s.disk.cwd fn l → dirPlacesOf s.disk.cwd (e :: es) l :=
        fun l hl => ⟨e, List.mem_cons_self _ _, fn, hinfo, hl⟩
      have hF : ∀ l, filePlaces s.disk.cwd fn l → filePlacesOf s.disk.cwd (e :: es) l :=
        fun l hl => ⟨e, List.mem_cons_self _ _, fn, hinfo, hl⟩
      have hstep := extractEntry_frame i e fn (s.log (.unzGetCurrentFileInfo i))
      cases hent : extractEntry i e fn (s.log (.unzGetCurrentFileInfo i)) with
      | undefined => rw [hent] at h; simp [Result.disk?] at h
      | threw x s2 =>
        rw [hent] at h hstep
        simp only [Result.disk?, Option.some.injEq] at h
        rw [← h]
        exact (hstep s2.disk rfl).mono hD hF
      | ok s2 =>
        rw [hent] at h hstep
        have h2 := (hstep s2.disk rfl).mono hD hF
        simp only [State.log] at h2
        have hcw : s2.disk.cwd = s.disk.cwd := h2.1
        have hrest : ∀ s3 : State, s3.disk = s2.disk →
            (extractLoop n (i + 1) es s3).disk? = some d1 →
            Evolves s.disk d1 (dirPlacesOf s.disk.cwd (e :: es)) (filePlacesOf s.disk.cwd (e :: es)) := by
          intro s3 hs3 h3
          have := ih (i + 1) s3 d1 h3
          rw [hs3, hcw] at this
          refine h2.trans (this.mono ?_ ?_)
          · rintro l ⟨e1, he1, r⟩; exact ⟨e1, List.mem_cons_of_mem _ he1, r⟩
          · rintro l ⟨e1, he1, r⟩; exact ⟨e1, List.mem_cons_of_mem _ he1, r⟩
        simp only [] at h
        by_cases h1 : i + 1 < n
        · simp only [h1, if_true] at h
          by_cases hn : e.nextOk = false
          · rw [if_pos hn] at h
            simp only [Result.disk?, Option.some.injEq, State.log] at h
            rw [← h]; exact h2
          · rw [if_neg hn] at h
            refine hrest _ ?_ h
            rfl
        · simp only [h1, if_false] at h
          refine hrest _ ?_ h
          rfl

theorem copyLoop_defined (i : Nat) (dest : Loc) (reads : List ReadResult) :
    ∀ s : State, copyLoop i dest reads s ≠ .undefined := by
  induction reads with
  | nil => intro s; simp [copyLoop]
  | cons r rest ih =>
    intro s
    unfold copyLoop
    simp only []
    by_cases h1 : r.error < 0
    · rw [if_pos h1]; simp
    · rw [if_neg h1]
      by_cases h2 : r.error > 0
      · rw [if_pos h2]; exact ih _
      · rw [if_neg h2]; simp

theorem extractEntry_defined (i : Nat) (e : Entry) (fn : List Char) (s : State)
    (h : isDirectoryEntry fn ≠ none) : extractEntry i e fn s ≠ .undefined := by
  unfold extractEntry
  cases hdir : isDirectoryEntry fn with
  | none => exact absurd hdir h
  | some b =>
    cases b with
    | true =>
      simp only []
      split
      · simp
      · split
        · simp
        · split <;> simp
    | false =>
      simp only []
      split
      · simp
      · split
        · simp
        · split
          · simp
          · exact copyLoop_defined _ _ _ _

theorem extractLoop_defined (n : Nat) (es : List Entry) :
    ∀ (i : Nat) (s : State),
      (∀ e ∈ es, ∀ fn, e.info = some fn → isDirectoryEntry fn ≠ none) →
      extractLoop n i es s ≠ .undefined := by
  induction es with
  | nil => intro i s _; simp [extractLoop]
  | cons e es ih =>
    intro i s h
    have hes : ∀ e1 ∈ es, ∀ fn, e1.info = some fn → isDirectoryEntry fn ≠ none :=
      fun e1 h1 => h e1 (List.mem_cons_of_mem _ h1)
    unfold extractLoop
    simp only []
    cases hinfo : e.info with
    | none => simp
    | some fn =>
      simp only []
      have hd := extractEntry_defined i e fn (s.log (.unzGetCurrentFileInfo i))
        (h e (List.mem_cons_self _ _) fn hinfo)
      cases hent : extractEntry i e fn (s.log (.unzGetCurrentFileInfo i)) with
      | undefined => exact absurd hent hd
      | threw x s2 => simp
      | ok s2 =>
        simp only []
        by_cases h1 : i + 1 < n
        · simp only [h1, if_true]
          by_cases hn : e.nextOk = false
          · simp [hn]
          · simp only [hn, if_false]; exact ih _ _ hes
        · simp only [h1, if_false]; exact ih _ _ hes

theorem state?_of_ne_undefined (r : Result) (h : r ≠ .undefined) : ∃ s, r.state? = some s := by
  cases r with
  | ok s => exact ⟨s, rfl⟩
  | threw x s => exact ⟨s, rfl⟩
  | undefined => exact absurd rfl h

/-! ## The copy loop -/

theorem copyLoop_good (i : Nat) (dest : Loc) (good tail : List ReadResult) :
    ∀ s : State, (∀ r ∈ good, 0 < r.error) →
      copyLoop i dest (good ++ tail) s = copyLoop i dest tail (good.foldl (feed i dest) s) := by
  induction good with
  | nil => intro s _; rfl
  | cons r good ih =>
    intro s h
    have hr : 0 < r.error := h r (List.mem_cons_self _ _)
    have hr1 : ¬ r.error < 0 := by omega
    rw [List.cons_append, List.foldl_cons]
    conv => lhs; unfold copyLoop
    simp only [hr1, if_false, gt_iff_lt, hr, if_true]
    exact ih _ (fun x hx => h x (List.mem_cons_of_mem _ hx))

theorem feed_foldl (i : Nat) (dest : Loc) (good : List ReadResult) :
    ∀ (s : State) (c0 : List Byte), s.disk.lookup dest = some (Node.file c0) →
      (good.foldl (feed i dest) s).disk.cwd = s.disk.cwd ∧
      (∀ l, (good.foldl (feed i dest) s).disk.lookup l =
        if l = dest then some (Node.file (c0 ++ delivered good)) else s.disk.lookup l) ∧
      (good.foldl (feed i dest) s).trace =
        s.trace ++ List.replicate good.length (Event.unzReadCurrentFile i) := by
  induction good with
  | nil =>
    intro s c0 h
    refine ⟨rfl, fun l => ?_, by simp⟩
    by_cases hl : l = dest
    · simp [hl, delivered, h]
    · simp [hl]
  | cons r good ih =>
    intro s c0 h
    rw [List.foldl_cons]
    have hw := write_lookup s.disk dest (r.buffer.take r.error.toNat) c0 h
    have h1 : (feed i dest s r).disk.lookup dest =
        some (Node.file (c0 ++ r.buffer.take r.error.toNat)) := by
      simp only [feed, State.log]
      rw [hw]; simp
    obtain ⟨a1, a2, a3⟩ := ih (feed i dest s r) _ h1
    refine ⟨?_, fun l => ?_, ?_⟩
    · rw [a1]; simp only [feed, State.log]; exact write_cwd _ _ _
    · rw [a2 l]
      by_cases hl : l = dest
      · simp [hl, delivered, List.append_assoc]
      · simp only [hl, if_false, feed, State.log]
        rw [hw l]; simp [hl]
    · rw [a3]
      simp [feed, State.log, List.replicate_succ]

theorem delivered_eq_buffers (reads : List ReadResult)
    (h : ∀ r ∈ reads, r.buffer.length = r.error.toNat) :
    delivered reads = (reads.map ReadResult.buffer).flatten := by
  unfold delivered
  congr 1
  apply List.map_congr_left
  intro r hr
  rw [← h r hr, List.take_length]

theorem extractEntry_file (i : Nat) (e : Entry) (fn : List Char) (s : State) (d2 d3 : Disk)
    (hfile : isDirectoryEntry fn = some false) (hopen : e.openOk = true)
    (hparent : tryCreateParentDir s.disk (entryPath fn) = .ok d2)
    (hdest : ofstream.open d2 (entryPath fn) = some d3) :
    extractEntry i e fn s =
      copyLoop i (destLoc s.disk.cwd fn) e.reads
        { disk := d3, trace := s.trace ++ [Event.unzOpenCurrentFile i] } ∧
      d3.cwd = s.disk.cwd ∧
      d3.lookup (destLoc s.disk.cwd fn) = some (Node.file []) ∧
      Evolves s.disk d3 (dirPlaces s.disk.cwd fn) (filePlaces s.disk.cwd fn) := by
  unfold entryPath at hparent hdest
  have hf := tryCreateParentDir_frame s.disk (gameSrcPath ++ fn)
  rw [hparent] at hf
  simp only [] at hf
  obtain ⟨e3, hnd, _, _, _⟩ := open_some d2 d3 _ hdest
  have hcw : d3.cwd = s.disk.cwd := by rw [e3, Disk.cwd_insert, hf.1]
  have hdl : destLoc s.disk.cwd fn = resolve d2.cwd (gameSrcPath ++ fn) := by
    rw [hf.1]; rfl
  refine ⟨?_, hcw, ?_, ?_⟩
  · unfold extractEntry
    rw [hfile]
    simp only [State.log, hopen, Bool.true_eq_false, if_false, hparent, hdest, hcw]
    rfl
  · rw [hdl, e3, Disk.lookup_insert]; simp
  · have h2 := (hf.evolves (filePlaces s.disk.cwd fn)).mono
      (fun l hl => (Or.inl hl : dirPlaces s.disk.cwd fn l)) (fun _ hl => hl)
    refine h2.trans ⟨by rw [e3]; rfl, fun l => ?_⟩
    by_cases hl : l = resolve d2.cwd (gameSrcPath ++ fn)
    · right; right
      refine ⟨⟨hfile, by rw [hl, hdl]⟩, by rw [hl]; exact hnd, [], ?_⟩
      rw [hl, e3, Disk.lookup_insert]; simp
    · left
      rw [e3, Disk.lookup_insert]; simp [hl]

theorem extractLoop_cons (n i : Nat) (e : Entry) (post : List Entry) (s : State) :
    extractLoop n i (e :: post) s =
      match e.info with
      | none => .threw .fileInfo ((s.log (.unzGetCurrentFileInfo i)).log .unzClose)
      | some filename =>
        match extractEntry i e filename (s.log (.unzGetCurrentFileInfo i)) with
        | .undefined => .undefined
        | .threw x s2 => .threw x s2
        | .ok s2 =>
          if i + 1 < n then
            if e.nextOk = false then
              .threw .nextFile
                (((s2.log (.unzCloseCurrentFile i)).log (.unzGoToNextFile i)).log .unzClose)
            else
              extractLoop n (i + 1) post
                ((s2.log (.unzCloseCurrentFile i)).log (.unzGoToNextFile i))
          else extractLoop n (i + 1) post (s2.log (.unzCloseCurrentFile i)) := by
  rw [extractLoop]

theorem extractLoop_cons_ok (n i : Nat) (e : Entry) (post : List Entry) (s s2 : State)
    (fn : List Char) (hinfo : e.info = some fn)
    (hent : extractEntry i e fn (s.log (.unzGetCurrentFileInfo i)) = .ok s2) :
    ∃ s3, s3.disk = s2.disk ∧
      (extractLoop n i (e :: post) s = .threw .nextFile s3 ∨
        extractLoop n i (e :: post) s = extractLoop n (i + 1) post s3) := by
  rw [extractLoop_cons]
  simp only [hinfo, hent]
  by_cases h1 : i + 1 < n
  · simp only [h1, if_true]
    by_cases hn : e.nextOk = false
    · rw [if_pos hn]
      exact ⟨(((s2.log (.unzCloseCurrentFile i)).log (.unzGoToNextFile i)).log .unzClose), rfl,
        Or.inl rfl⟩
    · rw [if_neg hn]
      exact ⟨((s2.log (.unzCloseCurrentFile i)).log (.unzGoToNextFile i)), rfl, Or.inr rfl⟩
  · simp only [h1, if_false]
    exact ⟨(s2.log (.unzCloseCurrentFile i)), rfl, Or.inr rfl⟩

theorem extractLoop_cons_threw (n i : Nat) (e : Entry) (post : List Entry) (s s2 : State)
    (fn : List Char) (x : Exn) (hinfo : e.info = some fn)
    (hent : extractEntry i e fn (s.log (.unzGetCurrentFileInfo i)) = .threw x s2) :
    extractLoop n i (e :: post) s = .threw x s2 := by
  rw [extractLoop_cons]
  simp only [hinfo, hent]

theorem not_filePlacesOf (cwd : Loc) (post : List Entry) (l : Loc)
    (h : ∀ e1 ∈ post, ∀ fn1 ∈ e1.info, destLoc cwd fn1 ≠ l) : ¬ filePlacesOf cwd post l := by
  rintro ⟨e1, he1, fn1, hfn1, _, hl⟩
  exact h e1 he1 fn1 (by simp [hfn1]) hl.symm

/-- C1 (as amended): when the walk reaches a file entry, its destination
opens and the reader hands back the entry's stream as chunks of 1..8192
bytes followed by 0, then after the walk, completed or aborted at a later
entry, the file at `dataDir + entry.path` holds exactly the concatenation of
those chunks, provided no later entry is extracted to the same location
(later entries having names of 1 to 511 characters). -/
theorem file_entry_round_trip (pre post : List Entry) (e : Entry) (fn : List Char)
    (s0 s1 : State) (d2 d3 : Disk)
    (hpre : extractLoop (pre ++ e :: post).length 0 pre s0 = .ok s1)
    (hinfo : e.info = some fn) (hfile : isDirectoryEntry fn = some false)
    (hopen : e.openOk = true)
    (hparent : tryCreateParentDir s1.disk (entryPath fn) = .ok d2)
    (hdest : ofstream.open d2 (entryPath fn) = some d3)
    (hreads : ∀ r ∈ e.reads, 0 < r.error ∧ r.error ≤ READ_SIZE ∧ r.buffer.length = r.error.toNat)
    (hlater : ∀ e1 ∈ post, ∀ fn1 ∈ e1.info,
      isDirectoryEntry fn1 ≠ none ∧ destLoc s0.disk.cwd fn1 ≠ destLoc s0.disk.cwd fn) :
    ∃ sf, (extractLoop (pre ++ e :: post).length 0 (pre ++ e :: post) s0).state? = some sf ∧
      sf.disk.lookup (destLoc s0.disk.cwd fn) =
        some (Node.file (e.reads.map ReadResult.buffer).flatten) := by
  have hcw1 : s1.disk.cwd = s0.disk.cwd :=
    (extractLoop_frame _ pre 0 s0 s1.disk (by rw [hpre]; rfl)).1
  rw [extractLoop_append, hpre]
  simp only []
  obtain ⟨hE, hcw3, hl3, _⟩ := extractEntry_file (0 + pre.length) e fn
    (s1.log (.unzGetCurrentFileInfo (0 + pre.length))) d2 d3 hfile hopen hparent hdest
  simp only [State.log] at hE hcw3 hl3
  have hgood : ∀ r ∈ e.reads, 0 < r.error := fun r hr => (hreads r hr).1
  have hcopy := copyLoop_good (0 + pre.length) (destLoc s1.disk.cwd fn) e.reads []
    { disk := d3, trace := s1.trace ++ [Event.unzGetCurrentFileInfo (0 + pre.length)] ++
      [Event.unzOpenCurrentFile (0 + pre.length)] } hgood
  rw [List.append_nil] at hcopy
  rw [hcopy] at hE
  obtain ⟨f1, f2, _⟩ := feed_foldl (0 + pre.length) (destLoc s1.disk.cwd fn) e.reads
    { disk := d3, trace := s1.trace ++ [Event.unzGetCurrentFileInfo (0 + pre.length)] ++
      [Event.unzOpenCurrentFile (0 + pre.length)] } [] hl3
  simp only [copyLoop] at hE
  obtain ⟨s3, hs3, hor⟩ := extractLoop_cons_ok (pre ++ e :: post).length (0 + pre.length) e post
    s1 _ fn hinfo hE
  simp only [State.log] at hs3
  have hcontent : s3.disk.lookup (destLoc s0.disk.cwd fn) =
      some (Node.file (e.reads.map ReadResult.buffer).flatten) := by
    rw [hs3, ← hcw1, f2]
    simp only [if_true, List.nil_append]
    rw [delivered_eq_buffers e.reads (fun r hr => (hreads r hr).2.2)]
  have hcw : s3.disk.cwd = s0.disk.cwd := by
    rw [hs3, f1, hcw3, hcw1]
  rcases hor with h | h
  · rw [h]; exact ⟨s3, rfl, hcontent⟩
  · rw [h]
    have hdef := extractLoop_defined (pre ++ e :: post).length post (0 + pre.length + 1) s3
      (fun e1 he1 fn1 hfn1 => (hlater e1 he1 fn1 (by simp [hfn1])).1)
    obtain ⟨sf, hsf⟩ := state?_of_ne_undefined _ hdef
    refine ⟨sf, hsf, ?_⟩
    have hfr := extractLoop_frame (pre ++ e :: post).length post (0 + pre.length + 1) s3 sf.disk
      (by rw [disk?_eq_map_state?, hsf]; rfl)
    apply hfr.keeps_outside _ _ hcontent
    rw [hcw]
    exact not_filePlacesOf _ _ _ (fun e1 he1 fn1 hfn1 => (hlater e1 he1 fn1 hfn1).2)

/-- C1, witness: the entry `config.ini`, delivered in two chunks, between a
directory entry and another file. -/
theorem file_entry_round_trip_witness :
    (extractLoop 3 0 [dirEntry "assets/", fileEntry "config.ini" [[7, 8], [9]],
        fileEntry "assets/sprite.png" [[1, 2, 3]]] ⟨freshDisk, []⟩).state?.map
      (fun sf => sf.disk.lookup (destLoc [] "config.ini".toList)) =
      some (some (Node.file [7, 8, 9])) := by
  obtain ⟨sf, h1, h2⟩ := file_entry_round_trip [dirEntry "assets/"]
    [fileEntry "assets/sprite.png" [[1, 2, 3]]] (fileEntry "config.ini" [[7, 8], [9]])
    "config.ini".toList ⟨freshDisk, []⟩
    ⟨freshDisk.insert [dataName, "assets".toList] .dir,
      [.unzGetCurrentFileInfo 0, .unzCloseCurrentFile 0, .unzGoToNextFile 0]⟩
    (freshDisk.insert [dataName, "assets".toList] .dir)
    ((freshDisk.insert [dataName, "assets".toList] .dir).insert
      [dataName, "config.ini".toList] (.file []))
    (by decide) (by decide) (by decide) (by decide) (by decide) (by decide) (by decide) (by decide)
  simp only [List.cons_append, List.nil_append, List.length_cons, List.length_nil] at h1
  rw [h1]
  simpa [fileEntry] using h2

/-- C1, counterexample: two entries named `a.txt`; the reads of the first
succeed with the bytes 1, 2, 3, and after the walk the file holds the byte 9
of the second. -/
theorem later_entry_overwrites :
    (twiceArchive.entries.head?.map (fun e => e.reads.map ReadResult.buffer)) = some [[1, 2, 3]] ∧
    (WinMain [] twiceArchive bareDisk).map
      (fun s => s.disk.lookup (destLoc [] "a.txt".toList)) = some (some (Node.file [9])) := by
  decide

/-- C10, witness: the parents of `./!shadow2d_data/assets/sprite.png` on a
disk that holds the empty data directory. -/
theorem tryCreateParentDir_postcondition_witness :
    freshDisk.WellFormed ∧ freshDisk.lookup freshDisk.cwd = some Node.dir ∧
    (∀ l ∈ chainLocs freshDisk.cwd (pathElements (entryPath "assets/sprite.png".toList)),
      freshDisk.freeOrDir l) ∧
    ∃ d1, tryCreateParentDir freshDisk (entryPath "assets/sprite.png".toList) = .ok d1 ∧
      d1.lookup [dataName, "assets".toList] = some Node.dir ∧
      d1.lookup (resolve freshDisk.cwd (entryPath "assets/sprite.png".toList)) = none ∧
      tryCreateParentDir d1 (entryPath "assets/sprite.png".toList) = .ok d1 := by
  have hw : freshDisk.WellFormed := Disk.wellFormed_of_check _ (by decide)
  have hc : freshDisk.lookup freshDisk.cwd = some Node.dir := by decide
  have ha : ∀ l ∈ chainLocs freshDisk.cwd (pathElements (entryPath "assets/sprite.png".toList)),
      freshDisk.freeOrDir l := by decide
  obtain ⟨d1, h1, h2, _, _, _, h6, _, h8, _⟩ :=
    tryCreateParentDir_postcondition freshDisk (entryPath "assets/sprite.png".toList) hw hc ha
  refine ⟨hw, hc, ha, d1, h1, ?_, ?_, h8⟩
  · exact h2 (Or.inl (by decide)) _ (by decide)
  · rw [h6 (by decide)]
    decide

/-- C10, counterexample: for the path `./!shadow2d_data/assets/` of a
directory entry, whose last element is empty, the directory the path names
does not exist before the call and exists after it. -/
theorem tryCreateParentDir_creates_named_directory :
    freshDisk.lookup (resolve freshDisk.cwd (entryPath "assets/".toList)) = none ∧
    (tryCreateParentDir freshDisk (entryPath "assets/".toList)).toOption.map
      (fun d1 => d1.lookup (resolve d1.cwd (entryPath "assets/".toList))) =
        some (some Node.dir) := by
  decide

/-! ## The fixed paths -/

theorem resolve_gameSrcPath (cwd : Loc) : resolve cwd gameSrcPath = cwd ++ [dataName] := by
  have h : splitPath gameSrcPath = [['.'], dataName, []] := by decide
  have hn : IsName dataName := by decide
  unfold resolve
  rw [h]
  simp only [List.foldl_cons, List.foldl_nil, normStep_nil, normStep_name _ _ hn]
  simp [normStep]

theorem resolve_packTempPath (cwd : Loc) : resolve cwd packTempPath = cwd ++ [tempName] := by
  have h : splitPath packTempPath = [['.'], tempName] := by decide
  have hn : IsName tempName := by decide
  unfold resolve
  rw [h]
  simp only [List.foldl_cons, List.foldl_nil, normStep_name _ _ hn]
  simp [normStep]

theorem exists_packTempPath (d : Disk) :
    fs.exists d packTempPath = (d.lookup (tempLoc d)).isSome := by
  have h1 : packTempPath ≠ [] := by decide
  have h2 : endsWithSeparator packTempPath = false := by decide
  unfold fs.exists
  rw [if_neg h1, resolve_packTempPath, h2]
  unfold tempLoc
  cases d.lookup (d.cwd ++ [tempName]) with
  | none => rfl
  | some n => cases n <;> rfl

theorem exists_gameSrcPath (d : Disk) :
    fs.exists d gameSrcPath = decide (d.lookup (dataLoc d) = some Node.dir) := by
  have h1 : gameSrcPath ≠ [] := by decide
  have h2 : endsWithSeparator gameSrcPath = true := by decide
  unfold fs.exists
  rw [if_neg h1, resolve_gameSrcPath, h2]
  unfold dataLoc
  cases d.lookup (d.cwd ++ [dataName]) with
  | none => simp
  | some n => cases n <;> simp

theorem tempLoc_ne_dataLoc (d : Disk) : tempLoc d ≠ dataLoc d := by
  unfold tempLoc dataLoc
  intro h
  have := List.append_cancel_left h
  revert this
  decide

theorem dataLoc_not_prefix_tempLoc (d : Disk) : ¬ dataLoc d <+: tempLoc d := by
  unfold tempLoc dataLoc
  intro h
  have h2 := List.prefix_append_right_inj d.cwd |>.1 h
  revert h2
  decide

theorem remove_ok (d d1 : Disk) (p : List Char) (h : fs.remove d p = .ok d1) :
    d1.cwd = d.cwd ∧ d1.lookup (resolve d.cwd p) = none ∧
      ∀ l, l ≠ resolve d.cwd p → d1.lookup l = d.lookup l := by
  unfold fs.remove at h
  simp only [] at h
  have herase : ∀ l, l ≠ resolve d.cwd p →
      (d.erase (resolve d.cwd p)).lookup l = d.lookup l := by
    intro l hl; rw [Disk.lookup_erase]; simp [hl]
  cases hl : d.lookup (resolve d.cwd p) with
  | none =>
    rw [hl] at h
    simp only [Except.ok.injEq] at h
    subst h
    exact ⟨rfl, hl, fun _ _ => rfl⟩
  | some n =>
    rw [hl] at h
    cases n with
    | file c =>
      simp only [Except.ok.injEq] at h
      subst h
      exact ⟨rfl, by rw [Disk.lookup_erase]; simp, herase⟩
    | dir =>
      simp only [] at h
      by_cases hc : d.hasNoChild (resolve d.cwd p) = true
      · rw [if_pos hc] at h
        simp only [Except.ok.injEq] at h
        subst h
        exact ⟨rfl, by rw [Disk.lookup_erase]; simp, herase⟩
      · rw [if_neg hc] at h
        simp at h

/-! ## The start of the slow path -/

theorem stale_data_removed (d d1 : Disk)
    (h : (if fs.exists d gameSrcPath = true then fs.remove_all d gameSrcPath else d) = d1) :
    d1.cwd = d.cwd ∧ d1.lookup (dataLoc d) ≠ some Node.dir ∧
      (∀ l, ¬ dataLoc d <+: l → d1.lookup l = d.lookup l) ∧
      (∀ l, d1.lookup l = d.lookup l ∨ d1.lookup l = none) ∧
      (∀ l, dataLoc d <+: l → d1.lookup l = none ∨
        (d.lookup (dataLoc d) ≠ some Node.dir ∧ d1.lookup l = d.lookup l)) := by
  by_cases hex : fs.exists d gameSrcPath = true
  · rw [if_pos hex] at h
    subst h
    unfold fs.remove_all
    rw [resolve_gameSrcPath]
    refine ⟨rfl, ?_, fun l hl => ?_, fun l => ?_, fun l hl => ?_⟩
    · rw [Disk.lookup_eraseTree]; simp [dataLoc]
    · rw [Disk.lookup_eraseTree]; unfold dataLoc at hl; simp [hl]
    · rw [Disk.lookup_eraseTree]
      by_cases hp : d.cwd ++ [dataName] <+: l
      · right; simp [hp]
      · left; simp [hp]
    · left
      rw [Disk.lookup_eraseTree]; unfold dataLoc at hl; simp [hl]
  · rw [if_neg hex] at h
    subst h
    rw [exists_gameSrcPath] at hex
    have hnd : d.lookup (dataLoc d) ≠ some Node.dir := by simpa using hex
    exact ⟨rfl, hnd, fun _ _ => rfl, fun _ => Or.inl rfl, fun _ _ => Or.inr ⟨hnd, rfl⟩⟩

theorem stale_temp_removed (d1 d2 : Disk)
    (h : (if fs.exists d1 packTempPath = true then fs.remove d1 packTempPath else .ok d1) =
      .ok d2) :
    d2.cwd = d1.cwd ∧ d2.lookup (tempLoc d1) = none ∧
      ∀ l, l ≠ tempLoc d1 → d2.lookup l = d1.lookup l := by
  by_cases hex : fs.exists d1 packTempPath = true
  · rw [if_pos hex] at h
    have := remove_ok d1 d2 packTempPath h
    rw [resolve_packTempPath] at this
    exact this
  · rw [if_neg hex] at h
    simp only [Except.ok.injEq] at h
    subst h
    rw [exists_packTempPath] at hex
    refine ⟨rfl, ?_, fun _ _ => rfl⟩
    cases hl : d1.lookup (tempLoc d1) with
    | none => rfl
    | some n => rw [hl] at hex; simp at hex

theorem cwd_ne_tempLoc (d : Disk) : d.cwd ≠ tempLoc d := by
  intro h
  have := congrArg List.length h
  simp [tempLoc] at this

theorem dataLoc_not_prefix_cwd (d : Disk) : ¬ dataLoc d <+: d.cwd := by
  intro h
  have := h.length_le
  simp [dataLoc] at this

/-- The slow path up to the global info: either a file system call fails
before the archive is opened, or the loop is reached (or given up for the
global info) with the archive bytes in the temp file and the data directory
in place. -/
theorem prepare_spec (z : Archive) (d : Disk) :
    (∃ s, prepare z d = .threw .filesystem_error s ∧ s.trace = [] ∧
      ((d.lookup (tempLoc d) = some Node.dir ∧ d.hasNoChild (tempLoc d) = false) ∨
        (∃ c, d.lookup (dataLoc d) = some (Node.file c)) ∨
        d.lookup d.cwd ≠ some Node.dir)) ∨
    (∃ s, s.trace = [.unzOpen64, .unzGetGlobalInfo] ∧ s.disk.cwd = d.cwd ∧
      s.disk.lookup (tempLoc d) = some (.file z.bytes) ∧
      s.disk.lookup (dataLoc d) = some .dir ∧
      (∀ l, ¬ dataLoc d <+: l → l ≠ tempLoc d → s.disk.lookup l = d.lookup l) ∧
      (∀ l, dataLoc d <+: l → l ≠ dataLoc d → s.disk.lookup l = none ∨
        (d.lookup (dataLoc d) ≠ some Node.dir ∧ s.disk.lookup l = d.lookup l)) ∧
      (prepare z d = .ok s ∧ z.globalInfoOk = true ∨
        prepare z d = .threw .globalInfo (s.log .unzClose) ∧ z.globalInfoOk = false)) := by
  unfold prepare
  simp only []
  generalize hd1 : (if fs.exists d gameSrcPath = true then fs.remove_all d gameSrcPath else d) = d1
  obtain ⟨c1, n1, f1, g1, k1⟩ := stale_data_removed d d1 hd1
  have ht1 : tempLoc d1 = tempLoc d := by unfold tempLoc; rw [c1]
  cases hrm : (if fs.exists d1 packTempPath = true then fs.remove d1 packTempPath else .ok d1) with
  | error x =>
    left
    have hx : x = .filesystem_error := by
      by_cases hex : fs.exists d1 packTempPath = true
      · rw [if_pos hex] at hrm
        unfold fs.remove at hrm
        simp only [] at hrm
        cases hl : d1.lookup (resolve d1.cwd packTempPath) with
        | none => rw [hl] at hrm; simp at hrm
        | some n =>
          rw [hl] at hrm
          cases n with
          | file c => simp at hrm
          | dir =>
            simp only [] at hrm
            by_cases hc : d1.hasNoChild (resolve d1.cwd packTempPath) = true
            · rw [if_pos hc] at hrm; simp at hrm
            · rw [if_neg hc] at hrm
              simp only [Except.error.injEq] at hrm
              exact hrm.symm
      · rw [if_neg hex] at hrm; simp at hrm
    subst hx
    refine ⟨_, rfl, rfl, Or.inl ?_⟩
    by_cases hex : fs.exists d1 packTempPath = true
    · rw [if_pos hex] at hrm
      unfold fs.remove at hrm
      simp only [resolve_packTempPath] at hrm
      have hte : d1.cwd ++ [tempName] = tempLoc d := by rw [c1]; rfl
      rw [hte] at hrm
      cases hl : d1.lookup (tempLoc d) with
      | none => rw [hl] at hrm; simp at hrm
      | some n =>
        rw [hl] at hrm
        cases n with
        | file c => simp at hrm
        | dir =>
          simp only [] at hrm
          by_cases hc : d1.hasNoChild (tempLoc d) = true
          · rw [if_pos hc] at hrm; simp at hrm
          · rw [f1 _ (dataLoc_not_prefix_tempLoc d)] at hl
            refine ⟨hl, ?_⟩
            cases hcd : d.hasNoChild (tempLoc d) with
            | false => rfl
            | true =>
              exfalso
              apply hc
              rw [Disk.hasNoChild_iff] at hcd ⊢
              intro l1 h1 h2
              rcases g1 l1 with e | e
              · rw [e]; exact hcd l1 h1 h2
              · exact e
    · rw [if_neg hex] at hrm; simp at hrm
  | ok d2 =>
    obtain ⟨c2, n2, f2⟩ := stale_temp_removed d1 d2 hrm
    rw [ht1] at n2 f2
    simp only []
    have hres2 : resolve d2.cwd packTempPath = tempLoc d := by
      rw [resolve_packTempPath, c2, c1]; rfl
    have hres3 : resolve d2.cwd gameSrcPath = dataLoc d := by
      rw [resolve_gameSrcPath, c2, c1]; rfl
    have hdl : (tempLoc d).dropLast = d.cwd := by simp [tempLoc]
    have hdd : (dataLoc d).dropLast = d.cwd := by simp [dataLoc]
    have htne : tempLoc d ≠ [] := by simp [tempLoc]
    have hdne : dataLoc d ≠ [] := by simp [dataLoc]
    have hd2data : d2.lookup (dataLoc d) ≠ some Node.dir := by
      rw [f2 _ (tempLoc_ne_dataLoc d).symm]; exact n1
    have hp1 : packTempPath ≠ [] := by decide
    have hp2 : endsWithSeparator packTempPath = false := by decide
    by_cases hcwd : d2.lookup d.cwd = some Node.dir
    · -- the stream opens
      have hopen : ofstream.open d2 packTempPath = some (d2.insert (tempLoc d) (.file [])) := by
        unfold ofstream.open
        simp only [hres2, hp1, hp2, n2, hdl, hcwd, htne]
        simp [htne]
      rw [hopen]
      simp only [Disk.cwd_insert, hres2]
      have hw := write_lookup (d2.insert (tempLoc d) (.file [])) (tempLoc d) z.bytes []
        (by rw [Disk.lookup_insert]; simp)
      generalize hd3 : ofstream.write (d2.insert (tempLoc d) (.file [])) (tempLoc d) z.bytes = d3
      rw [hd3] at hw
      have c3 : d3.cwd = d.cwd := by
        rw [← hd3, write_cwd, Disk.cwd_insert, c2, c1]
      have l3 : ∀ l, l ≠ tempLoc d → d3.lookup l = d2.lookup l := by
        intro l hl
        rw [hw l, if_neg hl, Disk.lookup_insert, if_neg hl]
      have hd3data : d3.lookup (dataLoc d) ≠ some Node.dir := by
        rw [l3 _ (tempLoc_ne_dataLoc d).symm]; exact hd2data
      have hres4 : resolve d3.cwd gameSrcPath = dataLoc d := by
        rw [resolve_gameSrcPath, c3]; rfl
      unfold fs.create_directory
      simp only [hres4]
      cases hl : d3.lookup (dataLoc d) with
      | some n =>
        cases n with
        | dir => exact absurd hl hd3data
        | file c =>
          left
          refine ⟨_, rfl, rfl, Or.inr (Or.inl ⟨c, ?_⟩)⟩
          rw [l3 _ (tempLoc_ne_dataLoc d).symm, f2 _ (tempLoc_ne_dataLoc d).symm] at hl
          rcases g1 (dataLoc d) with e | e
          · rw [← e]; exact hl
          · rw [e] at hl; simp at hl
      | none =>
        simp only []
        have hpar : dataLoc d ≠ [] ∧ d3.lookup (dataLoc d).dropLast = some Node.dir := by
          refine ⟨hdne, ?_⟩
          rw [hdd, l3 _ (cwd_ne_tempLoc d)]; exact hcwd
        rw [if_pos hpar]
        right
        refine ⟨(State.mk (d3.insert (dataLoc d) .dir) [Event.unzOpen64]).log .unzGetGlobalInfo,
          rfl, ?_, ?_, ?_, ?_, ?_, ?_⟩
        · simp only [State.log, Disk.cwd_insert]; exact c3
        · simp only [State.log]
          rw [Disk.lookup_insert, if_neg (tempLoc_ne_dataLoc d), hw]; simp
        · simp only [State.log]
          rw [Disk.lookup_insert]; simp
        · intro l h1 h2
          simp only [State.log]
          have h3 : l ≠ dataLoc d := fun e => h1 (by rw [e])
          rw [Disk.lookup_insert, if_neg h3, l3 l h2, f2 l h2, f1 l h1]
        · intro l h1 h3
          simp only [State.log]
          have h2 : l ≠ tempLoc d := fun e => dataLoc_not_prefix_tempLoc d (by rw [← e]; exact h1)
          rw [Disk.lookup_insert, if_neg h3, l3 l h2, f2 l h2]
          exact k1 l h1
        · by_cases hg : z.globalInfoOk = false
          · right; simp [hg]
          · left
            have hg2 : z.globalInfoOk = true := by simpa using hg
            simp [hg2]
    · -- the stream does not open, and the data directory cannot be made
      left
      have hopen : ofstream.open d2 packTempPath = none := by
        unfold ofstream.open
        simp only [hres2, hp1, hp2, n2, hdl, hcwd, htne]
        simp [htne]
      rw [hopen]
      simp only []
      unfold fs.create_directory
      simp only [hres3]
      have hcwd0 : d.lookup d.cwd ≠ some Node.dir := by
        rw [← f1 _ (dataLoc_not_prefix_cwd d), ← f2 _ (cwd_ne_tempLoc d)]; exact hcwd
      cases hl : d2.lookup (dataLoc d) with
      | some n =>
        cases n with
        | dir => exact absurd hl hd2data
        | file c => exact ⟨_, rfl, rfl, Or.inr (Or.inr hcwd0)⟩
      | none =>
        simp only []
        have hpar : ¬ (dataLoc d ≠ [] ∧ d2.lookup (dataLoc d).dropLast = some Node.dir) := by
          rw [hdd]; exact fun h => hcwd h.2
        rw [if_neg hpar]
        exact ⟨_, rfl, rfl, Or.inr (Or.inr hcwd0)⟩

/-! ## The trace of the extraction loop -/

theorem Continues.same (t : List Event) (lo hi : Nat) : Continues t t lo hi :=
  ⟨[], by simp, by simp⟩

theorem Continues.snoc {t t1 : List Event} {lo hi : Nat} (h : Continues t t1 lo hi) (ev : Event)
    (hev : ev.inWalk lo hi) : Continues t (t1 ++ [ev]) lo hi := by
  obtain ⟨evs, e, ha⟩ := h
  refine ⟨evs ++ [ev], by rw [e, List.append_assoc], fun x hx => ?_⟩
  rcases List.mem_append.1 hx with h1 | h1
  · exact ha x h1
  · simp at h1; rw [h1]; exact hev

theorem Continues.chain {t t1 t2 : List Event} {lo hi : Nat} (h1 : Continues t t1 lo hi)
    (h2 : Continues t1 t2 lo hi) : Continues t t2 lo hi := by
  obtain ⟨evs, e, ha⟩ := h1
  obtain ⟨evs2, e2, ha2⟩ := h2
  refine ⟨evs ++ evs2, by rw [e2, e, List.append_assoc], fun x hx => ?_⟩
  rcases List.mem_append.1 hx with h | h
  · exact ha x h
  · exact ha2 x h

theorem Continues.widen {t t1 : List Event} {lo hi lo1 hi1 : Nat} (h : Continues t t1 lo hi)
    (hlo : lo1 ≤ lo) (hhi : hi ≤ hi1) : Continues t t1 lo1 hi1 := by
  obtain ⟨evs, e, ha⟩ := h
  refine ⟨evs, e, fun x hx => ?_⟩
  rcases ha x hx with h | ⟨j, h1, h2, h3⟩
  · exact Or.inl h
  · exact Or.inr ⟨j, h1, by omega, by omega⟩

theorem inWalk_close (lo hi : Nat) : Event.inWalk lo hi .unzClose := Or.inl rfl

theorem inWalk_read (i : Nat) : Event.inWalk i (i + 1) (.unzReadCurrentFile i) :=
  Or.inr ⟨i, rfl, by omega, by omega⟩

theorem inWalk_open (i : Nat) : Event.inWalk i (i + 1) (.unzOpenCurrentFile i) :=
  Or.inr ⟨i, rfl, by omega, by omega⟩

theorem inWalk_closeCurrent (i : Nat) : Event.inWalk i (i + 1) (.unzCloseCurrentFile i) :=
  Or.inr ⟨i, rfl, by omega, by omega⟩

theorem inWalk_info (i : Nat) : Event.inWalk i (i + 1) (.unzGetCurrentFileInfo i) :=
  Or.inr ⟨i, rfl, by omega, by omega⟩

theorem copyLoop_trace (i : Nat) (dest : Loc) (reads : List ReadResult) :
    ∀ (s sf : State), (copyLoop i dest reads s).state? = some sf →
      Continues s.trace sf.trace i (i + 1) := by
  induction reads with
  | nil =>
    intro s sf h
    simp only [copyLoop, Result.state?, Option.some.injEq] at h
    rw [← h]
    exact (Continues.same _ _ _).snoc _ (inWalk_read i)
  | cons r rest ih =>
    intro s sf h
    unfold copyLoop at h
    simp only [] at h
    have h0 : Continues s.trace (s.log (.unzReadCurrentFile i)).trace i (i + 1) :=
      (Continues.same _ _ _).snoc _ (inWalk_read i)
    by_cases h1 : r.error < 0
    · rw [if_pos h1] at h
      simp only [Result.state?, Option.some.injEq] at h
      rw [← h]
      exact (h0.snoc _ (inWalk_closeCurrent i)).snoc _ (inWalk_close _ _)
    · rw [if_neg h1] at h
      by_cases h2 : r.error > 0
      · rw [if_pos h2] at h
        have h3 := ih _ sf h
        exact h0.chain h3
      · rw [if_neg h2] at h
        simp only [Result.state?, Option.some.injEq] at h
        rw [← h]; exact h0

theorem extractEntry_trace (i : Nat) (e : Entry) (fn : List Char) (s sf : State)
    (h : (extractEntry i e fn s).state? = some sf) : Continues s.trace sf.trace i (i + 1) := by
  unfold extractEntry at h
  cases hdir : isDirectoryEntry fn with
  | none => rw [hdir] at h; simp [Result.state?] at h
  | some b =>
    rw [hdir] at h
    cases b with
    | true =>
      simp only [] at h
      split at h
      · simp only [Result.state?, Option.some.injEq] at h
        rw [← h]; exact Continues.same _ _ _
      · split at h
        · simp only [Result.state?, Option.some.injEq] at h
          rw [← h]; exact Continues.same _ _ _
        · split at h
          · simp only [Result.state?, Option.some.injEq] at h
            rw [← h]; exact Continues.same _ _ _
          · simp only [Result.state?, Option.some.injEq] at h
            rw [← h]; exact Continues.same _ _ _
    | false =>
      simp only [] at h
      have h0 : Continues s.trace (s.log (.unzOpenCurrentFile i)).trace i (i + 1) :=
        (Continues.same _ _ _).snoc _ (inWalk_open i)
      split at h
      · simp only [Result.state?, Option.some.injEq] at h
        rw [← h]
        exact h0.snoc _ (inWalk_close _ _)
      · split at h
        · simp only [Result.state?, Option.some.injEq] at h
          rw [← h]; exact h0
        · split at h
          · simp only [Result.state?, Option.some.injEq] at h
            rw [← h]
            exact (h0.snoc _ (inWalk_closeCurrent i)).snoc _ (inWalk_close _ _)
          · have h3 := copyLoop_trace _ _ _ _ sf h
            exact h0.chain h3

theorem extractLoop_trace (n : Nat) (es : List Entry) :
    ∀ (i : Nat) (s sf : State), (extractLoop n i es s).state? = some sf →
      Continues s.trace sf.trace i (i + es.length) := by
  induction es with
  | nil =>
    intro i s sf h
    simp only [extractLoop, Result.state?, Option.some.injEq] at h
    rw [← h]; exact Continues.same _ _ _
  | cons e es ih =>
    intro i s sf h
    rw [extractLoop_cons] at h
    have hlen : i + (e :: es).length = i + 1 + es.length := by simp only [List.length_cons]; omega
    have h0 : Continues s.trace (s.log (.unzGetCurrentFileInfo i)).trace i (i + (e :: es).length) :=
      (Continues.same _ _ _).snoc _ (Or.inr ⟨i, rfl, by omega, by simp only [List.length_cons]; omega⟩)
    cases hinfo : e.info with
    | none =>
      rw [hinfo] at h
      simp only [Result.state?, Option.some.injEq] at h
      rw [← h]
      exact h0.snoc _ (inWalk_close _ _)
    | some fn =>
      rw [hinfo] at h
      simp only [] at h
      have hstep := extractEntry_trace i e fn (s.log (.unzGetCurrentFileInfo i))
      cases hent : extractEntry i e fn (s.log (.unzGetCurrentFileInfo i)) with
      | undefined => rw [hent] at h; simp [Result.state?] at h
      | threw x s2 =>
        rw [hent] at h hstep
        simp only [Result.state?, Option.some.injEq] at h
        rw [← h]
        exact h0.chain ((hstep s2 rfl).widen (le_refl _) (by simp only [List.length_cons]; omega))
      | ok s2 =>
        rw [hent] at h hstep
        simp only [] at h
        have h2 := h0.chain ((hstep s2 rfl).widen (le_refl i)
          (by simp only [List.length_cons]; omega : i + 1 ≤ i + (e :: es).length))
        have h3 := h2.snoc (.unzCloseCurrentFile i)
          (Or.inr ⟨i, rfl, by omega, by simp only [List.length_cons]; omega⟩)
        have h4 := h3.snoc (.unzGoToNextFile i)
          (Or.inr ⟨i, rfl, by omega, by simp only [List.length_cons]; omega⟩)
        by_cases h1 : i + 1 < n
        · simp only [h1, if_true] at h
          by_cases hn : e.nextOk = false
          · rw [if_pos hn] at h
            simp only [Result.state?, Option.some.injEq] at h
            rw [← h]
            exact h4.snoc _ (inWalk_close _ _)
          · rw [if_neg hn] at h
            have := (ih _ _ sf h).widen (by omega : i ≤ i + 1) (le_of_eq hlen.symm)
            exact h4.chain this
        · simp only [h1, if_false] at h
          have := (ih _ _ sf h).widen (by omega : i ≤ i + 1) (le_of_eq hlen.symm)
          exact h3.chain this

/-! ## The claims about whole runs -/

/-- C3: when the marker `./!shadow2d_data/smbx.exe` exists, a run leaves the
disk as it is and its only call to the outside is the one `createTask`: the
archive is not opened, nothing is deleted, written or created. Hence a
second run, started on the disk a first run left behind with the marker,
leaves the disk exactly as the first run left it. -/
theorem fast_path_noop (exePath : List Char) (z : Archive) (d : Disk)
    (hm : fs.exists d gameRunnerPath = true) :
    WinMain exePath z d = some ⟨d, [.createTask (launchCommand exePath)]⟩ ∧
    ∀ (z0 : Archive) (d0 : Disk) (s1 : State), WinMain exePath z0 d0 = some s1 → s1.disk = d →
      (WinMain exePath z s1.disk).map State.disk = some s1.disk := by
  have h : WinMain exePath z d = some ⟨d, [.createTask (launchCommand exePath)]⟩ := by
    unfold WinMain
    rw [if_pos hm]
  refine ⟨h, fun z0 d0 s1 _ hs => ?_⟩
  rw [hs, h]
  rfl

/-- C3, witness: a first run on a bare disk extracts the archive with the
payload, and the second run starts from what the first run left. -/
theorem fast_path_noop_witness :
    fs.exists bareDisk gameRunnerPath = false ∧
    (WinMain [] starterArchive bareDisk).isSome = true ∧
    (WinMain [] starterArchive
        ((WinMain [] starterArchive bareDisk).getD ⟨bareDisk, []⟩).disk).map State.disk =
      some ((WinMain [] starterArchive bareDisk).getD ⟨bareDisk, []⟩).disk := by
  refine ⟨by decide, by decide, ?_⟩
  exact (fast_path_noop [] starterArchive
    ((WinMain [] starterArchive bareDisk).getD ⟨bareDisk, []⟩).disk (by decide)).2
    starterArchive bareDisk ((WinMain [] starterArchive bareDisk).getD ⟨bareDisk, []⟩)
    (by decide) rfl

/-- C8, at the failing input: for the empty entry name the index
`filename_length - 1` wraps around to the largest `size_t`, the test
`filename[filename_length-1] == '/'` reads outside the name, and the run is
undefined. -/
theorem empty_name_is_undefined :
    lastIndex 0 = 2 ^ 64 - 1 ∧ isDirectoryEntry [] = none ∧
    WinMain [] namelessArchive bareDisk = none := by
  decide

theorem handler_some (x : Exn) (s s1 : State)
    (h : (if x.whatIsValid = true then some (s.log (.cerr x)) else none) = some s1) :
    x.whatIsValid = true ∧ s1 = s.log (.cerr x) := by
  by_cases hv : x.whatIsValid = true
  · rw [if_pos hv] at h
    exact ⟨hv, (Option.some.inj h).symm⟩
  · rw [if_neg hv] at h
    exact absurd h (by simp)

theorem exists_packTempPath_of_lookup (d d1 : Disk) (hc : d1.cwd = d.cwd)
    (h : d1.lookup (tempLoc d) ≠ none) : fs.exists d1 packTempPath = true := by
  rw [exists_packTempPath]
  have : tempLoc d1 = tempLoc d := by unfold tempLoc; rw [hc]
  rw [this]
  cases hl : d1.lookup (tempLoc d) with
  | none => exact absurd hl h
  | some n => rfl

/-- C5 (as amended): in a run that takes the extraction path and comes to
an end, the temp archive file `./~shadow2d_temp` does not exist when the run
ends with the launch, that is after a completed walk; when the run ends
with a reported exception after the archive was opened (unreadable global
info, unreadable entry info, entry or destination that cannot be opened,
failed advance, a failing file operation), the temp archive file is still
on disk. A negative read result is not among these: its exception cannot
be reported, and the run has no defined end. -/
theorem temp_file_lifecycle (exePath : List Char) (z : Archive) (d : Disk) (s : State)
    (hm : fs.exists d gameRunnerPath = false) (hrun : WinMain exePath z d = some s) :
    ((∃ c, s.trace.getLast? = some (.createTask c)) → fs.exists s.disk packTempPath = false) ∧
    (Event.unzOpen64 ∈ s.trace → (∃ x, s.trace.getLast? = some (.cerr x)) →
      fs.exists s.disk packTempPath = true) := by
  unfold WinMain at hrun
  rw [hm] at hrun
  simp only [Bool.false_eq_true, if_false, install] at hrun
  rcases prepare_spec z d with ⟨s0, hp, ht, _⟩ | ⟨s0, ht, hc, htmp, _, _, _, hres⟩
  · rw [hp] at hrun
    simp only [] at hrun
    obtain ⟨_, hs⟩ := handler_some _ _ _ hrun
    subst hs
    refine ⟨fun ⟨c, h⟩ => ?_, fun h _ => ?_⟩
    · simp [State.log, ht] at h
    · simp [State.log, ht] at h
  · rcases hres with ⟨hok, _⟩ | ⟨hno, _⟩
    · rw [hok] at hrun
      simp only [] at hrun
      cases hloop : extractLoop z.entries.length 0 z.entries s0 with
      | undefined => rw [hloop] at hrun; simp at hrun
      | threw x s1 =>
        rw [hloop] at hrun
        simp only [] at hrun
        obtain ⟨_, hs⟩ := handler_some _ _ _ hrun
        subst hs
        have hfr := extractLoop_frame z.entries.length z.entries 0 s0 s1.disk (by rw [hloop]; rfl)
        refine ⟨fun ⟨c, h⟩ => ?_, fun _ _ => ?_⟩
        · simp [State.log] at h
        · apply exists_packTempPath_of_lookup d
          · simp only [State.log]; rw [hfr.1, hc]
          · simp only [State.log]
            exact hfr.keeps _ (by rw [htmp]; simp)
      | ok s1 =>
        rw [hloop] at hrun
        simp only [] at hrun
        have hfr := extractLoop_frame z.entries.length z.entries 0 s0 s1.disk (by rw [hloop]; rfl)
        cases hrm : fs.remove (s1.log .unzClose).disk packTempPath with
        | error x =>
          rw [hrm] at hrun
          simp only [] at hrun
          obtain ⟨_, hs⟩ := handler_some _ _ _ hrun
          subst hs
          refine ⟨fun ⟨c, h⟩ => ?_, fun _ _ => ?_⟩
          · simp [State.log] at h
          · apply exists_packTempPath_of_lookup d
            · simp only [State.log]; rw [hfr.1, hc]
            · simp only [State.log]
              exact hfr.keeps _ (by rw [htmp]; simp)
        | ok d5 =>
          rw [hrm] at hrun
          simp only [Option.some.injEq] at hrun
          subst hrun
          obtain ⟨c5, n5, _⟩ := remove_ok _ d5 packTempPath hrm
          refine ⟨fun _ => ?_, fun _ ⟨x, h⟩ => ?_⟩
          · rw [exists_packTempPath]
            simp only [State.log, tempLoc] at n5 c5 ⊢
            rw [resolve_packTempPath] at n5
            rw [c5, n5]; rfl
          · simp [State.log] at h
    · rw [hno] at hrun
      simp only [] at hrun
      obtain ⟨_, hs⟩ := handler_some _ _ _ hrun
      subst hs
      refine ⟨fun ⟨c, h⟩ => ?_, fun _ _ => ?_⟩
      · simp [State.log] at h
      · apply exists_packTempPath_of_lookup d
        · simp only [State.log]; exact hc
        · simp only [State.log]; rw [htmp]; simp

/-- C5, witness: the run on the archive of the specification's example ends
with the launch and without the temp file. -/
theorem temp_file_lifecycle_witness :
    fs.exists bareDisk gameRunnerPath = false ∧
    (WinMain [] starterArchive bareDisk).isSome = true ∧
    fs.exists ((WinMain [] starterArchive bareDisk).getD ⟨bareDisk, []⟩).disk packTempPath =
      false :=
  ⟨by decide, by decide,
    (temp_file_lifecycle [] starterArchive bareDisk
      ((WinMain [] starterArchive bareDisk).getD ⟨bareDisk, []⟩) (by decide) (by decide)).1
      ⟨launchCommand [], by decide⟩⟩

/-- C5, counterexample: the reader cannot deliver the info of the second
entry; the run takes the extraction path, the walk aborts with "could not
read file info", the run ends with the reported exception, and the temp
archive file exists at the end. -/
theorem temp_file_left_after_abort :
    fs.exists bareDisk gameRunnerPath = false ∧
    (WinMain [] unreadableArchive bareDisk).map State.trace =
      some [.unzOpen64, .unzGetGlobalInfo, .unzGetCurrentFileInfo 0, .unzOpenCurrentFile 0,
        .unzReadCurrentFile 0, .unzReadCurrentFile 0, .unzCloseCurrentFile 0,
        .unzGoToNextFile 0, .unzGetCurrentFileInfo 1, .unzClose, .cerr .fileInfo] ∧
    (WinMain [] unreadableArchive bareDisk).map (fun s => fs.exists s.disk packTempPath) =
      some true ∧
    (WinMain [] unreadableArchive bareDisk).map (fun s => s.disk.lookup (tempLoc bareDisk)) =
      some (some (Node.file unreadableArchive.bytes)) := by
  decide

/-! ## The shape of an entry path -/

theorem splitPath_entryPath (fn : List Char) :
    splitPath (gameSrcPath ++ fn) = ['.'] :: dataName :: splitPath fn := by
  have h0 : gameSrcPath ++ fn = ("./".toList ++ dataName) ++ '/' :: fn := by
    have : gameSrcPath = ("./".toList ++ dataName) ++ ['/'] := by decide
    rw [this]; simp
  have h1 : splitPath ("./".toList ++ dataName) = [['.'], dataName] := by decide
  rw [h0, splitPath_append_sep _ _ _ isSeparator_slash, h1]
  rfl

theorem pathElements_entryPath (fn : List Char) :
    pathElements (gameSrcPath ++ fn) = ['.'] :: dataName :: entryElements fn := by
  have hd : dataName ≠ [] := by decide
  have hf : (splitPath (gameSrcPath ++ fn)).filter (fun c => decide (c ≠ [])) =
      ['.'] :: dataName :: (splitPath fn).filter (fun c => decide (c ≠ [])) := by
    rw [splitPath_entryPath]
    simp [List.filter_cons, hd]
  unfold pathElements entryElements
  simp only [hf]
  by_cases he : endsWithSeparator (gameSrcPath ++ fn) = true
  · simp [he]
  · simp [he]

theorem chainLocs_entryPath (cwd : Loc) (fn : List Char) (l : Loc)
    (h : l ∈ chainLocs cwd (pathElements (gameSrcPath ++ fn))) :
    l = cwd ∨ l = cwd ++ [dataName] ∨ l ∈ chainLocs (cwd ++ [dataName]) (entryElements fn) := by
  have hn : IsName dataName := by decide
  have hdot : normStep cwd ['.'] = cwd := by simp [normStep]
  rw [pathElements_entryPath] at h
  unfold chainLocs at h
  simp only [List.cons_ne_nil, if_false, hdot, List.mem_cons] at h
  rcases h with h | h
  · exact Or.inl h
  · unfold chainLocs at h
    by_cases hE : entryElements fn = []
    · simp [hE] at h
    · simp only [hE, if_false, normStep_name _ _ hn, List.mem_cons] at h
      exact Or.inr h

theorem destLoc_eq (cwd : Loc) (fn : List Char) :
    destLoc cwd fn = (splitPath fn).foldl normStep (cwd ++ [dataName]) := by
  have hn : IsName dataName := by decide
  have hdot : normStep cwd ['.'] = cwd := by simp [normStep]
  unfold destLoc entryPath resolve
  rw [splitPath_entryPath]
  simp only [List.foldl_cons, hdot, normStep_name _ _ hn]

theorem noDotDot_entryElements (fn : List Char) (h : ['.', '.'] ∉ splitPath fn) :
    ['.', '.'] ∉ entryElements fn := by
  unfold entryElements
  simp only []
  intro hm
  split at hm
  · rcases List.mem_append.1 hm with h1 | h1
    · exact h (List.mem_of_mem_filter h1)
    · simp at h1
  · exact h (List.mem_of_mem_filter hm)

theorem dirPlaces_below (cwd : Loc) (fn : List Char) (l : Loc) (h : ['.', '.'] ∉ splitPath fn)
    (hl : dirPlaces cwd fn l) : l = cwd ∨ cwd ++ [dataName] <+: l := by
  rcases hl with hl | hl
  · rcases chainLocs_entryPath cwd fn l hl with e | e | e
    · exact Or.inl e
    · right; rw [e]
    · right
      exact (chainLocs_between _ _ (noDotDot_entryElements fn h) l e).1
  · right
    rw [hl, destLoc_eq]
    exact foldl_normStep_extends _ _ h

/-- C7 (as amended): every location at which the walk creates or writes an
object lies on the path `dataDir + entry.relativePath` of some entry: it is
the location that path names or the location after one of its leading
elements. When no entry path has a `..` component (entry paths that start
with a separator included) and the working directory exists, every such
location lies inside the data directory. -/
theorem extraction_stays_in_data_dir (n i : Nat) (es : List Entry) (s sf : State)
    (hrun : (extractLoop n i es s).state? = some sf)
    (hcwd : s.disk.lookup s.disk.cwd = some Node.dir)
    (hnames : ∀ e ∈ es, ∀ fn ∈ e.info, ['.', '.'] ∉ splitPath fn) :
    (∀ l, sf.disk.lookup l ≠ s.disk.lookup l →
      ∃ e ∈ es, ∃ fn ∈ e.info,
        l ∈ chainLocs s.disk.cwd (pathElements (gameSrcPath ++ fn)) ∨
          l = resolve s.disk.cwd (gameSrcPath ++ fn)) ∧
    (∀ l, sf.disk.lookup l ≠ s.disk.lookup l → dataLoc s.disk <+: l) := by
  have hfr := extractLoop_frame n es i s sf.disk (by rw [disk?_eq_map_state?, hrun]; rfl)
  constructor
  · intro l hl
    rcases hfr.2 l with a | ⟨_, _, e, he, fn, hfn, hd⟩ | ⟨⟨e, he, fn, hfn, _, hd⟩, _⟩
    · exact absurd a hl
    · exact ⟨e, he, fn, by simp [hfn], hd⟩
    · exact ⟨e, he, fn, by simp [hfn], Or.inr hd⟩
  · intro l hl
    rcases hfr.2 l with a | ⟨hnone, _, e, he, fn, hfn, hd⟩ | ⟨⟨e, he, fn, hfn, _, hd⟩, _⟩
    · exact absurd a hl
    · rcases dirPlaces_below _ fn l (hnames e he fn (by simp [hfn])) hd with h | h
      · rw [h, hcwd] at hnone; simp at hnone
      · exact h
    · rcases dirPlaces_below _ fn l (hnames e he fn (by simp [hfn])) (Or.inr hd) with h | h
      · rw [hd, destLoc_eq] at h
        have hp := foldl_normStep_extends (splitPath fn) (s.disk.cwd ++ [dataName])
          (hnames e he fn (by simp [hfn]))
        rw [h] at hp
        have := hp.length_le
        simp at this
      · exact h

/-- C7, witness: the walk over the entries of the specification's example
changes nothing at the working directory itself, which lies outside the
data directory. -/
theorem extraction_stays_in_data_dir_witness :
    (extractLoop 4 0 starterArchive.entries ⟨freshDisk, []⟩).isDefined = true ∧
    ¬ dataLoc freshDisk <+: ([] : Loc) ∧
    ((extractLoop 4 0 starterArchive.entries ⟨freshDisk, []⟩).state?.getD ⟨freshDisk, []⟩).disk.lookup
      [] = freshDisk.lookup [] := by
  refine ⟨by decide, by decide, ?_⟩
  by_contra hne
  have := (extraction_stays_in_data_dir 4 0 starterArchive.entries ⟨freshDisk, []⟩
    ((extractLoop 4 0 starterArchive.entries ⟨freshDisk, []⟩).state?.getD ⟨freshDisk, []⟩)
    (by decide) (by decide) (by decide)).2 [] hne
  revert this
  decide

/-- C7, counterexample: the entry `../evil.txt` is written to
`./evil.txt`, next to the data directory and not inside it. -/
theorem entry_escapes_data_dir :
    bareDisk.lookup ["evil.txt".toList] = none ∧
    (WinMain [] escapingArchive bareDisk).map (fun s => s.disk.lookup ["evil.txt".toList]) =
      some (some (Node.file [66])) ∧
    destLoc bareDisk.cwd "../evil.txt".toList = ["evil.txt".toList] ∧
    ¬ dataLoc bareDisk <+: ["evil.txt".toList] := by
  decide

theorem prepare_ok_trace (z : Archive) (d : Disk) (s0 : State) (h : prepare z d = .ok s0) :
    s0.trace = [.unzOpen64, .unzGetGlobalInfo] ∧ s0.disk.cwd = d.cwd := by
  rcases prepare_spec z d with ⟨s, hp, _⟩ | ⟨s, ht, hc, _, _, _, _, hres⟩
  · rw [hp] at h; simp at h
  · rcases hres with ⟨hok, _⟩ | ⟨hno, _⟩
    · rw [hok] at h
      simp only [Result.ok.injEq] at h
      subst h
      exact ⟨ht, hc⟩
    · rw [hno] at h; simp at h

theorem Continues.no_launch {t t1 : List Event} {lo hi : Nat} (h : Continues t t1 lo hi)
    (c : List Char) (ht : Event.createTask c ∉ t) : Event.createTask c ∉ t1 := by
  obtain ⟨evs, e, ha⟩ := h
  rw [e]
  intro hm
  rcases List.mem_append.1 hm with h1 | h1
  · exact ht h1
  · rcases ha _ h1 with h2 | ⟨j, h2, _⟩
    · simp at h2
    · simp [Event.index?] at h2

theorem Continues.index_lt {t t1 : List Event} {lo hi : Nat} (h : Continues t t1 lo hi)
    (ht : ∀ ev ∈ t, ∀ j, ev.index? = some j → j < hi) :
    ∀ ev ∈ t1, ∀ j, ev.index? = some j → j < hi := by
  obtain ⟨evs, e, ha⟩ := h
  rw [e]
  intro ev hm j hj
  rcases List.mem_append.1 hm with h1 | h1
  · exact ht ev h1 j hj
  · rcases ha _ h1 with h2 | ⟨k, h2, _, h4⟩
    · rw [h2] at hj; simp [Event.index?] at hj
    · rw [h2] at hj
      simp only [Option.some.injEq] at hj
      omega

/-- C6, the divergence: when entries 1..k-1 have been processed without
error and the first negative read result occurs while entry k is streamed,
the walk stops there: it closes the reader and throws
`exce("error %d" + std::to_string(error))`, with no launch, no entry after
k touched and nothing rolled back (every object on disk after entries
1..k-1 is still there, unchanged outside entry k's own destination, which
holds what entry k delivered before the failure). But this exception keeps
the `c_str()` of a temporary string that is gone when the handler prints
`e.what()`: the report of the error is undefined behaviour, and the run
has no defined result. -/
theorem negative_read_is_undefined (exePath : List Char) (z : Archive) (d : Disk)
    (pre post : List Entry) (e : Entry) (fn : List Char) (s0 s1 : State) (d2 d3 : Disk)
    (good rest : List ReadResult) (r : ReadResult)
    (hm : fs.exists d gameRunnerPath = false)
    (hprep : prepare z d = .ok s0)
    (hz : z.entries = pre ++ e :: post)
    (hpre : extractLoop z.entries.length 0 pre s0 = .ok s1)
    (hinfo : e.info = some fn) (hfile : isDirectoryEntry fn = some false)
    (hopen : e.openOk = true)
    (hparent : tryCreateParentDir s1.disk (entryPath fn) = .ok d2)
    (hdest : ofstream.open d2 (entryPath fn) = some d3)
    (hreads : e.reads = good ++ r :: rest) (hgood : ∀ g ∈ good, 0 < g.error)
    (hr : r.error < 0) :
    (∃ s, install exePath z d = .threw (.readError r.error) s ∧
      (∀ c, Event.createTask c ∉ s.trace) ∧
      (∀ ev ∈ s.trace, ∀ j, ev.index? = some j → j ≤ pre.length) ∧
      (∀ l, s1.disk.lookup l ≠ none → s.disk.lookup l ≠ none) ∧
      (∀ l n, s1.disk.lookup l = some n → l ≠ destLoc d.cwd fn → s.disk.lookup l = some n) ∧
      s.disk.lookup (destLoc d.cwd fn) = some (Node.file (delivered good))) ∧
    (Exn.readError r.error).whatIsValid = false ∧
    WinMain exePath z d = none := by
  obtain ⟨ht0, hc0⟩ := prepare_ok_trace z d s0 hprep
  have hfr1 := extractLoop_frame z.entries.length pre 0 s0 s1.disk (by rw [hpre]; rfl)
  have hcw1 : s1.disk.cwd = d.cwd := hfr1.1.trans hc0
  have htr1 := extractLoop_trace z.entries.length pre 0 s0 s1 (by rw [hpre]; rfl)
  obtain ⟨hE, hcw3, hl3, hev⟩ := extractEntry_file (0 + pre.length) e fn
    (s1.log (.unzGetCurrentFileInfo (0 + pre.length))) d2 d3 hfile hopen hparent hdest
  simp only [State.log] at hE hcw3 hl3 hev
  rw [hreads, copyLoop_good _ _ good (r :: rest) _ hgood] at hE
  obtain ⟨f1, f2, f3⟩ := feed_foldl (0 + pre.length) (destLoc s1.disk.cwd fn) good
    { disk := d3, trace := s1.trace ++ [Event.unzGetCurrentFileInfo (0 + pre.length)] ++
      [Event.unzOpenCurrentFile (0 + pre.length)] } [] hl3
  generalize hsg : List.foldl (feed (0 + pre.length) (destLoc s1.disk.cwd fn))
    { disk := d3, trace := s1.trace ++ [Event.unzGetCurrentFileInfo (0 + pre.length)] ++
      [Event.unzOpenCurrentFile (0 + pre.length)] } good = sg at hE f1 f2 f3
  simp only [] at f1 f2 f3
  unfold copyLoop at hE
  simp only [hr, if_true] at hE
  have hloop := extractLoop_cons_threw z.entries.length (0 + pre.length) e post s1 _ fn _ hinfo hE
  have hwalk : extractLoop z.entries.length 0 z.entries s0 =
      .threw (.readError r.error)
        (((sg.log (.unzReadCurrentFile (0 + pre.length))).log
          (.unzCloseCurrentFile (0 + pre.length))).log .unzClose) := by
    conv => lhs; rw [hz, extractLoop_append]
    rw [← hz, hpre]
    exact hloop
  have hinst : install exePath z d = .threw (.readError r.error)
      (((sg.log (.unzReadCurrentFile (0 + pre.length))).log
          (.unzCloseCurrentFile (0 + pre.length))).log .unzClose) := by
    simp only [install, hprep, hwalk]
  have hrun : WinMain exePath z d = none := by
    unfold WinMain
    rw [hm, hinst]
    rfl
  have hdl : destLoc s1.disk.cwd fn = destLoc d.cwd fn := by rw [hcw1]
  rw [hdl] at f2
  have hk : Continues s0.trace sg.trace 0 (pre.length + 1) := by
    have h1 : Continues s1.trace sg.trace (0 + pre.length) (0 + pre.length + 1) := by
      refine ⟨[Event.unzGetCurrentFileInfo (0 + pre.length)] ++
        [Event.unzOpenCurrentFile (0 + pre.length)] ++
        List.replicate good.length (Event.unzReadCurrentFile (0 + pre.length)), ?_, ?_⟩
      · rw [f3]; simp
      · intro ev hev
        simp only [List.mem_append, List.mem_singleton, List.mem_replicate] at hev
        rcases hev with (h | h) | ⟨_, h⟩
        · rw [h]; exact inWalk_info _
        · rw [h]; exact inWalk_open _
        · rw [h]; exact inWalk_read _
    exact (htr1.widen (le_refl 0) (by omega)).chain (h1.widen (by omega) (by omega))
  have hk2 : Continues s0.trace (((sg.log (.unzReadCurrentFile (0 + pre.length))).log
      (.unzCloseCurrentFile (0 + pre.length))).log .unzClose).trace 0 (pre.length + 1) := by
    refine ((hk.snoc _ ?_).snoc _ ?_).snoc _ (inWalk_close _ _)
    · exact Or.inr ⟨0 + pre.length, rfl, by omega, by omega⟩
    · exact Or.inr ⟨0 + pre.length, rfl, by omega, by omega⟩
  refine ⟨⟨_, hinst, ?_, ?_, ?_, ?_, ?_⟩, rfl, hrun⟩
  · intro c hc
    exact hk2.no_launch c (by rw [ht0]; simp) hc
  · intro ev hmem j hj
    have := hk2.index_lt (by rw [ht0]; intro ev hev j hj; simp at hev; rcases hev with h | h <;>
      (rw [h] at hj; simp [Event.index?] at hj)) ev hmem j hj
    omega
  · intro l hl
    simp only [State.log]
    rw [f2 l]
    by_cases e1 : l = destLoc d.cwd fn
    · simp [e1]
    · simp only [e1, if_false]
      exact hev.keeps l hl
  · intro l n hl hne
    simp only [State.log]
    rw [f2 l]
    simp only [hne, if_false]
    apply hev.keeps_outside l n hl
    rintro ⟨_, h⟩
    rw [hcw1] at h
    exact hne h
  · simp only [State.log]
    rw [f2]; simp

/-- C6, at the failing input: the second of three entries fails with -1 on
its second read; the walk throws the read error with the file of the first
entry and the two bytes delivered for the second entry on disk, and the
run has no defined result. -/
theorem negative_read_is_undefined_witness :
    fs.exists bareDisk gameRunnerPath = false ∧
    (∃ s, install [] corruptArchive bareDisk = .threw (.readError (-1)) s ∧
      s.disk.lookup (destLoc [] "a.txt".toList) = some (.file [1, 2, 3]) ∧
      s.disk.lookup (destLoc [] "b.txt".toList) = some (.file [4, 5])) ∧
    WinMain [] corruptArchive bareDisk = none := by
  obtain ⟨⟨s, h1, _, _, _, h5, h6⟩, _, h7⟩ := negative_read_is_undefined [] corruptArchive bareDisk
    [fileEntry "a.txt" [[1, 2, 3]]] [fileEntry "c.txt" [[6]]]
    ⟨some "b.txt".toList, true, [⟨2, [4, 5]⟩, ⟨-1, []⟩], true⟩ "b.txt".toList
    corruptStart corruptMid corruptMid.disk
    (corruptMid.disk.insert (destLoc [] "b.txt".toList) (.file []))
    [⟨2, [4, 5]⟩] [] ⟨-1, []⟩
    (by decide) (by decide) (by decide) (by decide) (by decide) (by decide) (by decide)
    (by decide) (by decide) (by decide) (by decide) (by decide)
  refine ⟨by decide, ⟨s, h1, ?_, ?_⟩, h7⟩
  · exact h5 (destLoc [] "a.txt".toList) (.file [1, 2, 3]) (by decide) (by decide)
  · have : delivered [(⟨2, [4, 5]⟩ : ReadResult)] = [4, 5] := by decide
    rw [this] at h6
    exact h6

/-! ## Sound entries -/

theorem isDirectoryEntry_some (fn : List Char) (b : Bool) (h : isDirectoryEntry fn = some b) :
    fn ≠ [] ∧ fn.length < MAX_FILENAME ∧ ∃ c, fn.getLast? = some c ∧ b = (c == DIR_IDENTIFY) := by
  unfold isDirectoryEntry at h
  by_cases hlen : MAX_FILENAME ≤ fn.length
  · rw [if_pos hlen] at h; simp at h
  · rw [if_neg hlen] at h
    have hlt : fn.length < MAX_FILENAME := by omega
    have h512 : MAX_FILENAME = 512 := rfl
    by_cases h0 : fn = []
    · subst h0
      simp [lastIndex] at h
    · have hpos : 0 < fn.length := List.length_pos.2 h0
      have hidx : lastIndex fn.length = fn.length - 1 := by
        unfold lastIndex
        have : fn.length + (2 ^ 64 - 1) = (fn.length - 1) + 2 ^ 64 := by omega
        rw [this, Nat.add_mod_right]
        apply Nat.mod_eq_of_lt
        omega
      rw [hidx] at h
      have hlast : fn.get? (fn.length - 1) = fn.getLast? := by
        rw [List.getLast?_eq_getElem?]
        simp [List.get?_eq_getElem?]
      rw [hlast] at h
      cases hc : fn.getLast? with
      | none => rw [hc] at h; simp at h
      | some c =>
        rw [hc] at h
        simp only [Option.some.injEq] at h
        exact ⟨h0, hlt, c, rfl, h.symm⟩

/-- For a name of 1 to 511 characters the test is whether the last character
is `/`. -/
theorem isDirectoryEntry_of_length (fn : List Char) (h0 : fn ≠ [])
    (hlen : fn.length < MAX_FILENAME) :
    isDirectoryEntry fn = some (decide (fn.getLast? = some DIR_IDENTIFY)) := by
  cases h : isDirectoryEntry fn with
  | some b =>
    obtain ⟨_, _, c, hc, hb⟩ := isDirectoryEntry_some fn b h
    rw [hc, hb]
    by_cases e : c = DIR_IDENTIFY
    · simp [e]
    · simp [e]
  | none =>
    exfalso
    unfold isDirectoryEntry at h
    have hn : ¬ MAX_FILENAME ≤ fn.length := by omega
    rw [if_neg hn] at h
    have hpos : 0 < fn.length := List.length_pos.2 h0
    have h512 : MAX_FILENAME = 512 := rfl
    have hidx : lastIndex fn.length = fn.length - 1 := by
      unfold lastIndex
      have : fn.length + (2 ^ 64 - 1) = (fn.length - 1) + 2 ^ 64 := by omega
      rw [this, Nat.add_mod_right]
      apply Nat.mod_eq_of_lt
      omega
    rw [hidx] at h
    have hlt : fn.length - 1 < fn.length := by omega
    rw [List.get?_eq_get hlt] at h
    simp at h

theorem tryCreateParentDir_ok (d : Disk) (p : List Char)
    (hw : d.WellFormed) (hcwd : d.lookup d.cwd = some Node.dir)
    (hanc : ∀ l ∈ chainLocs d.cwd (pathElements p), d.freeOrDir l)
    (hdd : ['.', '.'] ∉ pathElements p) :
    ∃ d1, tryCreateParentDir d p = .ok d1 ∧ d1.cwd = d.cwd ∧ d1.WellFormed ∧
      ∀ l, d1.lookup l = if l ∈ chainLocs d.cwd (pathElements p) then some Node.dir
        else d.lookup l := by
  rw [tryCreateParentDir_eq]
  by_cases hex : fs.exists d p = true
  · rw [if_pos hex]
    refine ⟨d, rfl, rfl, hw, fun l => ?_⟩
    by_cases hl : l ∈ chainLocs d.cwd (pathElements p)
    · rw [if_pos hl]
      have hpre := chainLocs_between (pathElements p) d.cwd hdd l hl
      rw [← resolve_eq_foldl_pathElements] at hpre
      have hne := exists_true_lookup d p hex
      by_cases e : l = resolve d.cwd p
      · rcases hanc l hl with h0 | h0
        · rw [e] at h0; exact absurd h0 hne
        · exact h0
      · obtain ⟨t, ht⟩ := hpre.2
        have ht0 : t ≠ [] := by
          intro h0; subst h0; simp at ht; exact e ht
        rw [← ht] at hne
        exact wf_prefix_dir d hw l t ht0 hne
    · rw [if_neg hl]
  · rw [if_neg hex]
    have hanc2 : ∀ l1 ∈ chainLocs d.cwd (pathElements p), ∀ b, d.lookup l1 ≠ some (Node.file b) :=
      fun l1 h1 => (Disk.freeOrDir_iff d l1).1 (hanc l1 h1)
    obtain ⟨d1, hd1, hw1⟩ := ensureChain_ok (pathElements p) d d.cwd hw hcwd hanc2
    have hframe := ensureChain_frame (pathElements p) d d.cwd
    rw [hd1] at hframe
    simp only [] at hframe
    obtain ⟨⟨hc1, hfr⟩, hdirs⟩ := hframe
    refine ⟨d1, hd1, hc1, hw1, fun l => ?_⟩
    by_cases hl : l ∈ chainLocs d.cwd (pathElements p)
    · rw [if_pos hl]; exact hdirs l hl
    · rw [if_neg hl]
      rcases hfr l with e | ⟨_, _, e⟩
      · exact e
      · exact absurd e hl

theorem pathElements_nil : pathElements [] = [] := by decide

theorem file_path_facts (cwd : Loc) (p : List Char) (c : Name)
    (hc : c ∈ (pathElements p).getLast?) (hn : IsName c)
    (hdd : ['.', '.'] ∉ pathElements p) :
    p ≠ [] ∧ endsWithSeparator p = false ∧
    resolve cwd p = (pathElements p).dropLast.foldl normStep cwd ++ [c] ∧
    (∀ l ∈ chainLocs cwd (pathElements p), l ≠ resolve cwd p) ∧
    ((pathElements p).dropLast ≠ [] →
      (resolve cwd p).dropLast ∈ chainLocs cwd (pathElements p)) := by
  have hsplit := List.dropLast_append_getLast? c hc
  have hres : resolve cwd p = (pathElements p).dropLast.foldl normStep cwd ++ [c] := by
    rw [resolve_eq_foldl_pathElements]
    conv => lhs; rw [← hsplit]
    rw [List.foldl_append]
    simp only [List.foldl_cons, List.foldl_nil, normStep_name _ c hn]
  refine ⟨?_, ?_, hres, ?_, ?_⟩
  · intro h
    rw [h, pathElements_nil] at hc
    simp at hc
  · cases he : endsWithSeparator p with
    | false => rfl
    | true =>
      exfalso
      unfold pathElements at hc
      simp only [] at hc
      by_cases hnames : (splitPath p).filter (fun c => decide (c ≠ [])) ≠ []
      · rw [if_pos ⟨he, hnames⟩, List.getLast?_concat] at hc
        simp only [Option.mem_def, Option.some.injEq] at hc
        exact hn.1 hc.symm
      · have hnn : ¬ (endsWithSeparator p = true ∧
            (splitPath p).filter (fun c => decide (c ≠ [])) ≠ []) := fun h => hnames h.2
        rw [if_neg hnn] at hc
        have h0 : (splitPath p).filter (fun c => decide (c ≠ [])) = [] := by
          by_contra h; exact hnames h
        rw [h0] at hc
        simp at hc
  · intro l hl e
    have hdd2 : ['.', '.'] ∉ (pathElements p).dropLast := fun h => hdd (List.dropLast_subset _ h)
    rw [← hsplit] at hl
    have hpre := chainLocs_concat_below _ c cwd hdd2 _ hl
    rw [e, hres] at hpre
    have := hpre.length_le
    simp at this
  · intro hne
    rw [hres, List.dropLast_concat]
    have := chainLocs_concat (pathElements p).dropLast c cwd hne
    rw [hsplit] at this
    exact this

theorem dir_path_facts (cwd : Loc) (p : List Char) (h : [] ∈ pathElements p) :
    resolve cwd p ∈ chainLocs cwd (pathElements p) := by
  obtain ⟨names, hne, hel⟩ := pathElements_trailing p h
  rw [resolve_eq_foldl_pathElements, hel, List.foldl_append]
  simp only [List.foldl_cons, List.foldl_nil, normStep_nil]
  exact chainLocs_concat names [] cwd hne

theorem endsWithSeparator_entryPath (fn : List Char) (h : fn.getLast? = some '/') :
    endsWithSeparator (gameSrcPath ++ fn) = true := by
  unfold endsWithSeparator
  rw [List.getLast?_append, h]
  rfl

theorem trailing_entryPath (fn : List Char) (h : fn.getLast? = some '/') :
    [] ∈ pathElements (gameSrcPath ++ fn) := by
  rw [pathElements_entryPath]
  unfold entryElements
  simp only [endsWithSeparator_entryPath fn h, if_true]
  simp

theorem dropLast_pathElements_entryPath (fn : List Char) :
    (pathElements (gameSrcPath ++ fn)).dropLast ≠ [] := by
  rw [pathElements_entryPath]
  cases entryElements fn with
  | nil => simp
  | cons c cs => simp [List.dropLast]

theorem write_wf (d : Disk) (dest : Loc) (b : List Byte) (hw : d.WellFormed) :
    (ofstream.write d dest b).WellFormed := by
  unfold ofstream.write
  cases hl : d.lookup dest with
  | none => exact hw
  | some n =>
    cases n with
    | dir => exact hw
    | file c =>
      simp only []
      by_cases h0 : dest = []
      · intro l1 h1 hne
        rw [Disk.lookup_insert] at hne ⊢
        have e1 : l1 ≠ dest := by rw [h0]; exact h1
        simp only [e1, if_false] at hne
        have := hw l1 h1 hne
        by_cases e : l1.dropLast = dest
        · rw [e, hl] at this; simp at this
        · simp [e, this]
      · exact hw.insert_file dest _ h0 (hw dest h0 (by rw [hl]; simp)) (by rw [hl]; simp)

theorem feed_foldl_wf (i : Nat) (dest : Loc) (good : List ReadResult) :
    ∀ s : State, s.disk.WellFormed → (good.foldl (feed i dest) s).disk.WellFormed := by
  induction good with
  | nil => intro s h; exact h
  | cons r good ih =>
    intro s h
    rw [List.foldl_cons]
    apply ih
    simp only [feed, State.log]
    exact write_wf _ _ _ h

theorem Entry.dirs_eq (cwd : Loc) (e : Entry) (fn : List Char) (h : e.info = some fn) :
    e.dirs cwd = chainLocs cwd (pathElements (gameSrcPath ++ fn)) := by
  simp [Entry.dirs, h, needDirs, entryPath]

theorem Entry.dest_eq (cwd : Loc) (e : Entry) (fn : List Char) (h : e.info = some fn) :
    e.dest cwd = resolve cwd (gameSrcPath ++ fn) := by
  simp [Entry.dest, h, destLoc, entryPath]

theorem Entry.isFile_eq (e : Entry) (fn : List Char) (h : e.info = some fn) :
    e.isFile = decide (isDirectoryEntry fn = some false) := by
  simp [Entry.isFile, h]

/-- The extraction of one sound entry on a tree-shaped disk on which its
directories are free or directories and its destination, for a file entry,
is not a directory. -/
theorem extractEntry_sound (i : Nat) (e : Entry) (fn : List Char) (s : State)
    (hinfo : e.info = some fn) (hs : e.Sound)
    (hw : s.disk.WellFormed) (hcwd : s.disk.lookup s.disk.cwd = some Node.dir)
    (hfree : ∀ l ∈ e.dirs s.disk.cwd, s.disk.freeOrDir l)
    (hdest : e.isFile = true → s.disk.lookup (e.dest s.disk.cwd) ≠ some Node.dir) :
    ∃ s1, extractEntry i e fn s = .ok s1 ∧ s1.disk.cwd = s.disk.cwd ∧ s1.disk.WellFormed ∧
      ∀ l, s1.disk.lookup l = entryEffect s.disk.cwd e s.disk.lookup l := by
  obtain ⟨_, fn1, hfn1, hdd, hkind⟩ := hs
  have hfn : fn1 = fn := by
    rw [hinfo] at hfn1
    simp only [Option.mem_def, Option.some.injEq] at hfn1
    exact hfn1.symm
  subst hfn
  unfold entryPath at hdd hkind
  have hdirs := Entry.dirs_eq s.disk.cwd e fn1 hinfo
  have hdst := Entry.dest_eq s.disk.cwd e fn1 hinfo
  have hisf := Entry.isFile_eq e fn1 hinfo
  rw [hdirs] at hfree
  obtain ⟨d1, ht, hc1, hw1, hl1⟩ :=
    tryCreateParentDir_ok s.disk (gameSrcPath ++ fn1) hw hcwd hfree hdd
  rcases hkind with hdir | ⟨hfile, hopen, hgood, c, hc, hn⟩
  · -- a directory entry
    have hnf : e.isFile = false := by rw [hisf, hdir]; decide
    obtain ⟨_, _, c, hlast, hceq⟩ := isDirectoryEntry_some fn1 true hdir
    have hc : c = '/' := by
      have : (c == DIR_IDENTIFY) = true := hceq.symm
      simpa [DIR_IDENTIFY] using this
    rw [hc] at hlast
    have hmem := dir_path_facts s.disk.cwd _ (trailing_entryPath fn1 hlast)
    have heff : ∀ l, entryEffect s.disk.cwd e s.disk.lookup l =
        if l ∈ chainLocs s.disk.cwd (pathElements (gameSrcPath ++ fn1)) then some Node.dir
        else s.disk.lookup l := by
      intro l
      unfold entryEffect
      simp [hnf, hdirs]
    unfold extractEntry
    rw [hdir]
    simp only []
    by_cases hex : fs.exists s.disk (gameSrcPath ++ fn1) = true
    · rw [if_pos hex]
      rw [tryCreateParentDir_eq, if_pos hex] at ht
      simp only [Except.ok.injEq] at ht
      subst ht
      exact ⟨s, rfl, rfl, hw, fun l => by rw [heff, ← hl1]⟩
    · rw [if_neg hex, ht]
      simp only []
      have hcd : fs.create_directory d1 (gameSrcPath ++ fn1) = .ok d1 := by
        unfold fs.create_directory
        simp only [hc1]
        rw [hl1, if_pos hmem]
      rw [hcd]
      exact ⟨_, rfl, hc1, hw1, fun l => by rw [heff, ← hl1]⟩
  · -- a file entry
    have hif : e.isFile = true := by rw [hisf, hfile]; decide
    obtain ⟨hp0, hends, hres, hnotin, hpar⟩ :=
      file_path_facts s.disk.cwd (gameSrcPath ++ fn1) c hc hn hdd
    have hpar2 := hpar (dropLast_pathElements_entryPath fn1)
    have hd0 : resolve s.disk.cwd (gameSrcPath ++ fn1) ≠ [] := by rw [hres]; simp
    have hld : d1.lookup (resolve s.disk.cwd (gameSrcPath ++ fn1)) ≠ some Node.dir := by
      rw [hl1, if_neg (fun h => hnotin _ h rfl), ← hdst]
      exact hdest hif
    have hlp : d1.lookup (resolve s.disk.cwd (gameSrcPath ++ fn1)).dropLast = some Node.dir := by
      rw [hl1, if_pos hpar2]
    have hopen2 : ofstream.open d1 (gameSrcPath ++ fn1) =
        some (d1.insert (resolve s.disk.cwd (gameSrcPath ++ fn1)) (.file [])) := by
      unfold ofstream.open
      simp only [hc1]
      have hcond : ¬ (gameSrcPath ++ fn1 = [] ∨ endsWithSeparator (gameSrcPath ++ fn1) = true) := by
        rw [hends]; simp [hp0]
      rw [if_neg hcond]
      cases hl : d1.lookup (resolve s.disk.cwd (gameSrcPath ++ fn1)) with
      | none =>
        simp only []
        rw [if_pos ⟨hd0, hlp⟩]
      | some n =>
        cases n with
        | dir => exact absurd hl hld
        | file b => rfl
    obtain ⟨hE, _, hl3, _⟩ := extractEntry_file i e fn1 s d1 _ hfile hopen ht hopen2
    have hcopy := copyLoop_good i (destLoc s.disk.cwd fn1) e.reads []
      { disk := d1.insert (resolve s.disk.cwd (gameSrcPath ++ fn1)) (.file []),
        trace := s.trace ++ [Event.unzOpenCurrentFile i] } hgood
    rw [List.append_nil] at hcopy
    rw [hcopy] at hE
    obtain ⟨f1, f2, _⟩ := feed_foldl i (destLoc s.disk.cwd fn1) e.reads
      { disk := d1.insert (resolve s.disk.cwd (gameSrcPath ++ fn1)) (.file []),
        trace := s.trace ++ [Event.unzOpenCurrentFile i] } [] hl3
    have hwf := feed_foldl_wf i (destLoc s.disk.cwd fn1) e.reads
      { disk := d1.insert (resolve s.disk.cwd (gameSrcPath ++ fn1)) (.file []),
        trace := s.trace ++ [Event.unzOpenCurrentFile i] }
      (hw1.insert_file _ _ hd0 hlp hld)
    simp only [copyLoop] at hE
    refine ⟨_, hE, ?_, ?_, fun l => ?_⟩
    · simp only [State.log]; rw [f1]; exact hc1
    · simp only [State.log]; exact hwf
    · simp only [State.log]
      rw [f2 l]
      unfold entryEffect
      have hde : destLoc s.disk.cwd fn1 = e.dest s.disk.cwd := by rw [hdst]; rfl
      rw [hde]
      by_cases hl : l = e.dest s.disk.cwd
      · simp [hl, hif, Entry.content]
      · have hl2 : l ≠ resolve s.disk.cwd (gameSrcPath ++ fn1) := by rw [← hdst]; exact hl
        simp only [hl, if_false, and_false, Disk.lookup_insert, hl2, hl1, hdirs]

/-! ## The tree a sound archive produces -/

theorem allDirs_cons (cwd : Loc) (e : Entry) (rest : List Entry) :
    allDirs cwd (e :: rest) = e.dirs cwd ++ allDirs cwd rest := by
  simp [allDirs]

theorem NoClash.tail {cwd : Loc} {e : Entry} {rest : List Entry} (h : NoClash cwd (e :: rest)) :
    NoClash cwd rest := by
  intro f hf hfile hmem
  apply h f (List.mem_cons_of_mem _ hf) hfile
  rw [allDirs_cons]
  exact List.mem_append_right _ hmem

theorem lastFile_cons (cwd : Loc) (e : Entry) (rest : List Entry) (l : Loc) :
    lastFile cwd (e :: rest) l =
      match lastFile cwd rest l with
      | some f => some f
      | none => if e.isFile = true ∧ e.dest cwd = l then some e else none := by
  unfold lastFile
  by_cases hc : e.isFile = true ∧ e.dest cwd = l
  · have : (e.isFile && decide (e.dest cwd = l)) = true := by simp [hc.1, hc.2]
    have hf : List.filter (fun e => e.isFile && decide (e.dest cwd = l)) (e :: rest) =
        e :: List.filter (fun e => e.isFile && decide (e.dest cwd = l)) rest := by
      rw [List.filter_cons]
      simp only [this, if_true]
    rw [hf, List.getLast?_cons]
    cases List.getLast? (List.filter (fun e => e.isFile && decide (e.dest cwd = l)) rest) with
    | none => simp [hc]
    | some f => simp
  · have : ¬ (e.isFile && decide (e.dest cwd = l)) = true := by
      simp only [Bool.and_eq_true, decide_eq_true_eq]; exact hc
    have hf : List.filter (fun e => e.isFile && decide (e.dest cwd = l)) (e :: rest) =
        List.filter (fun e => e.isFile && decide (e.dest cwd = l)) rest := by
      rw [List.filter_cons]
      simp [this]
    rw [hf]
    cases List.getLast? (List.filter (fun e => e.isFile && decide (e.dest cwd = l)) rest) with
    | none => simp [hc]
    | some f => simp

theorem expectedTree_cons (cwd : Loc) (e : Entry) (rest : List Entry) (base : Loc → Option Node)
    (l : Loc) (h : NoClash cwd (e :: rest)) :
    expectedTree cwd (e :: rest) base l = expectedTree cwd rest (entryEffect cwd e base) l := by
  unfold expectedTree
  rw [lastFile_cons]
  cases hlf : lastFile cwd rest l with
  | some f => rfl
  | none =>
    simp only []
    by_cases hc : e.isFile = true ∧ e.dest cwd = l
    · rw [if_pos hc]
      have hno : l ∉ allDirs cwd rest := by
        intro hm
        apply h e (List.mem_cons_self _ _) hc.1
        rw [hc.2, allDirs_cons]
        exact List.mem_append_right _ hm
      simp only [hno, if_false, entryEffect]
      rw [if_pos ⟨hc.1, hc.2.symm⟩]
    · rw [if_neg hc]
      have hc2 : ¬ (e.isFile = true ∧ l = e.dest cwd) := fun x => hc ⟨x.1, x.2.symm⟩
      simp only [entryEffect, if_neg hc2, allDirs_cons, List.mem_append]
      by_cases h1 : l ∈ allDirs cwd rest
      · simp [h1]
      · by_cases h2 : l ∈ e.dirs cwd
        · simp [h1, h2]
        · simp [h1, h2]

theorem expectedTree_congr (cwd : Loc) (es : List Entry) (base base1 : Loc → Option Node)
    (l : Loc) (h : base l = base1 l) :
    expectedTree cwd es base l = expectedTree cwd es base1 l := by
  unfold expectedTree
  rw [h]

theorem extractLoop_sound (n : Nat) (es : List Entry) :
    ∀ (i : Nat) (s : State),
      s.disk.WellFormed → s.disk.lookup s.disk.cwd = some Node.dir →
      (∀ e ∈ es, e.Sound) →
      (∀ l ∈ allDirs s.disk.cwd es, s.disk.freeOrDir l) →
      (∀ f ∈ es, f.isFile = true → s.disk.lookup (f.dest s.disk.cwd) ≠ some Node.dir) →
      NoClash s.disk.cwd es →
      ∃ sf, extractLoop n i es s = .ok sf ∧ sf.disk.cwd = s.disk.cwd ∧ sf.disk.WellFormed ∧
        ∀ l, sf.disk.lookup l = expectedTree s.disk.cwd es s.disk.lookup l := by
  induction es with
  | nil =>
    intro i s hw _ _ _ _ _
    refine ⟨s, rfl, rfl, hw, fun l => ?_⟩
    simp [expectedTree, lastFile, allDirs]
  | cons e rest ih =>
    intro i s hw hcwd hsound hfree hdest hclash
    have hse := hsound e (List.mem_cons_self _ _)
    obtain ⟨hnext, fn, hfn, _⟩ := hsound e (List.mem_cons_self _ _)
    have hinfo : e.info = some fn := by simpa using hfn
    obtain ⟨s1, h1, hc1, hw1, hl1⟩ := extractEntry_sound i e fn (s.log (.unzGetCurrentFileInfo i))
      hinfo hse hw hcwd
      (fun l hl => hfree l (by rw [allDirs_cons]; exact List.mem_append_left _ hl))
      (hdest e (List.mem_cons_self _ _))
    simp only [State.log] at hc1 hl1
    have hcwd1 : s1.disk.lookup s1.disk.cwd = some Node.dir := by
      rw [hc1, hl1]
      unfold entryEffect
      by_cases hc : e.isFile = true ∧ s.disk.cwd = e.dest s.disk.cwd
      · exfalso
        have := hdest e (List.mem_cons_self _ _) hc.1
        rw [← hc.2] at this
        exact this hcwd
      · rw [if_neg hc]
        by_cases h2 : s.disk.cwd ∈ e.dirs s.disk.cwd
        · rw [if_pos h2]
        · rw [if_neg h2]; exact hcwd
    have hfree1 : ∀ l ∈ allDirs s1.disk.cwd rest, s1.disk.freeOrDir l := by
      intro l hl
      rw [hc1] at hl
      have hl2 : l ∈ allDirs s.disk.cwd (e :: rest) := by
        rw [allDirs_cons]; exact List.mem_append_right _ hl
      unfold Disk.freeOrDir
      rw [hl1]
      unfold entryEffect
      by_cases hc : e.isFile = true ∧ l = e.dest s.disk.cwd
      · exfalso
        apply hclash e (List.mem_cons_self _ _) hc.1
        rw [← hc.2]; exact hl2
      · rw [if_neg hc]
        by_cases h2 : l ∈ e.dirs s.disk.cwd
        · rw [if_pos h2]; right; rfl
        · rw [if_neg h2]; exact hfree l hl2
    have hdest1 : ∀ f ∈ rest, f.isFile = true →
        s1.disk.lookup (f.dest s1.disk.cwd) ≠ some Node.dir := by
      intro f hf hfile
      rw [hc1, hl1]
      unfold entryEffect
      by_cases hc : e.isFile = true ∧ f.dest s.disk.cwd = e.dest s.disk.cwd
      · rw [if_pos hc]; simp
      · rw [if_neg hc]
        by_cases h2 : f.dest s.disk.cwd ∈ e.dirs s.disk.cwd
        · exfalso
          apply hclash f (List.mem_cons_of_mem _ hf) hfile
          rw [allDirs_cons]; exact List.mem_append_left _ h2
        · rw [if_neg h2]
          exact hdest f (List.mem_cons_of_mem _ hf) hfile
    have hclash1 : NoClash s1.disk.cwd rest := by rw [hc1]; exact hclash.tail
    have hsound1 : ∀ e1 ∈ rest, e1.Sound := fun e1 h => hsound e1 (List.mem_cons_of_mem _ h)
    have hcont : ∀ s3 : State, s3.disk = s1.disk →
        ∃ sf, extractLoop n (i + 1) rest s3 = .ok sf ∧ sf.disk.cwd = s.disk.cwd ∧
          sf.disk.WellFormed ∧
          ∀ l, sf.disk.lookup l = expectedTree s.disk.cwd (e :: rest) s.disk.lookup l := by
      intro s3 hs3
      obtain ⟨sf, g1, g2, g3, g4⟩ := ih (i + 1) s3 (by rw [hs3]; exact hw1)
        (by rw [hs3]; exact hcwd1) hsound1 (by rw [hs3]; exact hfree1)
        (by rw [hs3]; exact hdest1) (by rw [hs3]; exact hclash1)
      refine ⟨sf, g1, by rw [g2, hs3, hc1], g3, fun l => ?_⟩
      rw [g4 l, hs3, hc1, expectedTree_cons _ _ _ _ _ hclash]
      exact expectedTree_congr _ _ _ _ _ (hl1 l)
    rw [extractLoop_cons]
    simp only [hinfo, h1, hnext, Bool.true_eq_false, if_false]
    by_cases hi : i + 1 < n
    · rw [if_pos hi]
      exact hcont _ rfl
    · rw [if_neg hi]
      exact hcont _ rfl

theorem Disk.dataDirEmpty_of_check (d : Disk) (h : d.dataDirEmptyCheck = true) :
    ∀ l, dataLoc d <+: l → l ≠ dataLoc d → d.lookup l = none := by
  intro l hp hne
  unfold Disk.lookup
  apply lookupNode_eq_none_of_not_mem
  intro b hb hbl
  have := List.all_eq_true.1 h b hb
  rw [hbl] at this
  have hp2 : (dataLoc d).isPrefixOf l = true := List.isPrefixOf_iff_prefix.2 hp
  simp [hp2, hne] at this

theorem splitPath_getLast (p : List Char) :
    p ≠ [] → endsWithSeparator p = false → ∃ c, (splitPath p).getLast? = some c ∧ c ≠ [] := by
  induction p with
  | nil => intro h; exact absurd rfl h
  | cons x cs ih =>
    intro _ hends
    by_cases hcs : cs = []
    · subst hcs
      have hx : isSeparator x = false := by simpa [endsWithSeparator] using hends
      exact ⟨[x], by simp [splitPath, hx], by simp⟩
    · have hends2 : endsWithSeparator cs = false := by
        have : (x :: cs).getLast? = cs.getLast? := by
          cases cs with
          | nil => exact absurd rfl hcs
          | cons y ys => simp [List.getLast?_cons_cons]
        unfold endsWithSeparator at hends ⊢
        rw [this] at hends
        exact hends
      obtain ⟨c, hc, hc0⟩ := ih hcs hends2
      have hne := splitPath_ne_nil cs
      by_cases hx : isSeparator x = true
      · refine ⟨c, ?_, hc0⟩
        simp only [splitPath, hx, if_true]
        cases hs : splitPath cs with
        | nil => exact absurd hs hne
        | cons n ns => rw [hs] at hc; simpa [List.getLast?_cons_cons] using hc
      · have hx1 : isSeparator x = false := by simpa using hx
        cases hs : splitPath cs with
        | nil => exact absurd hs hne
        | cons n ns =>
          rw [hs] at hc
          have h0 : splitPath (x :: cs) = (x :: n) :: ns := by simp [splitPath, hx1, hs]
          rw [h0]
          cases ns with
          | nil => exact ⟨x :: n, by simp, by simp⟩
          | cons m ms =>
            refine ⟨c, ?_, hc0⟩
            simpa [List.getLast?_cons_cons] using hc

theorem entryElements_of_file (fn : List Char) (c : Name)
    (hc : c ∈ (pathElements (gameSrcPath ++ fn)).getLast?) (hn : IsName c) (hfn : fn ≠ []) :
    entryElements fn ≠ [] ∧ c ∈ (entryElements fn).getLast? := by
  have hends : endsWithSeparator (gameSrcPath ++ fn) = false := by
    cases he : endsWithSeparator (gameSrcPath ++ fn) with
    | false => rfl
    | true =>
      exfalso
      rw [pathElements_entryPath] at hc
      unfold entryElements at hc
      simp only [he, if_true] at hc
      rw [← List.cons_append, ← List.cons_append, List.getLast?_concat] at hc
      simp only [Option.mem_def, Option.some.injEq] at hc
      exact hn.1 hc.symm
  have hends2 : endsWithSeparator fn = false := by
    unfold endsWithSeparator at hends ⊢
    rw [List.getLast?_append] at hends
    cases hl : fn.getLast? with
    | none => simp [List.getLast?_eq_none_iff] at hl; exact absurd hl hfn
    | some y => rw [hl] at hends; simpa using hends
  obtain ⟨c1, hc1, hc10⟩ := splitPath_getLast fn hfn hends2
  have hmem : c1 ∈ (splitPath fn).filter (fun c => decide (c ≠ [])) := by
    apply List.mem_filter.2
    exact ⟨List.mem_of_getLast?_eq_some hc1, by simpa using hc10⟩
  have hE : entryElements fn = (splitPath fn).filter (fun c => decide (c ≠ [])) := by
    unfold entryElements
    simp only [hends]
    simp
  have hne : entryElements fn ≠ [] := by
    rw [hE]; exact List.ne_nil_of_mem hmem
  refine ⟨hne, ?_⟩
  rw [pathElements_entryPath] at hc
  cases hEE : entryElements fn with
  | nil => exact absurd hEE hne
  | cons a as =>
    rw [hEE] at hc
    simpa [List.getLast?_cons_cons] using hc

theorem file_dest_below (cwd : Loc) (fn : List Char) (c : Name)
    (hc : c ∈ (pathElements (gameSrcPath ++ fn)).getLast?) (hn : IsName c) (hfn : fn ≠ [])
    (hdd : ['.', '.'] ∉ pathElements (gameSrcPath ++ fn)) :
    cwd ++ [dataName] <+: destLoc cwd fn ∧ destLoc cwd fn ≠ cwd ++ [dataName] := by
  obtain ⟨hne, hcE⟩ := entryElements_of_file fn c hc hn hfn
  have hdd2 : ['.', '.'] ∉ entryElements fn := by
    intro h; apply hdd; rw [pathElements_entryPath]; simp [h]
  have hdd3 : ['.', '.'] ∉ (entryElements fn).dropLast := fun h => hdd2 (List.dropLast_subset _ h)
  have hsplit := List.dropLast_append_getLast? c hcE
  have hnd : IsName dataName := by decide
  have hdot : normStep cwd ['.'] = cwd := by simp [normStep]
  have hres : destLoc cwd fn =
      (entryElements fn).dropLast.foldl normStep (cwd ++ [dataName]) ++ [c] := by
    unfold destLoc entryPath
    rw [resolve_eq_foldl_pathElements, pathElements_entryPath]
    simp only [List.foldl_cons, hdot, normStep_name _ _ hnd]
    conv => lhs; rw [← hsplit]
    rw [List.foldl_append]
    simp only [List.foldl_cons, List.foldl_nil, normStep_name _ c hn]
  have hpre := foldl_normStep_extends (entryElements fn).dropLast (cwd ++ [dataName]) hdd3
  rw [hres]
  refine ⟨hpre.trans (List.prefix_append _ _), fun e => ?_⟩
  have h1 := hpre.length_le
  have h2 := congrArg List.length e
  simp only [List.length_append, List.length_singleton] at h1 h2
  omega

/-- On a disk whose data directory is an empty directory, the directories
of sound entries are free or directories and the destinations of sound file
entries are free. -/
theorem fresh_conditions (d : Disk) (es : List Entry)
    (hcwd : d.lookup d.cwd = some Node.dir) (hdata : d.lookup (dataLoc d) = some Node.dir)
    (hempty : ∀ l, dataLoc d <+: l → l ≠ dataLoc d → d.lookup l = none)
    (hsound : ∀ e ∈ es, e.Sound) :
    (∀ l ∈ allDirs d.cwd es, d.freeOrDir l) ∧
    (∀ f ∈ es, f.isFile = true → d.lookup (f.dest d.cwd) = none) := by
  constructor
  · intro l hl
    obtain ⟨e, he, hle⟩ := List.mem_flatMap.1 hl
    obtain ⟨_, fn, hfn, hdd, _⟩ := hsound e he
    have hinfo : e.info = some fn := by simpa using hfn
    rw [Entry.dirs_eq _ e fn hinfo] at hle
    unfold entryPath at hdd
    have hdd2 : ['.', '.'] ∉ entryElements fn := by
      intro h; apply hdd; rw [pathElements_entryPath]; simp [h]
    rcases chainLocs_entryPath d.cwd fn l hle with h | h | h
    · right; rw [h]; exact hcwd
    · right; rw [h]; exact hdata
    · have hp := (chainLocs_between _ _ hdd2 l h).1
      by_cases e1 : l = dataLoc d
      · right; rw [e1]; exact hdata
      · left; exact hempty l hp e1
  · intro f hf hfile
    obtain ⟨_, fn, hfn, hdd, hkind⟩ := hsound f hf
    have hinfo : f.info = some fn := by simpa using hfn
    rw [Entry.isFile_eq f fn hinfo] at hfile
    have hfile2 : isDirectoryEntry fn = some false := by simpa using hfile
    rcases hkind with h | ⟨_, _, _, c, hc, hn⟩
    · rw [h] at hfile2; simp at hfile2
    · obtain ⟨hfn0, _, _⟩ := isDirectoryEntry_some fn false hfile2
      obtain ⟨h1, h2⟩ := file_dest_below d.cwd fn c hc hn hfn0 hdd
      have hde : f.dest d.cwd = destLoc d.cwd fn := by simp [Entry.dest, hinfo]
      rw [hde]
      exact hempty _ h1 h2

theorem lastFile_mem (cwd : Loc) (es : List Entry) (l : Loc) (f : Entry)
    (h : lastFile cwd es l = some f) : f ∈ es ∧ f.isFile = true ∧ f.dest cwd = l := by
  unfold lastFile at h
  have hm := List.mem_of_getLast?_eq_some h
  obtain ⟨h1, h2⟩ := List.mem_filter.1 hm
  simp only [Bool.and_eq_true, decide_eq_true_eq] at h2
  exact ⟨h1, h2.1, h2.2⟩

theorem lastFile_none (cwd : Loc) (es : List Entry) (l : Loc)
    (h : lastFile cwd es l = none) : ∀ f ∈ es, ¬ (f.isFile = true ∧ f.dest cwd = l) := by
  unfold lastFile at h
  rw [List.getLast?_eq_none_iff] at h
  intro f hf hc
  have : f ∈ es.filter (fun e => e.isFile && decide (e.dest cwd = l)) := by
    apply List.mem_filter.2
    exact ⟨hf, by simp [hc.1, hc.2]⟩
  rw [h] at this
  simp at this

theorem expectedTree_dir (cwd : Loc) (es : List Entry) (base : Loc → Option Node) (l : Loc)
    (hc : NoClash cwd es) (hl : l ∈ allDirs cwd es) :
    expectedTree cwd es base l = some Node.dir := by
  unfold expectedTree
  cases hlf : lastFile cwd es l with
  | some f =>
    obtain ⟨h1, h2, h3⟩ := lastFile_mem cwd es l f hlf
    exfalso
    apply hc f h1 h2
    rw [h3]; exact hl
  | none => simp [hl]

theorem lastFile_split (cwd : Loc) (pre post : List Entry) (f : Entry)
    (hf : f.isFile = true)
    (hpost : ∀ g ∈ post, g.isFile = true → g.dest cwd ≠ f.dest cwd) :
    lastFile cwd (pre ++ f :: post) (f.dest cwd) = some f := by
  unfold lastFile
  have hp : post.filter (fun e => e.isFile && decide (e.dest cwd = f.dest cwd)) = [] := by
    apply List.filter_eq_nil_iff.2
    intro g hg
    simp only [Bool.and_eq_true, decide_eq_true_eq, not_and]
    exact hpost g hg
  have hc : (f.isFile && decide (f.dest cwd = f.dest cwd)) = true := by simp [hf]
  have hff : List.filter (fun e => e.isFile && decide (e.dest cwd = f.dest cwd)) (f :: post) =
      [f] := by
    rw [List.filter_cons]
    simp [hf, hp]
  rw [List.filter_append, hff, List.getLast?_concat]

theorem lastFile_reorder (cwd : Loc) (A B : List Entry) (l : Loc)
    (h : A.filter Entry.isFile = B.filter Entry.isFile) :
    lastFile cwd A l = lastFile cwd B l := by
  unfold lastFile
  have key : ∀ C : List Entry, C.filter (fun e => e.isFile && decide (e.dest cwd = l)) =
      (C.filter Entry.isFile).filter (fun e => decide (e.dest cwd = l)) := by
    intro C
    rw [List.filter_filter]
    congr 1
    funext e
    exact Bool.and_comm _ _
  rw [key A, key B, h]

theorem perm_short (L M : List Entry) (h : L.Perm M) (hlen : L.length ≤ 1) : L = M := by
  cases L with
  | nil => exact (List.nil_perm.1 h).symm
  | cons a as =>
    cases as with
    | nil => exact List.singleton_perm.1 h
    | cons b bs => simp at hlen

theorem lastFile_perm (cwd : Loc) (A B : List Entry) (l : Loc) (h : A.Perm B)
    (hd : ((A.filter Entry.isFile).map (Entry.dest cwd)).Nodup) :
    lastFile cwd A l = lastFile cwd B l := by
  unfold lastFile
  have hp := h.filter (fun e => e.isFile && decide (e.dest cwd = l))
  have hsub : (A.filter (fun e => e.isFile && decide (e.dest cwd = l))).Sublist
      (A.filter Entry.isFile) := by
    have : A.filter (fun e => e.isFile && decide (e.dest cwd = l)) =
        (A.filter Entry.isFile).filter (fun e => decide (e.dest cwd = l)) := by
      rw [List.filter_filter]
      congr 1
      funext e
      exact Bool.and_comm _ _
    rw [this]
    exact List.filter_sublist _
  have hnd := hd.sublist (hsub.map (Entry.dest cwd))
  have hrep : (A.filter (fun e => e.isFile && decide (e.dest cwd = l))).map (Entry.dest cwd) =
      List.replicate (A.filter (fun e => e.isFile && decide (e.dest cwd = l))).length l := by
    rw [List.eq_replicate_iff]
    refine ⟨by simp, fun b hb => ?_⟩
    obtain ⟨e, he, hbe⟩ := List.mem_map.1 hb
    have := (List.mem_filter.1 he).2
    simp only [Bool.and_eq_true, decide_eq_true_eq] at this
    rw [← hbe]; exact this.2
  rw [hrep, List.nodup_replicate] at hnd
  rw [perm_short _ _ hp hnd]

theorem allDirs_perm (cwd : Loc) (A B : List Entry) (h : A.Perm B) (l : Loc) :
    l ∈ allDirs cwd A ↔ l ∈ allDirs cwd B := by
  unfold allDirs
  simp only [List.mem_flatMap]
  constructor
  · rintro ⟨e, he, hl⟩; exact ⟨e, h.mem_iff.1 he, hl⟩
  · rintro ⟨e, he, hl⟩; exact ⟨e, h.mem_iff.2 he, hl⟩

theorem expectedTree_eq (cwd : Loc) (A B : List Entry) (base : Loc → Option Node) (l : Loc)
    (hf : lastFile cwd A l = lastFile cwd B l)
    (hd : l ∈ allDirs cwd A ↔ l ∈ allDirs cwd B) :
    expectedTree cwd A base l = expectedTree cwd B base l := by
  unfold expectedTree
  rw [hf]
  cases lastFile cwd B l with
  | some f => rfl
  | none =>
    simp only []
    by_cases h : l ∈ allDirs cwd A
    · rw [if_pos h, if_pos (hd.1 h)]
    · rw [if_neg h, if_neg (fun x => h (hd.2 x))]

/-- A sound archive without clashes is extracted whole into an empty data
directory, and the result is the tree it describes. -/
theorem extractLoop_fresh (n i : Nat) (es : List Entry) (s : State)
    (hw : s.disk.WellFormed) (hcwd : s.disk.lookup s.disk.cwd = some Node.dir)
    (hdata : s.disk.lookup (dataLoc s.disk) = some Node.dir)
    (hempty : ∀ l, dataLoc s.disk <+: l → l ≠ dataLoc s.disk → s.disk.lookup l = none)
    (hsound : ∀ e ∈ es, e.Sound) (hclash : NoClash s.disk.cwd es) :
    ∃ sf, extractLoop n i es s = .ok sf ∧ sf.disk.cwd = s.disk.cwd ∧ sf.disk.WellFormed ∧
      ∀ l, sf.disk.lookup l = expectedTree s.disk.cwd es s.disk.lookup l := by
  obtain ⟨h1, h2⟩ := fresh_conditions s.disk es hcwd hdata hempty hsound
  exact extractLoop_sound n es i s hw hcwd hsound h1
    (fun f hf hfile => by rw [h2 f hf hfile]; simp) hclash

/-! ## The claims about the extracted tree -/

/-- C4 (as amended): take a readable archive `A` whose entries may come in
any order, a file before the entry of its parent directory or without any
entry for it (sound entries, no file extracted to a location that has to be
a directory), and an arrangement `B` of it in which directory entries precede
their children: the same file entries in the same order and the same
directories called for. Extracted into an empty data directory, both walks
succeed and leave the same tree; in it every ancestor of every entry is a
directory and every file entry that is the last one for its destination
exists with its content. -/
theorem parents_created_on_demand (A B : List Entry) (s : State)
    (hw : s.disk.WellFormed) (hcwd : s.disk.lookup s.disk.cwd = some Node.dir)
    (hdata : s.disk.lookup (dataLoc s.disk) = some Node.dir)
    (hempty : ∀ l, dataLoc s.disk <+: l → l ≠ dataLoc s.disk → s.disk.lookup l = none)
    (hA : ∀ e ∈ A, e.Sound) (hB : ∀ e ∈ B, e.Sound)
    (hclash : NoClash s.disk.cwd A)
    (hfiles : A.filter Entry.isFile = B.filter Entry.isFile)
    (hAB : ∀ l ∈ allDirs s.disk.cwd A, l ∈ allDirs s.disk.cwd B)
    (hBA : ∀ l ∈ allDirs s.disk.cwd B, l ∈ allDirs s.disk.cwd A) :
    ∃ sa sb, extractLoop A.length 0 A s = .ok sa ∧ extractLoop B.length 0 B s = .ok sb ∧
      (∀ l, sa.disk.lookup l = sb.disk.lookup l) ∧
      (∀ l ∈ allDirs s.disk.cwd A, sa.disk.lookup l = some Node.dir) ∧
      (∀ pre f post, A = pre ++ f :: post → f.isFile = true →
        (∀ g ∈ post, g.isFile = true → g.dest s.disk.cwd ≠ f.dest s.disk.cwd) →
        sa.disk.lookup (f.dest s.disk.cwd) = some (Node.file f.content)) := by
  have hclashB : NoClash s.disk.cwd B := by
    intro f hf hfile hmem
    have hfA : f ∈ A := by
      have : f ∈ B.filter Entry.isFile := List.mem_filter.2 ⟨hf, hfile⟩
      rw [← hfiles] at this
      exact (List.mem_filter.1 this).1
    exact hclash f hfA hfile (hBA _ hmem)
  obtain ⟨sa, a1, _, _, a4⟩ := extractLoop_fresh A.length 0 A s hw hcwd hdata hempty hA hclash
  obtain ⟨sb, b1, _, _, b4⟩ := extractLoop_fresh B.length 0 B s hw hcwd hdata hempty hB hclashB
  refine ⟨sa, sb, a1, b1, fun l => ?_, fun l hl => ?_, fun pre f post hsplit hf hpost => ?_⟩
  · rw [a4, b4]
    exact expectedTree_eq _ _ _ _ _ (lastFile_reorder _ _ _ _ hfiles) ⟨hAB l, hBA l⟩
  · rw [a4]
    exact expectedTree_dir _ _ _ _ hclash hl
  · rw [a4]
    unfold expectedTree
    rw [hsplit, lastFile_split _ _ _ _ hf hpost]

/-- C4, witness: `assets/sprite.png` stored before `assets/`, against the
arrangement with `assets/` in front. -/
theorem parents_created_on_demand_witness :
    (extractLoop 3 0 fileFirst ⟨freshDisk, []⟩).isDefined = true ∧
    (extractLoop 3 0 fileFirst ⟨freshDisk, []⟩).state?.map
      (fun x => x.disk.lookup [dataName, "assets".toList, "sprite.png".toList]) =
    (extractLoop 3 0 dirFirst ⟨freshDisk, []⟩).state?.map
      (fun x => x.disk.lookup [dataName, "assets".toList, "sprite.png".toList]) := by
  obtain ⟨sa, sb, h1, h2, h3, _⟩ := parents_created_on_demand fileFirst dirFirst ⟨freshDisk, []⟩
    (Disk.wellFormed_of_check _ (by decide)) (by decide) (by decide)
    (Disk.dataDirEmpty_of_check _ (by decide)) (by decide) (by decide) (by decide) (by decide)
    (by decide) (by decide)
  have e1 : fileFirst.length = 3 := rfl
  have e2 : dirFirst.length = 3 := rfl
  rw [e1] at h1
  rw [e2] at h2
  rw [h1, h2]
  exact ⟨rfl, by simp [Result.state?, h3]⟩

/-- C4, counterexample: `assets/sprite.png` is stored without an entry for
its parent directory, and a later file entry is named `assets`. Every entry
is readable, but the second one is extracted to the location that has to be
a directory for the first: its stream cannot be opened, the walk into the
empty data directory throws "could not open destination file", and the run
ends with the reported exception and without a launch. -/
theorem file_named_as_parent_directory :
    (∀ e ∈ clashEntries, e.Sound) ∧ ¬ NoClash [] clashEntries ∧
    (extractLoop 2 0 clashEntries ⟨freshDisk, []⟩).thrown? = some .openDestination ∧
    (WinMain [] ⟨[80, 75, 3, 4], true, clashEntries⟩ bareDisk).map
      (fun s => s.trace.getLast?) = some (some (.cerr .openDestination)) ∧
    (WinMain [] ⟨[80, 75, 3, 4], true, clashEntries⟩ bareDisk).map
      (fun s => s.disk.lookup [dataName, "assets".toList]) = some (some Node.dir) := by
  decide

/-- C2 (as amended): a readable archive `A` with N entries (sound entries,
no file extracted to a location that has to be a directory, file entries
with pairwise distinct destinations) is extracted whole into an empty data
directory. The objects under that directory are then exactly the
destinations of the entries and the ancestor directories created for them,
each entry's destination holding a directory for a directory entry and the
file with its content for a file entry; they are exactly N objects, the
destinations, when these are pairwise distinct, lie under the data
directory and include every ancestor. The final tree is the same for every
permutation `B` of the entries. -/
theorem extraction_produces_entries (A B : List Entry) (s : State)
    (hw : s.disk.WellFormed) (hcwd : s.disk.lookup s.disk.cwd = some Node.dir)
    (hdata : s.disk.lookup (dataLoc s.disk) = some Node.dir)
    (hempty : ∀ l, dataLoc s.disk <+: l → l ≠ dataLoc s.disk → s.disk.lookup l = none)
    (hA : ∀ e ∈ A, e.Sound) (hclash : NoClash s.disk.cwd A)
    (hdist : ((A.filter Entry.isFile).map (Entry.dest s.disk.cwd)).Nodup)
    (hperm : A.Perm B) :
    ∃ sa sb, extractLoop A.length 0 A s = .ok sa ∧ extractLoop B.length 0 B s = .ok sb ∧
      (∀ l, sb.disk.lookup l = sa.disk.lookup l) ∧
      (∀ l, dataLoc s.disk <+: l → l ≠ dataLoc s.disk →
        (sa.disk.lookup l ≠ none ↔
          l ∈ A.map (Entry.dest s.disk.cwd) ∨ l ∈ allDirs s.disk.cwd A)) ∧
      (∀ e ∈ A, sa.disk.lookup (e.dest s.disk.cwd) =
        some (if e.isFile = true then Node.file e.content else Node.dir)) ∧
      ((A.map (Entry.dest s.disk.cwd)).Nodup →
        (∀ e ∈ A, dataLoc s.disk <+: e.dest s.disk.cwd ∧ e.dest s.disk.cwd ≠ dataLoc s.disk) →
        (∀ l ∈ allDirs s.disk.cwd A, dataLoc s.disk <+: l → l ≠ dataLoc s.disk →
          l ∈ A.map (Entry.dest s.disk.cwd)) →
        (∀ l, (dataLoc s.disk <+: l ∧ l ≠ dataLoc s.disk ∧ sa.disk.lookup l ≠ none) ↔
          l ∈ A.map (Entry.dest s.disk.cwd)) ∧
        (A.map (Entry.dest s.disk.cwd)).toFinset.card = A.length) := by
  have hB : ∀ e ∈ B, e.Sound := fun e he => hA e (hperm.mem_iff.2 he)
  have hclashB : NoClash s.disk.cwd B := by
    intro f hf hfile hmem
    exact hclash f (hperm.mem_iff.2 hf) hfile ((allDirs_perm _ _ _ hperm _).2 hmem)
  obtain ⟨sa, a1, _, _, a4⟩ := extractLoop_fresh A.length 0 A s hw hcwd hdata hempty hA hclash
  obtain ⟨sb, b1, _, _, b4⟩ := extractLoop_fresh B.length 0 B s hw hcwd hdata hempty hB hclashB
  have hdestdir : ∀ e ∈ A, e.isFile = false → e.dest s.disk.cwd ∈ allDirs s.disk.cwd A := by
    intro e he hnf
    obtain ⟨_, fn, hfn, _, hkind⟩ := hA e he
    have hinfo : e.info = some fn := by simpa using hfn
    rw [Entry.isFile_eq e fn hinfo] at hnf
    rcases hkind with hdir | ⟨hfile, _⟩
    · obtain ⟨_, _, c, hlast, hceq⟩ := isDirectoryEntry_some fn true hdir
      have hc : c = '/' := by
        have : (c == DIR_IDENTIFY) = true := hceq.symm
        simpa [DIR_IDENTIFY] using this
      rw [hc] at hlast
      have hmem := dir_path_facts s.disk.cwd _ (trailing_entryPath fn hlast)
      apply List.mem_flatMap.2
      refine ⟨e, he, ?_⟩
      rw [Entry.dirs_eq _ e fn hinfo, Entry.dest_eq _ e fn hinfo]
      exact hmem
    · rw [hfile] at hnf; simp at hnf
  have hkinds : ∀ e ∈ A, sa.disk.lookup (e.dest s.disk.cwd) =
      some (if e.isFile = true then Node.file e.content else Node.dir) := by
    intro e he
    rw [a4]
    by_cases hf : e.isFile = true
    · rw [if_pos hf]
      unfold expectedTree
      cases hlf : lastFile s.disk.cwd A (e.dest s.disk.cwd) with
      | none => exact absurd ⟨hf, rfl⟩ (lastFile_none _ _ _ hlf e he)
      | some f =>
        obtain ⟨f1, f2, f3⟩ := lastFile_mem _ _ _ _ hlf
        have hinj := List.inj_on_of_nodup_map hdist
          (List.mem_filter.2 ⟨f1, f2⟩) (List.mem_filter.2 ⟨he, hf⟩) f3
        rw [hinj]
    · have hnf : e.isFile = false := by simpa using hf
      rw [if_neg hf]
      exact expectedTree_dir _ _ _ _ hclash (hdestdir e he hnf)
  have hobj : ∀ l, dataLoc s.disk <+: l → l ≠ dataLoc s.disk →
      (sa.disk.lookup l ≠ none ↔
        l ∈ A.map (Entry.dest s.disk.cwd) ∨ l ∈ allDirs s.disk.cwd A) := by
    intro l hp hne
    constructor
    · intro hl
      rw [a4] at hl
      unfold expectedTree at hl
      cases hlf : lastFile s.disk.cwd A l with
      | some f =>
        obtain ⟨f1, _, f3⟩ := lastFile_mem _ _ _ _ hlf
        left
        exact List.mem_map.2 ⟨f, f1, f3⟩
      | none =>
        rw [hlf] at hl
        simp only [] at hl
        by_cases hd : l ∈ allDirs s.disk.cwd A
        · exact Or.inr hd
        · rw [if_neg hd, hempty l hp hne] at hl
          exact absurd rfl hl
    · rintro (h | h)
      · obtain ⟨e, he, hle⟩ := List.mem_map.1 h
        rw [← hle, hkinds e he]
        simp
      · rw [a4, expectedTree_dir _ _ _ _ hclash h]
        simp
  refine ⟨sa, sb, a1, b1, fun l => ?_, hobj, hkinds, fun hnd hunder hclosed => ⟨fun l => ?_, ?_⟩⟩
  · rw [a4, b4]
    exact (expectedTree_eq _ _ _ _ _ (lastFile_perm _ _ _ _ hperm hdist)
      (allDirs_perm _ _ _ hperm l)).symm
  · constructor
    · rintro ⟨hp, hne, hl⟩
      rcases (hobj l hp hne).1 hl with h | h
      · exact h
      · exact hclosed l h hp hne
    · intro h
      obtain ⟨e, he, hle⟩ := List.mem_map.1 h
      obtain ⟨u1, u2⟩ := hunder e he
      rw [← hle]
      refine ⟨u1, u2, ?_⟩
      rw [hkinds e he]
      simp
  · rw [List.toFinset_card_of_nodup hnd, List.length_map]

/-- C2, witness: the three entries of the specification's example and their
reversal. -/
theorem extraction_produces_entries_witness :
    dirFirst.Perm dirFirst.reverse ∧
    (extractLoop 3 0 dirFirst ⟨freshDisk, []⟩).isDefined = true ∧
    (extractLoop 3 0 dirFirst.reverse ⟨freshDisk, []⟩).state?.map
      (fun x => x.disk.lookup [dataName, "config.ini".toList]) =
    (extractLoop 3 0 dirFirst ⟨freshDisk, []⟩).state?.map
      (fun x => x.disk.lookup [dataName, "config.ini".toList]) := by
  obtain ⟨sa, sb, h1, h2, h3, _⟩ := extraction_produces_entries dirFirst dirFirst.reverse
    ⟨freshDisk, []⟩ (Disk.wellFormed_of_check _ (by decide)) (by decide) (by decide)
    (Disk.dataDirEmpty_of_check _ (by decide)) (by decide) (by decide) (by decide) (by decide)
  have e1 : dirFirst.length = 3 := rfl
  have e2 : dirFirst.reverse.length = 3 := rfl
  rw [e1] at h1
  rw [e2] at h2
  rw [h1, h2]
  exact ⟨by decide, rfl, by simp [Result.state?, h3]⟩

/-- C2, counterexample: the archive has the single entry
`assets/sprite.png`, so N is 1; after the run two objects lie under the data
directory, the file and the directory `assets` created for it. -/
theorem ancestor_directory_is_extra :
    loneFileArchive.entries.length = 1 ∧
    (WinMain [] loneFileArchive bareDisk).map (fun s => s.disk.belowData) =
      some [[dataName, "assets".toList, "sprite.png".toList], [dataName, "assets".toList]] ∧
    (WinMain [] loneFileArchive bareDisk).map
      (fun s => s.disk.lookup [dataName, "assets".toList]) = some (some Node.dir) := by
  decide

end Starter
